import Mathlib

/-!
# Boolean evaluator and Minkowski engine of `cgalutils.cc`

A shallow embedding of `CGALUtils::applyBinaryOperator`, `CGALUtils::applyOperator`,
`CGALUtils::createPolyhedronFromPolySet`, `CGALUtils::applyMinkowski` with its strict filter,
`CGALUtils::applyHull`, `createNefPolyhedronFromPolySet`, `CGAL_Build_PolySet`,
`CGALUtils::createPolySetFromNefPolyhedron3`, `CGALUtils::is_weakly_convex`,
`CGALUtils::is_approximately_convex` and `ZRemover::visit`.

The exact geometry kernel (CGAL) is an external collaborator: it enters as a record of
functions (`Kernel`).  A kernel operation that throws a `CGAL::Failure_exception` is a
function returning `none`.  The global state the code touches (the kernel error mode, the
progress callbacks of the owning nodes, and the sequence of kernel operations issued) is
threaded explicitly as a `World`.
-/

namespace CGALUtils

/-! ## Data model -/

/-- Modelled from the spec: the operator selector `OpenSCADOperator` (its enum declaration
is not part of the sources at hand).  The first four values are the ones the evaluator's
switches handle; `OPENSCAD_HULL` and `OPENSCAD_RESIZE` fall into their `default` branch. -/
inductive OpenSCADOperator where
  | OPENSCAD_UNION
  | OPENSCAD_INTERSECTION
  | OPENSCAD_DIFFERENCE
  | OPENSCAD_MINKOWSKI
  | OPENSCAD_HULL
  | OPENSCAD_RESIZE
  deriving DecidableEq, Repr

/-- The kernel's global error mode, `CGAL::Failure_behaviour`. -/
inductive Failure_behaviour where
  | ABORT
  | EXIT
  | EXIT_WITH_SUCCESS
  | CONTINUE
  | THROW_EXCEPTION
  deriving DecidableEq, Repr

/-- A thrown `CGAL::Failure_exception`: whether its dynamic class is
`CGAL::Assertion_exception`, and its message. -/
structure Failure_exception where
  is_assertion : Bool
  what : String
  deriving DecidableEq, Repr

/-- Modelled from the spec: the volumetric complex `CGAL_Nef_polyhedron` (its class
declaration is not part of the sources at hand): a dimension and the handle `p3` to the
kernel object, which may be null. -/
structure CGAL_Nef_polyhedron (N3 : Type) where
  dim : Nat
  p3 : Option N3
  deriving DecidableEq, Repr

/-- Modelled from the spec: the mesh `PolySet` (its class declaration is not part of the
sources at hand): a dimension, the tri-state convexity flag and the ordered polygons. -/
structure PolySet (Pt : Type) where
  dim : Nat
  convex : Option Bool
  polygons : List (List Pt)
  deriving DecidableEq, Repr

/-- Modelled from the spec: an operand `Geometry`, as the dynamic casts of the code see it:
a mesh, a complex, or anything else (another geometry kind or a null pointer). -/
inductive Geometry (N3 Pt : Type) where
  | polyset (ps : PolySet Pt)
  | nef (n : CGAL_Nef_polyhedron N3)
  | other
  deriving DecidableEq, Repr

/-- The exact geometry kernel, as far as the evaluator calls it, together with the
helpers that the Minkowski engine uses as black boxes (the convexity tests and the strict
points of a hull).  For a kernel operation, `none` stands for a thrown
`CGAL::Failure_exception`. -/
structure Kernel where
  /-- The kernel complex `CGAL_Nef_polyhedron3` -/
  N3 : Type
  /-- The accumulator `CGAL::Nef_nary_union_3<CGAL_Nef_polyhedron3>` -/
  Nary : Type
  /-- The boundary polyhedron `CGAL_Polyhedron` -/
  Polyhedron : Type
  /-- The hull polyhedron `CGAL::Polyhedron_3<Hull_kernel>` -/
  Hull : Type
  /-- The point `Hull_kernel::Point_3`, also the coordinate triple of a mesh vertex -/
  Point : Type
  /-- A volume of a decomposed complex -/
  Volume : Type
  /-- The test `CGAL_Nef_polyhedron3::is_empty` -/
  is_empty : N3 → Bool
  /-- The union `operator+=` of two complexes -/
  join : N3 → N3 → Option N3
  /-- The intersection `operator*=` of two complexes -/
  intersection : N3 → N3 → Option N3
  /-- The difference `operator-=` of two complexes -/
  difference : N3 → N3 → Option N3
  /-- The kernel operator behind `CGAL_Nef_polyhedron::minkowski` -/
  minkowski : N3 → N3 → Option N3
  /-- A freshly constructed n-ary union accumulator -/
  nary_new : Nary
  /-- The insertion `Nef_nary_union_3::add_polyhedron`: the accumulator after the call, and whether the
  call returned normally (`false`: it threw) -/
  add_polyhedron : Nary → N3 → Nary × Bool
  /-- The extraction `Nef_nary_union_3::get_union` -/
  get_union : Nary → Option N3
  /-- The test `PolySet::is_convex` -/
  is_convex : PolySet Point → Bool
  /-- The call `CGAL_Polyhedron::delegate` run on a `CGAL_Build_PolySet`: the polyhedron after the
  call and the exception thrown, if any -/
  delegate : PolySet Point → Polyhedron × Option Failure_exception
  /-- The test `CGAL_Nef_polyhedron3::is_simple` -/
  is_simple : N3 → Bool
  /-- The conversion `nefworkaround::convert_to_Polyhedron` -/
  convert_to_Polyhedron : N3 → Option Polyhedron
  /-- The test `is_weakly_convex` on a polyhedron -/
  is_weakly_convex : Polyhedron → Bool
  /-- The decomposition `CGAL::convex_decomposition_3`: the volumes of the decomposed complex, in iteration
  order -/
  convex_decomposition_3 : N3 → Option (List Volume)
  /-- The flag `Volume::mark` -/
  mark : Volume → Bool
  /-- The conversion `convert_inner_shell_to_polyhedron` on the first shell of a volume -/
  convert_inner_shell_to_polyhedron : Volume → Option Polyhedron
  /-- The vertices of a polyhedron, in iteration order, as points of the hull kernel -/
  vertices : Polyhedron → List Point
  /-- Point plus vector `p + (q - ORIGIN)` -/
  point_add : Point → Point → Point
  /-- The hull computation `CGAL::convex_hull_3` -/
  convex_hull_3 : List Point → Option Hull
  /-- The vertices of a hull that are neither collinear nor coplanar with their
  neighbours, in iteration order -/
  strict_points : Hull → List Point
  /-- The facets of a hull, each as the coordinates of its vertices -/
  facets : Hull → List (List Point)

/-- The complex wrapper specialised to a kernel. -/
abbrev Nef (K : Kernel) : Type := CGAL_Nef_polyhedron K.N3

/-- The operand type specialised to a kernel. -/
abbrev Geom (K : Kernel) : Type := Geometry K.N3 K.Point

/-- Modelled from the spec: `Geometry::ChildItem`, the pair of an owner handle (a node
pointer, `none` when null) and a geometry. -/
structure ChildItem (K : Kernel) where
  first : Option Nat
  second : Geom K

/-- One kernel operation issued by the code modelled here. -/
inductive KernelCall (K : Kernel) where
  | add_polyhedron (x : K.N3)
  | get_union
  | join (a b : K.N3)
  | intersection (a b : K.N3)
  | difference (a b : K.N3)
  | minkowski (a b : K.N3)
  | delegate (ps : PolySet K.Point)
  | convert_to_Polyhedron (x : K.N3)
  | convex_decomposition_3 (x : K.N3)
  | convert_inner_shell_to_polyhedron (v : K.Volume)
  | convex_hull_3 (pts : List K.Point)

/-- The state outside the arguments: the kernel's error mode, the owners whose
`progress_report` ran (oldest first) and the kernel operations issued (oldest first). -/
structure World (K : Kernel) where
  error_behaviour : Failure_behaviour
  progress : List Nat
  calls : List (KernelCall K)

/-- The call `CGAL::set_error_behaviour`: installs a mode and returns the previous one. -/
def World.set_error_behaviour {K : Kernel} (w : World K) (b : Failure_behaviour) :
    Failure_behaviour × World K :=
  (w.error_behaviour, ⟨b, w.progress, w.calls⟩)

/-- Records one kernel operation. -/
def World.call {K : Kernel} (w : World K) (c : KernelCall K) : World K :=
  ⟨w.error_behaviour, w.progress, w.calls ++ [c]⟩

/-- Modelled from the spec: the progress callback `AbstractNode::progress_report` of the
owning tree node (declared outside the sources at hand), run on a non-null owner: the
call is recorded. -/
def World.progress_report {K : Kernel} (w : World K) (node : Nat) : World K :=
  ⟨w.error_behaviour, w.progress ++ [node], w.calls⟩

/-- How a piece of code ends: normally with a value, by an exception that leaves it, or
by undefined behaviour (a null dereference or a failed `assert`). -/
inductive Outcome (K : Kernel) (α : Type) where
  | ok (val : α) (w : World K)
  | raised (w : World K)
  | undefined

/-- The value an outcome carries, if it ended normally. -/
def Outcome.value {K : Kernel} {α : Type} : Outcome K α → Option α
  | .ok a _ => some a
  | .raised _ => none
  | .undefined => none

/-- The world an outcome leaves behind, if there is one. -/
def Outcome.world {K : Kernel} {α : Type} : Outcome K α → Option (World K)
  | .ok _ w => some w
  | .raised w => some w
  | .undefined => none

/-- Whether an exception left the code. -/
def Outcome.isRaised {K : Kernel} {α : Type} : Outcome K α → Bool
  | .raised _ => true
  | _ => false

/-- Modelled from the spec: the test `CGAL_Nef_polyhedron::isEmpty` (defined outside the
sources at hand): a complex is empty when its handle is null (the construction-failure
marker) or its kernel object is empty. -/
def CGAL_Nef_polyhedron.isEmpty (K : Kernel) (n : Nef K) : Bool :=
  match n.p3 with
  | none => true
  | some x => K.is_empty x

/-- Modelled from the spec: a default-constructed `CGAL_Nef_polyhedron` (constructor
defined outside the sources at hand): a null handle. -/
def CGAL_Nef_polyhedron.empty (K : Kernel) : Nef K := ⟨3, none⟩

/-- Modelled from the spec: the construction
`new CGAL_Nef_polyhedron(new CGAL_Nef_polyhedron3(...))` (constructor defined outside the
sources at hand): a three-dimensional complex owning a kernel object. -/
def CGAL_Nef_polyhedron.ofN3 (K : Kernel) (x : K.N3) : Nef K := ⟨3, some x⟩

/-- Modelled from the spec: an in-place operator of the complex (`+=`, `*=`, `-=`,
`minkowski`, defined outside the sources at hand): it dereferences both handles and runs
the kernel operation on the left object; a failing kernel operation throws. -/
def CGAL_Nef_polyhedron.inplace (K : Kernel) (call : K.N3 → K.N3 → KernelCall K)
    (f : K.N3 → K.N3 → Option K.N3) (target src : Nef K) (w : World K) : Outcome K (Nef K) :=
  match target.p3, src.p3 with
  | some a, some b =>
    match f a b with
    | some r => .ok ⟨target.dim, some r⟩ (w.call (call a b))
    | none => .raised (w.call (call a b))
  | _, _ => .undefined

/-! ## `createPolyhedronFromPolySet` and `createPolySetFromPolyhedron` -/

/-- The function `CGALUtils::createPolyhedronFromPolySet(ps, p)`: the polyhedron after the call and the
returned error flag.  Only a `CGAL::Assertion_exception` is caught. -/
def createPolyhedronFromPolySet (K : Kernel) (ps : PolySet K.Point) (w : World K) :
    Outcome K (K.Polyhedron × Bool) :=
  let old_behaviour := (w.set_error_behaviour .THROW_EXCEPTION).1
  let w1 := (w.set_error_behaviour .THROW_EXCEPTION).2
  let w2 := w1.call (.delegate ps)
  match K.delegate ps with
  | (p, none) => .ok (p, false) (w2.set_error_behaviour old_behaviour).2
  | (p, some e) =>
    if e.is_assertion then .ok (p, true) (w2.set_error_behaviour old_behaviour).2
    else .raised w2

/-- The function `CGALUtils::createPolySetFromPolyhedron(p, ps)` on a hull: one polygon is appended per
facet; the returned error flag is always `false`. -/
def createPolySetFromPolyhedron (K : Kernel) (p : K.Hull) (ps : PolySet K.Point) :
    PolySet K.Point × Bool :=
  (⟨ps.dim, ps.convex, ps.polygons ++ K.facets p⟩, false)

/-! ## `createNefPolyhedronFromPolySet` and `createNefPolyhedronFromGeometry` -/

/-- The operations of the kernel that the hull engine and the mesh-to-complex converter
use beyond those of `Kernel`. -/
structure KernelHull (K : Kernel) where
  /-- The order `operator<` of `K::Point_3` (lexicographic in the coordinates), by which
  `std::set<K::Point_3>` keeps its elements -/
  point_lt : K.Point → K.Point → Bool
  /-- The vertices of a kernel complex, converted to doubles, in iteration order -/
  nef_vertices : K.N3 → List K.Point
  /-- The construction `new CGAL_Nef_polyhedron3(P)` from a polyhedron: the complex, or the
  exception it throws -/
  nef_of_polyhedron : K.Polyhedron → Except Failure_exception K.N3
  /-- The conversion `copy_to(r, r_exact)` of a hull into a polyhedron of the exact kernel -/
  copy_to : K.Hull → K.Polyhedron
  /-- The helper `PolysetUtils::tessellate_faces(ps, ps2)` into a fresh 3D mesh `ps2` -/
  tessellate_faces : PolySet K.Point → PolySet K.Point

/-- The insertion `std::set::insert` under a strict order: the set is the ascending list
of its elements, and an element equivalent to one already present is dropped. -/
def set_insert {α : Type} (lt : α → α → Bool) (x : α) : List α → List α
  | [] => [x]
  | y :: ys =>
    if lt x y then x :: y :: ys
    else if lt y x then y :: set_insert lt x ys
    else y :: ys

/-- Inserting the elements of a list, one after the other, into a set. -/
def set_insert_all {α : Type} (lt : α → α → Bool) : List α → List α → List α
  | [], s => s
  | x :: xs, s => set_insert_all lt xs (set_insert lt x s)

/-- Whether a list of characters starts with another one. -/
def starts_with : List Char → List Char → Bool
  | _, [] => true
  | [], _ :: _ => false
  | c :: s, d :: pat => c == d && starts_with s pat

/-- Whether a pattern occurs in a list of characters. -/
def occurs_in (pat : List Char) : List Char → Bool
  | [] => starts_with [] pat
  | c :: s => starts_with (c :: s) pat || occurs_in pat s

/-- The test `std::string(e.what()).find(pat) != std::string::npos`. -/
def string_find (what pat : String) : Bool :=
  occurs_in pat.toList what.toList

/-- One `try` block of `createNefPolyhedronFromPolySet` together with its `catch` clause,
which catches a `CGAL::Assertion_exception` only: the polyhedron is built and, without
error, the complex constructed from it.  The value is the complex, if one was built, and
the exception caught, if any.  The construction of the complex is not recorded in the
world. -/
def nef_attempt (K : Kernel) (X : KernelHull K) (ps : PolySet K.Point) (w : World K) :
    Outcome K (Option K.N3 × Option Failure_exception) :=
  match createPolyhedronFromPolySet K ps w with
  | .undefined => .undefined
  | .raised w1 => .raised w1
  | .ok Perr w1 =>
    if !Perr.2 then
      match X.nef_of_polyhedron Perr.1 with
      | .ok n => .ok (some n, none) w1
      | .error e => if e.is_assertion then .ok (none, some e) w1 else .raised w1
    else .ok (none, none) w1

/-- The value of `plane_error` after the first `catch` clause. -/
def plane_error (caught : Option Failure_exception) : Bool :=
  match caught with
  | some e =>
    if string_find e.what "Plane_constructor" then
      if string_find e.what "has_on" then true else false
    else false
  | none => false

/-- The function `createNefPolyhedronFromPolySet(ps)`.  The mesh is empty when it has no
polygon; a non-empty mesh of a dimension other than 3 fails the `assert`. -/
def createNefPolyhedronFromPolySet (K : Kernel) (X : KernelHull K) (ps : PolySet K.Point)
    (w : World K) : Outcome K (Nef K) :=
  if ps.polygons.isEmpty then .ok (CGAL_Nef_polyhedron.empty K) w
  else if ps.dim ≠ 3 then .undefined
  else if K.is_convex ps then
    let points := set_insert_all X.point_lt ps.polygons.flatten []
    if points.length ≤ 3 then .ok (CGAL_Nef_polyhedron.empty K) w
    else
      match K.convex_hull_3 points with
      | none => .raised (w.call (.convex_hull_3 points))
      | some r =>
        match X.nef_of_polyhedron (X.copy_to r) with
        | .ok n => .ok (CGAL_Nef_polyhedron.ofN3 K n) (w.call (.convex_hull_3 points))
        | .error _ => .raised (w.call (.convex_hull_3 points))
  else
    let old_behaviour := (w.set_error_behaviour .THROW_EXCEPTION).1
    let w1 := (w.set_error_behaviour .THROW_EXCEPTION).2
    match nef_attempt K X ps w1 with
    | .undefined => .undefined
    | .raised w2 => .raised w2
    | .ok first w2 =>
      if plane_error first.2 then
        match nef_attempt K X (X.tessellate_faces ps) w2 with
        | .undefined => .undefined
        | .raised w3 => .raised w3
        | .ok second w3 =>
          .ok ⟨3, match second.1 with | some n => some n | none => first.1⟩
            (w3.set_error_behaviour old_behaviour).2
      else .ok ⟨3, first.1⟩ (w2.set_error_behaviour old_behaviour).2

/-- The function `createNefPolyhedronFromGeometry(geom)` on a mesh: the `dynamic_cast` to
`PolySet` succeeds and the mesh goes to `createNefPolyhedronFromPolySet`. -/
def createNefPolyhedronFromGeometry (K : Kernel) (X : KernelHull K) (ps : PolySet K.Point)
    (w : World K) : Outcome K (Nef K) :=
  createNefPolyhedronFromPolySet K X ps w

/-! ## `applyBinaryOperator` -/

open OpenSCADOperator in
/-- The `switch (op)` inside the `try` block of `applyBinaryOperator`. -/
def applyBinaryOperator_switch (K : Kernel) (target src : Nef K) (op : OpenSCADOperator)
    (w : World K) : Outcome K (Nef K) :=
  match op with
  | OPENSCAD_UNION =>
    if target.isEmpty K then .ok src w
    else CGAL_Nef_polyhedron.inplace K .join K.join target src w
  | OPENSCAD_INTERSECTION => CGAL_Nef_polyhedron.inplace K .intersection K.intersection target src w
  | OPENSCAD_DIFFERENCE => CGAL_Nef_polyhedron.inplace K .difference K.difference target src w
  | OPENSCAD_MINKOWSKI => CGAL_Nef_polyhedron.inplace K .minkowski K.minkowski target src w
  | _ => .ok target w

open OpenSCADOperator in
/-- The function `CGALUtils::applyBinaryOperator(target, src, op)`; the value of the outcome is the
target after the call. -/
def applyBinaryOperator (K : Kernel) (target src : Nef K) (op : OpenSCADOperator)
    (w : World K) : Outcome K (Nef K) :=
  if target.dim ≠ 2 ∧ target.dim ≠ 3 then .undefined
  else if src.isEmpty K then
    if op = OPENSCAD_INTERSECTION then .ok src w else .ok target w
  else if src.isEmpty K then .ok target w
  else if target.isEmpty K ∧ op ≠ OPENSCAD_UNION then .ok target w
  else if target.dim ≠ src.dim then .ok target w
  else
    let old_behaviour := (w.set_error_behaviour .THROW_EXCEPTION).1
    let w1 := (w.set_error_behaviour .THROW_EXCEPTION).2
    match applyBinaryOperator_switch K target src op w1 with
    | .ok t w2 => .ok t (w2.set_error_behaviour old_behaviour).2
    | .raised w2 => .ok src (w2.set_error_behaviour old_behaviour).2
    | .undefined => .undefined

/-! ## `applyOperator` -/

/-- The local variables of `applyOperator` that live across loop iterations. -/
structure OperatorState (K : Kernel) where
  nary_union : K.Nary
  nary_union_num_inserted : Nat
  N : Option (Nef K)

/-- The normalisation of one child at the head of the loop body: a complex is taken as it
is, a mesh is converted by `createNefPolyhedronFromGeometry`, outside any `try` block, and
anything else leaves `chN` null.  The value is `chN`. -/
def chN_reset (K : Kernel) (X : KernelHull K) : Geom K → World K → Outcome K (Option (Nef K))
  | .nef n, w => .ok (some n) w
  | .polyset ps, w =>
    match createNefPolyhedronFromGeometry K X ps w with
    | .ok n w1 => .ok (some n) w1
    | .raised w1 => .raised w1
    | .undefined => .undefined
  | .other, w => .ok none w

open OpenSCADOperator in
/-- The `switch (op)` inside the `try` block of `applyOperator`. -/
def applyOperator_switch (K : Kernel) (N c : Nef K) (op : OpenSCADOperator)
    (w : World K) : Outcome K (Nef K) :=
  match op with
  | OPENSCAD_INTERSECTION => CGAL_Nef_polyhedron.inplace K .intersection K.intersection N c w
  | OPENSCAD_DIFFERENCE => CGAL_Nef_polyhedron.inplace K .difference K.difference N c w
  | OPENSCAD_MINKOWSKI => CGAL_Nef_polyhedron.inplace K .minkowski K.minkowski N c w
  | _ => .ok N w

open OpenSCADOperator in
/-- The body of the `BOOST_FOREACH` loop of `applyOperator` after the normalisation of the
child, with `chN` pointing to the complex `c`. -/
def applyOperator_combine (K : Kernel) (op : OpenSCADOperator) (item : ChildItem K)
    (c : Nef K) (st : OperatorState K) (w : World K) : Outcome K (OperatorState K) :=
  if op = OPENSCAD_UNION then
    if !c.isEmpty K then
      match c.p3 with
      | none => .undefined
      | some x =>
        let old_behaviour := (w.set_error_behaviour .THROW_EXCEPTION).1
        let w1 := (w.set_error_behaviour .THROW_EXCEPTION).2
        let w2 := w1.call (.add_polyhedron x)
        let r := K.add_polyhedron st.nary_union x
        .ok ⟨r.1, if r.2 then st.nary_union_num_inserted + 1 else st.nary_union_num_inserted,
              st.N⟩ (w2.set_error_behaviour old_behaviour).2
    else .ok st w
  else
    match st.N with
    | none => .ok ⟨st.nary_union, st.nary_union_num_inserted, some c⟩ w
    | some N =>
      if c.isEmpty K then
        if op = OPENSCAD_INTERSECTION then
          .ok ⟨st.nary_union, st.nary_union_num_inserted, some c⟩ w
        else .ok st w
      else if N.isEmpty K then .ok st w
      else
        let old_behaviour := (w.set_error_behaviour .THROW_EXCEPTION).1
        let w1 := (w.set_error_behaviour .THROW_EXCEPTION).2
        match applyOperator_switch K N c op w1 with
        | .undefined => .undefined
        | .ok N1 w2 =>
          match item.first with
          | none => .undefined
          | some node =>
            .ok ⟨st.nary_union, st.nary_union_num_inserted, some N1⟩
              ((w2.set_error_behaviour old_behaviour).2.progress_report node)
        | .raised w2 =>
          match item.first with
          | none => .undefined
          | some node =>
            .ok ⟨st.nary_union, st.nary_union_num_inserted, some c⟩
              ((w2.set_error_behaviour old_behaviour).2.progress_report node)

/-- One iteration of the `BOOST_FOREACH` loop of `applyOperator`: the normalisation of the
child, whose failure leaves the function, then the rest of the body; a null `chN` is
dereferenced. -/
def applyOperator_item (K : Kernel) (X : KernelHull K) (op : OpenSCADOperator)
    (item : ChildItem K) (st : OperatorState K) (w : World K) : Outcome K (OperatorState K) :=
  match chN_reset K X item.second w with
  | .undefined => .undefined
  | .raised w1 => .raised w1
  | .ok none _ => .undefined
  | .ok (some c) w1 => applyOperator_combine K op item c st w1

/-- The `BOOST_FOREACH` loop of `applyOperator` over the children. -/
def applyOperator_loop (K : Kernel) (X : KernelHull K) (op : OpenSCADOperator) :
    List (ChildItem K) → OperatorState K → World K → Outcome K (OperatorState K)
  | [], st, w => .ok st w
  | item :: rest, st, w =>
    match applyOperator_item K X op item st w with
    | .ok st1 w1 => applyOperator_loop K X op rest st1 w1
    | .raised w1 => .raised w1
    | .undefined => .undefined

open OpenSCADOperator in
/-- The code of `applyOperator` after the loop: the extraction of the n-ary union and the
store into `dest`. -/
def applyOperator_finish (K : Kernel) (op : OpenSCADOperator) (dest : Nef K)
    (st : OperatorState K) (w : World K) : Outcome K (Nef K) :=
  if op = OPENSCAD_UNION ∧ st.nary_union_num_inserted > 0 then
    let old_behaviour := (w.set_error_behaviour .THROW_EXCEPTION).1
    let w1 := (w.set_error_behaviour .THROW_EXCEPTION).2
    let w2 := w1.call .get_union
    let N : Option (Nef K) :=
      match K.get_union st.nary_union with
      | some u => some (CGAL_Nef_polyhedron.ofN3 K u)
      | none => st.N
    .ok (match N with | some n => n | none => dest) (w2.set_error_behaviour old_behaviour).2
  else
    .ok (match st.N with | some n => n | none => dest) w

/-- The function `CGALUtils::applyOperator(children, dest, op)`; the value of the outcome is `dest`
after the call. -/
def applyOperator (K : Kernel) (X : KernelHull K) (children : List (ChildItem K))
    (dest : Nef K) (op : OpenSCADOperator) (w : World K) : Outcome K (Nef K) :=
  match applyOperator_loop K X op children ⟨K.nary_new, 0, none⟩ w with
  | .ok st w1 => applyOperator_finish K op dest st w1
  | .raised w1 => .raised w1
  | .undefined => .undefined

/-! ## `applyMinkowski` -/

/-- The loop over the volumes of a decomposed complex: every marked volume is converted
to a polyhedron and appended to `P[i]`. -/
def minkowski_volumes (K : Kernel) :
    List K.Volume → World K → Outcome K (List K.Polyhedron)
  | [], w => .ok [] w
  | ci :: rest, w =>
    if K.mark ci then
      match K.convert_inner_shell_to_polyhedron ci with
      | none => .raised (w.call (.convert_inner_shell_to_polyhedron ci))
      | some poly =>
        match minkowski_volumes K rest (w.call (.convert_inner_shell_to_polyhedron ci)) with
        | .ok polys w1 => .ok (poly :: polys) w1
        | .raised w1 => .raised w1
        | .undefined => .undefined
    else minkowski_volumes K rest w

/-- The decomposition branch of `applyMinkowski`: `convex_decomposition_3`, then the
volumes after the first (outer) one. -/
def minkowski_decompose (K : Kernel) (decomposed_nef : K.N3) (w : World K) :
    Outcome K (List K.Polyhedron) :=
  match K.convex_decomposition_3 decomposed_nef with
  | none => .raised (w.call (.convex_decomposition_3 decomposed_nef))
  | some volumes =>
    minkowski_volumes K (volumes.drop 1) (w.call (.convex_decomposition_3 decomposed_nef))

/-- The body of `for (int i = 0; i < 2; i++)` in `applyMinkowski`: the list `P[i]` of
convex pieces of one operand. -/
def minkowski_operand (K : Kernel) (X : KernelHull K) (operand : Geom K) (w : World K) :
    Outcome K (List K.Polyhedron) :=
  match operand with
  | .polyset ps =>
    match createPolyhedronFromPolySet K ps w with
    | .ok polyerr w1 =>
      if K.is_convex ps then .ok [polyerr.1] w1
      else
        match createNefPolyhedronFromGeometry K X ps w1 with
        | .undefined => .undefined
        | .raised w2 => .raised w2
        | .ok p w2 =>
          match p.p3 with
          | none => .undefined
          | some d => minkowski_decompose K d w2
    | .raised w1 => .raised w1
    | .undefined => .undefined
  | .nef nef =>
    match nef.p3 with
    | none => .undefined
    | some x =>
      if K.is_simple x then
        match K.convert_to_Polyhedron x with
        | none => .raised (w.call (.convert_to_Polyhedron x))
        | some poly =>
          if K.is_weakly_convex poly then .ok [poly] (w.call (.convert_to_Polyhedron x))
          else minkowski_decompose K x (w.call (.convert_to_Polyhedron x))
      else .raised w
  | .other => .raised w

/-- The inner loop filling `minkowski_points` for one point of the first piece. -/
def minkowski_points_row (K : Kernel) (a : K.Point) : List K.Point → List K.Point
  | [] => []
  | b :: rest => K.point_add a b :: minkowski_points_row K a rest

/-- The double loop filling `minkowski_points`: the first piece is the outer index, the
second the inner one. -/
def minkowski_points (K : Kernel) : List K.Point → List K.Point → List K.Point
  | [], _ => []
  | a :: rest, points1 => minkowski_points_row K a points1 ++ minkowski_points K rest points1

/-- The body of the loop over a pair of convex pieces: the value is `result_parts` after
the iteration. -/
def minkowski_pair (K : Kernel) (a b : K.Polyhedron) (result_parts : List K.Hull)
    (w : World K) : Outcome K (List K.Hull) :=
  if (minkowski_points K (K.vertices a) (K.vertices b)).length ≤ 3 then .ok result_parts w
  else
    let pts := minkowski_points K (K.vertices a) (K.vertices b)
    match K.convex_hull_3 pts with
    | none => .raised (w.call (.convex_hull_3 pts))
    | some result =>
      let strict := K.strict_points result
      let w2 := (w.call (.convex_hull_3 pts)).call (.convex_hull_3 strict)
      match K.convex_hull_3 strict with
      | none => .raised w2
      | some result2 => .ok (result_parts ++ [result2]) w2

/-- The loop `for j` over the pieces of the second operand, for one piece of the first. -/
def minkowski_pairs_row (K : Kernel) (a : K.Polyhedron) :
    List K.Polyhedron → List K.Hull → World K → Outcome K (List K.Hull)
  | [], parts, w => .ok parts w
  | b :: rest, parts, w =>
    match minkowski_pair K a b parts w with
    | .ok parts1 w1 => minkowski_pairs_row K a rest parts1 w1
    | .raised w1 => .raised w1
    | .undefined => .undefined

/-- The loop `for i` over the pieces of the first operand. -/
def minkowski_pairs (K : Kernel) :
    List K.Polyhedron → List K.Polyhedron → List K.Hull → World K → Outcome K (List K.Hull)
  | [], _, parts, w => .ok parts w
  | a :: rest, P1, parts, w =>
    match minkowski_pairs_row K a P1 parts w with
    | .ok parts1 w1 => minkowski_pairs K rest P1 parts1 w1
    | .raised w1 => .raised w1
    | .undefined => .undefined

/-- The loop building the synthesised child list `fake_children` of the union step: each
part is turned into a convex mesh and converted to a complex, which is pushed with a null
owner. -/
def fake_children (K : Kernel) (X : KernelHull K) :
    List K.Hull → World K → Outcome K (List (ChildItem K))
  | [], w => .ok [] w
  | i :: rest, w =>
    match createNefPolyhedronFromGeometry K X
        (createPolySetFromPolyhedron K i ⟨3, some true, []⟩).1 w with
    | .undefined => .undefined
    | .raised w1 => .raised w1
    | .ok N w1 =>
      match fake_children K X rest w1 with
      | .undefined => .undefined
      | .raised w2 => .raised w2
      | .ok items w2 => .ok (⟨none, .nef N⟩ :: items) w2

/-- What one pass of the `while` loop of `applyMinkowski` computes for the operand pair:
`none` when the function returns `NULL`, otherwise the next `operands[0]`. -/
def minkowski_step (K : Kernel) (X : KernelHull K) (operand0 operand1 : Geom K)
    (w : World K) :
    Outcome K (Option (Geom K)) :=
  match minkowski_operand K X operand0 w with
  | .raised w1 => .raised w1
  | .undefined => .undefined
  | .ok P0 w1 =>
    match minkowski_operand K X operand1 w1 with
    | .raised w2 => .raised w2
    | .undefined => .undefined
    | .ok P1 w2 =>
      match minkowski_pairs K P0 P1 [] w2 with
      | .raised w3 => .raised w3
      | .undefined => .undefined
      | .ok [] w3 => .ok none w3
      | .ok [part] w3 =>
        .ok (some (.polyset (createPolySetFromPolyhedron K part ⟨3, some true, []⟩).1)) w3
      | .ok result_parts w3 =>
        match fake_children K X result_parts w3 with
        | .undefined => .undefined
        | .raised w4 => .raised w4
        | .ok items w4 =>
          match applyOperator K X items (CGAL_Nef_polyhedron.empty K) .OPENSCAD_UNION w4 with
          | .ok N w5 => .ok (some (.nef N)) w5
          | .raised w5 => .raised w5
          | .undefined => .undefined

/-- The `while (++it != children.end())` loop of `applyMinkowski`, started with
`operands[0]` and the children still to come. -/
def applyMinkowski_loop (K : Kernel) (X : KernelHull K) :
    Geom K → List (ChildItem K) → World K → Outcome K (Option (Geom K))
  | operand0, [], w => .ok (some operand0) w
  | operand0, item :: rest, w =>
    match minkowski_step K X operand0 item.second w with
    | .ok (some next) w1 => applyMinkowski_loop K X next rest w1
    | .ok none w1 => .ok none w1
    | .raised w1 => .raised w1
    | .undefined => .undefined

/-- The `catch (...)` block of `applyMinkowski`: the kernel's own Minkowski operator run
over the original children into a fresh complex. -/
def applyMinkowski_fallback (K : Kernel) (X : KernelHull K) (children : List (ChildItem K))
    (w : World K) : Outcome K (Option (Geom K)) :=
  match applyOperator K X children (CGAL_Nef_polyhedron.empty K) .OPENSCAD_MINKOWSKI w with
  | .ok N w1 => .ok (some (.nef N)) w1
  | .raised w1 => .raised w1
  | .undefined => .undefined

/-- The function `CGALUtils::applyMinkowski(children)`: the returned geometry, `none` for `NULL`.  A
list of fewer than two children fails the opening `assert`. -/
def applyMinkowski (K : Kernel) (X : KernelHull K) (children : List (ChildItem K))
    (w : World K) : Outcome K (Option (Geom K)) :=
  match children with
  | [] => .undefined
  | [_] => .undefined
  | first :: rest =>
    match applyMinkowski_loop K X first.second rest w with
    | .ok g w1 => .ok g w1
    | .raised w1 => applyMinkowski_fallback K X children w1
    | .undefined => .undefined

/-! ## Specification-side notions used to state the properties -/

/-- The kernel operator the `switch` of `applyBinaryOperator` selects for an operator
value; `none` for a value the switch does not handle. -/
def kernel_operator (K : Kernel) : OpenSCADOperator → Option (K.N3 → K.N3 → Option K.N3)
  | .OPENSCAD_UNION => some K.join
  | .OPENSCAD_INTERSECTION => some K.intersection
  | .OPENSCAD_DIFFERENCE => some K.difference
  | .OPENSCAD_MINKOWSKI => some K.minkowski
  | _ => none

/-- The kernel operation recorded for an operator value the switches handle. -/
def kernel_operator_call (K : Kernel) : OpenSCADOperator → K.N3 → K.N3 → KernelCall K
  | .OPENSCAD_UNION => .join
  | .OPENSCAD_INTERSECTION => .intersection
  | .OPENSCAD_DIFFERENCE => .difference
  | _ => .minkowski

/-- The world after further kernel operations have been recorded. -/
def World.log {K : Kernel} (w : World K) (calls : List (KernelCall K)) : World K :=
  ⟨w.error_behaviour, w.progress, w.calls ++ calls⟩

/-- The value of `chN` after the normalisation of a child, when the normalisation returns:
the complex itself, or the complex the conversion of a mesh returns; `none` when `chN` is
null (the child is neither) and when the conversion of the mesh does not return.  The
normalisation is run in a world in which nothing has happened; what it returns does not
depend on the world. -/
def chN (K : Kernel) (X : KernelHull K) (g : Geom K) : Option (Nef K) :=
  match chN_reset K X g ⟨.ABORT, [], []⟩ with
  | .ok v _ => v
  | _ => none

/-- The kernel operations the normalisation of a child issues when it returns: none for a
complex, those of the conversion for a mesh. -/
def conversion_calls (K : Kernel) (X : KernelHull K) (g : Geom K) : List (KernelCall K) :=
  match chN_reset K X g ⟨.ABORT, [], []⟩ with
  | .ok _ w => w.calls
  | _ => []

/-- Every child is a complex or a mesh whose conversion returns (the stated precondition of
`applyOperator` is a list of meshes and complexes). -/
def operands_valid (K : Kernel) (X : KernelHull K) (children : List (ChildItem K)) : Prop :=
  ∀ c ∈ children, chN K X c.second ≠ none

/-- Every child has a non-null owner. -/
def owners_valid (K : Kernel) (children : List (ChildItem K)) : Prop :=
  ∀ c ∈ children, c.first ≠ none

/-- The non-empty operands of a child list as kernel objects, in child-list order. -/
def union_operands (K : Kernel) (X : KernelHull K) : List (ChildItem K) → List K.N3
  | [] => []
  | item :: rest =>
    match chN K X item.second with
    | none => union_operands K X rest
    | some c =>
      match c.p3 with
      | none => union_operands K X rest
      | some x =>
        if K.is_empty x then union_operands K X rest else x :: union_operands K X rest

/-- Whether a kernel operation belongs to the conversion of a mesh into a complex (the
polyhedron builder and the hull of a convex mesh) and is none of the operators, insertions
and extractions of the Boolean evaluator. -/
def KernelCall.is_conversion {K : Kernel} : KernelCall K → Bool
  | .delegate _ => true
  | .convex_hull_3 _ => true
  | _ => false

/-- The kernel operations the normalisations of the children issue, in child-list order. -/
def normalisation_calls (K : Kernel) (X : KernelHull K) (children : List (ChildItem K)) :
    List (KernelCall K) :=
  children.flatMap (fun c => conversion_calls K X c.second)

/-- The kernel operations the loop of `applyOperator` with UNION issues: for each child those
of its normalisation, then one insertion if the operand is not empty. -/
def union_calls (K : Kernel) (X : KernelHull K) : List (ChildItem K) → List (KernelCall K)
  | [] => []
  | item :: rest =>
    conversion_calls K X item.second ++ (union_operands K X [item]).map .add_polyhedron
      ++ union_calls K X rest

/-- Of a sequence of insertions attempted one after the other on an accumulator, the
operands whose insertion succeeded. -/
def nary_inserted (K : Kernel) : K.Nary → List K.N3 → List K.N3
  | _, [] => []
  | acc, x :: xs =>
    if (K.add_polyhedron acc x).2 then x :: nary_inserted K (K.add_polyhedron acc x).1 xs
    else nary_inserted K (K.add_polyhedron acc x).1 xs

/-- The accumulator after a sequence of insertions attempted one after the other. -/
def nary_state (K : Kernel) : K.Nary → List K.N3 → K.Nary
  | acc, [] => acc
  | acc, x :: xs => nary_state K (K.add_polyhedron acc x).1 xs

/-- Whether every insertion of a sequence succeeds. -/
def nary_all_succeed (K : Kernel) : K.Nary → List K.N3 → Bool
  | _, [] => true
  | acc, x :: xs => (K.add_polyhedron acc x).2 && nary_all_succeed K (K.add_polyhedron acc x).1 xs

/-- An operand that the pairwise Minkowski computation rejects by `throw 0`: neither a
mesh nor a complex with a simple kernel object. -/
def neither_mesh_nor_simple_complex (K : Kernel) : Geom K → Bool
  | .polyset _ => false
  | .nef n =>
    match n.p3 with
    | some x => !K.is_simple x
    | none => false
  | .other => true

/-! ## A small executable kernel

Complexes are duplicate-free lists of voxel numbers.  An operand holding voxel `13` makes
the binary operators and the insertion into the accumulator throw; an accumulator holding
voxel `7` makes the extraction throw. -/

/-- The voxel kernel. -/
@[reducible] def voxelKernel : Kernel where
  N3 := List Nat
  Nary := List (List Nat)
  Polyhedron := List (Int × Int × Int)
  Hull := List (Int × Int × Int)
  Point := Int × Int × Int
  Volume := List Nat
  is_empty := fun x => x.isEmpty
  join := fun a b => if b.contains 13 then none else some (a ++ b.filter (fun v => !a.contains v))
  intersection := fun a b => if b.contains 13 then none else some (a.filter (fun v => b.contains v))
  difference := fun a b => if b.contains 13 then none else some (a.filter (fun v => !b.contains v))
  minkowski := fun a b => if b.contains 13 then none else some (a ++ b.filter (fun v => !a.contains v))
  nary_new := []
  add_polyhedron := fun acc x => if x.contains 13 then (acc, false) else (acc ++ [x], true)
  get_union := fun acc =>
    if acc.any (fun x => x.contains 7) then none
    else some (acc.foldl (fun a b => a ++ b.filter (fun v => !a.contains v)) [])
  is_convex := fun ps => ps.convex == some true
  delegate := fun ps =>
    (ps.polygons.flatten.eraseDups,
      if ps.dim != 3 then some ⟨false, "precondition"⟩
      else if ps.polygons.any (fun p => p.isEmpty) then some ⟨true, "assertion"⟩
      else none)
  is_simple := fun x => !x.contains 5
  convert_to_Polyhedron := fun x =>
    if x.contains 13 then none else some (x.map (fun v => ((v : Int), 0, 0)))
  is_weakly_convex := fun p => decide (p.length ≤ 8)
  convex_decomposition_3 := fun x => if x.contains 13 then none else some ([] :: x.map (fun v => [v]))
  mark := fun v => !v.isEmpty
  convert_inner_shell_to_polyhedron := fun v => some (v.map (fun n => ((n : Int), 0, 0)))
  vertices := fun p => p
  point_add := fun a b => (a.1 + b.1, a.2.1 + b.2.1, a.2.2 + b.2.2)
  convex_hull_3 := fun pts => if pts.contains (13, 13, 13) then none else some pts.eraseDups
  strict_points := fun h => h
  facets := fun h => [h]

/-- A world in which nothing has happened yet and the kernel aborts on failure. -/
def world0 : World voxelKernel := ⟨.ABORT, [], []⟩

/-- A non-empty three-dimensional complex of the voxel kernel. -/
def solid (voxels : List Nat) : Nef voxelKernel := ⟨3, some voxels⟩

/-- A child with owner `node` holding a three-dimensional complex. -/
def child (node : Nat) (voxels : List Nat) : ChildItem voxelKernel :=
  ⟨some node, .nef (solid voxels)⟩

/-- The unit cube as a convex mesh of six quadrilaterals. -/
def unit_cube : PolySet (Int × Int × Int) :=
  ⟨3, some true,
    [[(0, 0, 0), (0, 1, 0), (1, 1, 0), (1, 0, 0)],
     [(0, 0, 1), (1, 0, 1), (1, 1, 1), (0, 1, 1)],
     [(0, 0, 0), (1, 0, 0), (1, 0, 1), (0, 0, 1)],
     [(0, 1, 0), (0, 1, 1), (1, 1, 1), (1, 1, 0)],
     [(0, 0, 0), (0, 0, 1), (0, 1, 1), (0, 1, 0)],
     [(1, 0, 0), (1, 1, 0), (1, 1, 1), (1, 0, 1)]]⟩

/-- A degenerate convex mesh holding the single point `(2, 0, 0)`. -/
def single_point : PolySet (Int × Int × Int) := ⟨3, some true, [[(2, 0, 0)]]⟩

/-- A degenerate convex mesh holding a single triangle. -/
def single_triangle : PolySet (Int × Int × Int) :=
  ⟨3, some true, [[(0, 0, 0), (1, 0, 0), (0, 1, 0)]]⟩

/-- The eight corners of the unit cube, in the order the voxel kernel lists them. -/
def cube_corners : List (Int × Int × Int) :=
  [(0, 0, 0), (0, 1, 0), (1, 1, 0), (1, 0, 0), (0, 0, 1), (1, 0, 1), (1, 1, 1), (0, 1, 1)]

/-- The corners of the unit cube moved by `(2, 0, 0)`. -/
def cube_corners_moved : List (Int × Int × Int) :=
  [(2, 0, 0), (2, 1, 0), (3, 1, 0), (3, 0, 0), (2, 0, 1), (3, 0, 1), (3, 1, 1), (2, 1, 1)]

/-! ## `createPolySetFromNefPolyhedron3` -/

/-- One half-facet of a kernel complex as `createPolySetFromNefPolyhedron3` reads it: the
mark of its incident volume, its plane, and the points of its facet cycles (the first
cycle is the outer boundary, the others are holes). -/
structure Halffacet (P Pl : Type) where
  incident_volume_mark : Bool
  plane : Pl
  cycles : List (List P)

/-- The loop over the triangles of one tessellated face: a triangle that does not have 3
points is skipped; the others are appended as polygons, their points converted to
doubles and taken in the order 2, 1, 0. -/
def append_triangles {P V : Type} (to_double : P → V) :
    List (List P) → PolySet V → PolySet V
  | [], ps => ps
  | [p0, p1, p2] :: rest, ps =>
    append_triangles to_double rest
      ⟨ps.dim, ps.convex, ps.polygons ++ [[to_double p2, to_double p1, to_double p0]]⟩
  | _ :: rest, ps => append_triangles to_double rest ps

/-- The loop `CGAL_forall_halffacets` of `createPolySetFromNefPolyhedron3`.  The variable
`err` of the function is threaded through; the error flag of the tessellation is the
separate variable declared inside the loop body. -/
def createPolySetFromNefPolyhedron3_loop {P Pl V : Type}
    (tessellate3DFaceWithHoles : List (List P) → Pl → Bool × List (List P))
    (to_double : P → V) :
    List (Halffacet P Pl) → PolySet V → Bool → PolySet V × Bool
  | [], ps, err => (ps, err)
  | hfaceti :: rest, ps, err =>
    if hfaceti.incident_volume_mark then
      createPolySetFromNefPolyhedron3_loop tessellate3DFaceWithHoles to_double rest ps err
    else
      let polygons := hfaceti.cycles
      let err_inner := (tessellate3DFaceWithHoles polygons hfaceti.plane).1
      let triangles := (tessellate3DFaceWithHoles polygons hfaceti.plane).2
      if !err_inner then
        createPolySetFromNefPolyhedron3_loop tessellate3DFaceWithHoles to_double rest
          (append_triangles to_double triangles ps) err
      else
        createPolySetFromNefPolyhedron3_loop tessellate3DFaceWithHoles to_double rest ps err

/-- The function `CGALUtils::createPolySetFromNefPolyhedron3(N, ps)`, on the half-facets
of `N` in iteration order: the mesh after the call and the returned flag.  The
tessellation `tessellate3DFaceWithHoles` (defined in another file of the repository) is a
parameter: it returns its error flag and the triangles. -/
def createPolySetFromNefPolyhedron3 {P Pl V : Type}
    (tessellate3DFaceWithHoles : List (List P) → Pl → Bool × List (List P))
    (to_double : P → V) (N : List (Halffacet P Pl)) (ps : PolySet V) : PolySet V × Bool :=
  createPolySetFromNefPolyhedron3_loop tessellate3DFaceWithHoles to_double N ps false

/-- The polygons one half-facet contributes to the mesh, as the code emits them: none for
a half-facet whose incident volume is marked or whose tessellation reports an error,
otherwise the 3-point triangles of the tessellation, reversed. -/
def emitted_polygons {P Pl V : Type}
    (tessellate3DFaceWithHoles : List (List P) → Pl → Bool × List (List P))
    (to_double : P → V) (hf : Halffacet P Pl) : List (List V) :=
  if hf.incident_volume_mark then []
  else if (tessellate3DFaceWithHoles hf.cycles hf.plane).1 then []
  else (append_triangles to_double (tessellate3DFaceWithHoles hf.cycles hf.plane).2
    ⟨3, none, []⟩).polygons

/-- A toy tessellation: it fails on a face with a cycle of fewer than 3 points, and
otherwise returns the outer cycle cut into a fan of triangles. -/
def fan_tessellation (cycles : List (List (Int × Int × Int))) (_plane : Unit) :
    Bool × List (List (Int × Int × Int)) :=
  if cycles.any (fun c => decide (c.length < 3)) then (true, [])
  else
    match cycles with
    | (p0 :: p1 :: rest) :: _ => (false, (List.zip (p1 :: rest) rest).map (fun e => [p0, e.1, e.2]))
    | _ => (false, [])

/-- A half-facet in the plane `z = 0` whose incident volume is marked. -/
def facet_marked : Halffacet (Int × Int × Int) Unit :=
  ⟨true, (), [[(0, 0, 0), (1, 0, 0), (0, 1, 0)]]⟩

/-- A half-facet in the plane `z = 1` whose incident volume is not marked. -/
def facet_unmarked : Halffacet (Int × Int × Int) Unit :=
  ⟨false, (), [[(0, 0, 1), (1, 0, 1), (0, 1, 1)]]⟩

/-- A half-facet with an unmarked incident volume and a degenerate cycle, on which the
toy tessellation fails. -/
def facet_degenerate : Halffacet (Int × Int × Int) Unit :=
  ⟨false, (), [[(0, 0, 2), (1, 0, 2)]]⟩

/-! ## `CGAL_Build_PolySet` -/

/-- The spatial grid `Grid3d<int>` (declared in another file of the repository), as a
record of the operations the polyhedron builder uses: a fresh grid, the test `has`, the
assignment `grid.align(x, y, z) = value` (the grid after it and the aligned vertex) and
the lookup `grid.data(x, y, z)` (the grid after it and the stored value). -/
structure Grid3d (V : Type) where
  /-- The state of a grid -/
  G : Type
  /-- The grid `Grid3d<int> grid(GRID_FINE)` before any vertex is entered -/
  fresh : G
  /-- The test `grid.has` -/
  has : G → V → Bool
  /-- The assignment through `grid.align` -/
  align : G → V → Nat → G × V
  /-- The lookup `grid.data` -/
  data : G → V → G × Nat

/-- One call on the incremental polyhedron builder `B`. -/
inductive BuilderCall (V : Type) where
  | begin_surface (vertices facets : Nat)
  | add_vertex (p : V)
  | test_facet (indices : List Nat)
  | add_facet (indices : List Nat)
  | end_surface

/-- The loop `BOOST_REVERSE_FOREACH(Vector3d v, p)` of the first pass, run over the
reversed polygon: a vertex the grid does not have yet is aligned, numbered with the
current number of vertices and appended. -/
def collect_vertices_polygon {V : Type} (grid : Grid3d V) :
    List V → grid.G → List V → grid.G × List V
  | [], g, vertices => (g, vertices)
  | v :: rest, g, vertices =>
    if !grid.has g v then
      collect_vertices_polygon grid rest (grid.align g v vertices.length).1
        (vertices ++ [(grid.align g v vertices.length).2])
    else collect_vertices_polygon grid rest g vertices

/-- The first pass of `CGAL_Build_PolySet::operator()` over all polygons. -/
def collect_vertices {V : Type} (grid : Grid3d V) :
    List (List V) → grid.G → List V → grid.G × List V
  | [], g, vertices => (g, vertices)
  | p :: rest, g, vertices =>
    collect_vertices grid rest (collect_vertices_polygon grid p.reverse g vertices).1
      (collect_vertices_polygon grid p.reverse g vertices).2

/-- The loop filling `indices` for one polygon with `grid.data`. -/
def resolve_indices {V : Type} (grid : Grid3d V) :
    List V → grid.G → List Nat → grid.G × List Nat
  | [], g, indices => (g, indices)
  | v :: rest, g, indices =>
    resolve_indices grid rest (grid.data g v).1 (indices ++ [(grid.data g v).2])

/-- The inner loop `for (k = 0; k < i && !err; ++k)` of the duplicate test for one
position `i`, run over `indices[0..i-1]`. -/
def duplicate_inner (index_i : Nat) : List Nat → Bool → Bool
  | [], err => err
  | index_k :: rest, err =>
    if err then err
    else if index_k == index_i then true
    else duplicate_inner index_i rest err

/-- The outer loop `for (i = 0; i < indices.size(); ++i)` of the duplicate test; the
first list is `indices[0..i-1]`, the second `indices[i..]`. -/
def duplicate_outer : List Nat → List Nat → Bool → Bool
  | _, [], err => err
  | before, index_i :: rest, err =>
    duplicate_outer (before ++ [index_i]) rest (duplicate_inner index_i before err)

/-- The value of `err` after the duplicate test on `indices`. -/
def duplicate_indices (indices : List Nat) : Bool :=
  duplicate_outer [] indices false

/-- The second pass of `CGAL_Build_PolySet::operator()`: for each polygon the indices are
resolved and tested for duplicates; without a duplicate the facet is tested by the
builder and, if the builder accepts it, added.  `test_facet` is the builder's answer
after the calls made so far. -/
def add_facets {V : Type} (grid : Grid3d V)
    (test_facet : List (BuilderCall V) → List Nat → Bool) :
    List (List V) → grid.G → List (BuilderCall V) → grid.G × List (BuilderCall V)
  | [], g, calls => (g, calls)
  | p :: rest, g, calls =>
    let indices := (resolve_indices grid p g []).2
    if duplicate_indices indices then
      add_facets grid test_facet rest (resolve_indices grid p g []).1 calls
    else if test_facet calls indices then
      add_facets grid test_facet rest (resolve_indices grid p g []).1
        (calls ++ [.test_facet indices, .add_facet indices])
    else
      add_facets grid test_facet rest (resolve_indices grid p g []).1
        (calls ++ [.test_facet indices])

/-- The modifier `CGAL_Build_PolySet::operator()` (the variant compiled in, with the
grid): the calls it makes on the builder, in order.  An exception thrown by a builder
call ends the run; that case is the failure of `delegate`. -/
def CGAL_Build_PolySet {V : Type} (grid : Grid3d V)
    (test_facet : List (BuilderCall V) → List Nat → Bool) (ps : PolySet V) :
    List (BuilderCall V) :=
  let vertices := (collect_vertices grid ps.polygons grid.fresh []).2
  let g := (collect_vertices grid ps.polygons grid.fresh []).1
  (add_facets grid test_facet ps.polygons g
    ([.begin_surface vertices.length ps.polygons.length] ++ vertices.map .add_vertex)).2
    ++ [.end_surface]

/-- The grid cell of a point whose coordinates count units of `2^-30`: the grid resolution
`GRID_FINE = 2^-20` is 1024 units. -/
def grid_cell (v : Int × Int × Int) : Int × Int × Int :=
  (v.1 / 1024, v.2.1 / 1024, v.2.2 / 1024)

/-- The value stored for a grid cell, if any. -/
def grid_lookup (c : Int × Int × Int) : List ((Int × Int × Int) × Nat) → Option Nat
  | [] => none
  | e :: rest => if e.1 == c then some e.2 else grid_lookup c rest

/-- A toy grid: a vertex is known when its own cell holds a value; aligning moves a
vertex to the corner of its cell. -/
@[reducible] def toyGrid : Grid3d (Int × Int × Int) where
  G := List ((Int × Int × Int) × Nat)
  fresh := []
  has := fun g v => (grid_lookup (grid_cell v) g).isSome
  align := fun g v n =>
    ((grid_cell v, n) :: g,
      ((grid_cell v).1 * 1024, (grid_cell v).2.1 * 1024, (grid_cell v).2.2 * 1024))
  data := fun g v =>
    match grid_lookup (grid_cell v) g with
    | some n => (g, n)
    | none => ((grid_cell v, 0) :: g, 0)

/-- A toy builder test: a facet needs at least 3 indices. -/
def toy_test_facet (_calls : List (BuilderCall (Int × Int × Int))) (indices : List Nat) :
    Bool :=
  decide (3 ≤ indices.length)

/-- A mesh of three polygons on one square: the second polygon names a vertex twice, up
to grid resolution (`(1, 0, 0)` lies in the cell of the origin). -/
def mesh_with_duplicate : PolySet (Int × Int × Int) :=
  ⟨3, none,
    [[(0, 0, 0), (2048, 0, 0), (2048, 2048, 0)],
     [(0, 0, 0), (2048, 2048, 0), (1, 0, 0)],
     [(0, 0, 0), (2048, 2048, 0), (0, 2048, 0)]]⟩

/-! ## `applyHull` -/

/-- The body of the loop of `applyHull` over one child: the point set after it; `none`
when a complex with a null handle is dereferenced. -/
def applyHull_item (K : Kernel) (X : KernelHull K) (chgeom : Geom K) (points : List K.Point) :
    Option (List K.Point) :=
  match chgeom with
  | .nef N =>
    match N.p3 with
    | none => none
    | some x => some (set_insert_all X.point_lt (X.nef_vertices x) points)
  | .polyset ps => some (set_insert_all X.point_lt ps.polygons.flatten points)
  | .other => some points

/-- The loop of `applyHull` collecting the point cloud of all children. -/
def applyHull_points (K : Kernel) (X : KernelHull K) :
    List (ChildItem K) → List K.Point → Option (List K.Point)
  | [], points => some points
  | item :: rest, points =>
    match applyHull_item K X item.second points with
    | none => none
    | some points1 => applyHull_points K X rest points1

/-- The function `CGALUtils::applyHull(children, result)`: the returned flag and the mesh
`result` after the call.  The hull computation is not inside a `try` block. -/
def applyHull (K : Kernel) (X : KernelHull K) (children : List (ChildItem K))
    (result : PolySet K.Point) (w : World K) : Outcome K (Bool × PolySet K.Point) :=
  match applyHull_points K X children [] with
  | none => .undefined
  | some points =>
    if points.length ≤ 3 then .ok (false, result) w
    else if points.length ≥ 4 then
      match K.convex_hull_3 points with
      | none => .raised (w.call (.convex_hull_3 points))
      | some r =>
        if !(createPolySetFromPolyhedron K r result).2 then
          .ok (true, (createPolySetFromPolyhedron K r result).1) (w.call (.convex_hull_3 points))
        else
          .ok (false, (createPolySetFromPolyhedron K r result).1) (w.call (.convex_hull_3 points))
    else .ok (false, result) w

/-- A strict total order: irreflexive, transitive, and two elements neither of which is
below the other are equal. -/
def strict_total {α : Type} (lt : α → α → Bool) : Prop :=
  (∀ a, lt a a = false) ∧ (∀ a b c, lt a b = true → lt b c = true → lt a c = true) ∧
    (∀ a b, lt a b = false → lt b a = false → a = b)

/-- All the vertices the children of `applyHull` contribute, with repetitions, in
child-list order: the vertices of a complex, the polygon vertices of a mesh, nothing for
any other operand. -/
def collected_points (K : Kernel) (X : KernelHull K) : List (ChildItem K) → List K.Point
  | [] => []
  | item :: rest =>
    (match item.second with
      | .nef N =>
        match N.p3 with
        | some x => X.nef_vertices x
        | none => []
      | .polyset ps => ps.polygons.flatten
      | .other => []) ++ collected_points K X rest

/-- The complex a `try` block of `createNefPolyhedronFromPolySet` yields when nothing
escapes it: the complex constructed from the polyhedron, if the builder reports no error
and the construction succeeds. -/
def attempt_complex (K : Kernel) (X : KernelHull K) (ps : PolySet K.Point) : Option K.N3 :=
  match (K.delegate ps).2 with
  | some _ => none
  | none =>
    match X.nef_of_polyhedron (K.delegate ps).1 with
    | .ok n => some n
    | .error _ => none

/-- The assertion failure a `try` block of `createNefPolyhedronFromPolySet` catches: the
one thrown by the construction of the complex from the polyhedron, provided the builder
reported no error. -/
def attempt_caught (K : Kernel) (X : KernelHull K) (ps : PolySet K.Point) :
    Option Failure_exception :=
  match (K.delegate ps).2 with
  | some _ => none
  | none =>
    match X.nef_of_polyhedron (K.delegate ps).1 with
    | .ok _ => none
    | .error e => if e.is_assertion then some e else none

/-- Whether a failure that is not a `CGAL::Assertion_exception` is thrown in a `try`
block of `createNefPolyhedronFromPolySet`, by the builder or by the construction of the
complex. -/
def attempt_escapes (K : Kernel) (X : KernelHull K) (ps : PolySet K.Point) : Bool :=
  match (K.delegate ps).2 with
  | some e => !e.is_assertion
  | none =>
    match X.nef_of_polyhedron (K.delegate ps).1 with
    | .ok _ => false
    | .error e => !e.is_assertion

/-- The lexicographic order on integer triples. -/
def lex_lt (a b : Int × Int × Int) : Bool :=
  decide (a.1 < b.1) || (a.1 == b.1 && (decide (a.2.1 < b.2.1) ||
    (a.2.1 == b.2.1 && decide (a.2.2 < b.2.2))))

/-- The further operations of the voxel kernel.  The construction of a complex from a
polyhedron throws an assertion failure naming the plane constructor when the polyhedron
holds the point `(7, 7, 7)`, another assertion failure when it holds `(8, 8, 8)`, and a
precondition failure when it holds `(9, 9, 9)`; the faces are re-tessellated by taking
the coordinates modulo 7. -/
def voxelHull : KernelHull voxelKernel where
  point_lt := lex_lt
  nef_vertices := fun x => x.map (fun v => ((v : Int), 0, 0))
  nef_of_polyhedron := fun P =>
    if P.contains (7, 7, 7) then
      .error ⟨true, "assertion violation in Plane_constructor: has_on(p)"⟩
    else if P.contains (8, 8, 8) then .error ⟨true, "assertion violation"⟩
    else if P.contains (9, 9, 9) then .error ⟨false, "precondition violation"⟩
    else .ok ((P.map (fun p => p.1.natAbs)).eraseDups)
  copy_to := fun r => r
  tessellate_faces := fun ps =>
    ⟨3, none, ps.polygons.map (fun p => p.map (fun v => (v.1 % 7, v.2.1 % 7, v.2.2 % 7)))⟩

/-- The voxel kernel with an accumulator that queues an operand before it unites, as
`CGAL::Nef_nary_union_3::add_polyhedron` does: an insertion that throws has already queued
its operand. -/
@[reducible] def queueKernel : Kernel :=
  { voxelKernel with add_polyhedron := fun acc x => (acc ++ [x], !x.contains 13) }

/-- The further operations of `queueKernel`, those of the voxel kernel. -/
def queueHull : KernelHull queueKernel where
  point_lt := lex_lt
  nef_vertices := voxelHull.nef_vertices
  nef_of_polyhedron := voxelHull.nef_of_polyhedron
  copy_to := voxelHull.copy_to
  tessellate_faces := voxelHull.tessellate_faces

/-- A mesh flagged non-convex on which the construction of the complex throws the
assertion failure of a non-planar face (it holds the point `(7, 7, 7)`), while the
construction from the re-tessellated mesh succeeds. -/
def nonplanar_mesh : PolySet (Int × Int × Int) :=
  ⟨3, some false,
    [[(7, 7, 7), (1, 0, 0), (0, 1, 0)], [(7, 7, 7), (0, 1, 0), (0, 0, 1)],
     [(7, 7, 7), (0, 0, 1), (1, 0, 0)], [(1, 0, 0), (0, 0, 1), (0, 1, 0)]]⟩

/-- A mesh flagged non-convex on which the construction of the complex throws a
precondition failure (it holds the point `(9, 9, 9)`). -/
def precondition_mesh : PolySet (Int × Int × Int) :=
  ⟨3, some false,
    [[(9, 9, 9), (1, 0, 0), (0, 1, 0)], [(9, 9, 9), (0, 1, 0), (0, 0, 1)],
     [(9, 9, 9), (0, 0, 1), (1, 0, 0)], [(1, 0, 0), (0, 0, 1), (0, 1, 0)]]⟩

/-- A two-dimensional mesh, on which the builder of the voxel kernel throws a
precondition failure. -/
def flat_mesh : PolySet (Int × Int × Int) :=
  ⟨2, none, [[(0, 0, 0), (1, 0, 0), (0, 1, 0)]]⟩

/-! ## `is_approximately_convex` (cgalutils.cc, lines 912–1012) -/

/-- Lexicographic comparison of two vectors, `operator <` on `Vector3d`, over the coordinate
comparisons `lt` (for `a[i] < b[i]`) and `eq` (for `a[i] == b[i]`); the loop over the three
coordinates is unrolled. -/
def vector3d_lt {R : Type} (lt eq : R → R → Bool) (a b : R × R × R) : Bool :=
  if lt a.1 b.1 then true
  else if eq a.1 b.1 then
    if lt a.2.1 b.2.1 then true
    else if eq a.2.1 b.2.1 then
      if lt a.2.2 b.2.2 then true
      else if eq a.2.2 b.2.2 then false
      else false
    else false
  else false

/-- The comparator `VecPairCompare` on edges (pairs of vectors). -/
def VecPairCompare {R : Type} (lt eq : R → R → Bool)
    (a b : (R × R × R) × (R × R × R)) : Bool :=
  vector3d_lt lt eq a.1 b.1 || (!(vector3d_lt lt eq b.1 a.1) && vector3d_lt lt eq a.2 b.2)

/-- Whether no coordinate of a vector differs from itself under `==`, as a NaN does. -/
def vector3d_ordered {R : Type} (eq : R → R → Bool) (a : R × R × R) : Bool :=
  eq a.1 a.1 && eq a.2.1 a.2.1 && eq a.2.2 a.2.2

/-- The `Compare` argument of a `std::map` over edges: the comparison, and the keys on
which it is a strict weak ordering.  The map is specified for such keys only; handing it
another key is undefined behaviour. -/
structure MapCompare (V : Type) where
  less : V × V → V × V → Bool
  ordered : V × V → Bool

/-- The comparator `VecPairCompare` as the `Compare` argument of the edge map: among edges
without a NaN coordinate it is the lexicographic order; an edge with a NaN coordinate is
equivalent to edges that are not equivalent to each other. -/
def edge_order {R : Type} (lt eq : R → R → Bool) : MapCompare (R × R × R) :=
  ⟨VecPairCompare lt eq, fun e => vector3d_ordered eq e.1 && vector3d_ordered eq e.2⟩

/-- An `Edge_to_facet_map`: the entries of the `std::map`, keyed by edges up to the
equivalence of the comparator (neither key is less than the other), in the order in which
they were added; the function never iterates over the map. -/
abbrev Edge_to_facet_map (V : Type) : Type := List ((V × V) × Nat)

/-- The member `find(e)`: the entry whose key is equivalent to `e`, if there is one
(`some none` is `end()`); `none` when `e` is outside the ordering of the comparator. -/
def map_find {V : Type} (cmp : MapCompare V) (m : Edge_to_facet_map V) (e : V × V) :
    Option (Option Nat) :=
  if cmp.ordered e then
    some ((m.find? (fun kv => !cmp.less kv.1 e && !cmp.less e kv.1)).map Prod.snd)
  else none

/-- The member `count(e)` as a truth value; `none` when `e` is outside the ordering of the
comparator. -/
def map_count {V : Type} (cmp : MapCompare V) (m : Edge_to_facet_map V) (e : V × V) :
    Option Bool :=
  (map_find cmp m e).map Option.isSome

/-- The assignment `m[e] = i`: overwrite the entry of an equivalent key, or add one;
`none` when `e` is outside the ordering of the comparator. -/
def map_set {V : Type} (cmp : MapCompare V) (m : Edge_to_facet_map V) (e : V × V)
    (i : Nat) : Option (Edge_to_facet_map V) :=
  match map_count cmp m e with
  | none => none
  | some true =>
    some (m.map (fun kv => if !cmp.less kv.1 e && !cmp.less e kv.1 then (kv.1, i) else kv))
  | some false => some (m ++ [(e, i)])

/-- The floating-point geometry of `is_approximately_convex`, kept abstract: the plane of a
facet (Newell normal through its first vertex), the default-constructed plane, the side test
and the comparison of the cosine of the angle of two planes with the threshold. -/
structure PlaneTests (V : Type) where
  Plane : Type
  default_plane : Plane
  plane_of : List V → Plane
  has_on_positive_side : Plane → V → Bool
  cos_angle_below_threshold : Plane → Plane → Bool

/-- The directed edges `(polygon[j], polygon[(j+1) % N])` for `j = 0, …, N-1`. -/
def polygon_edges {V : Type} (polygon : List V) : List (V × V) :=
  polygon.zip (polygon.rotate 1)

/-- The triples `(polygon[(j+1) % N], polygon[j], polygon[(j+2) % N])` for `j = 0, …, N-1`:
the reversed edge `other_edge` and the next vertex `p` of the second loop. -/
def polygon_other_edges {V : Type} (polygon : List V) : List ((V × V) × V) :=
  ((polygon.rotate 1).zip polygon).zip (polygon.rotate 2)

/-- The way a loop of `is_approximately_convex` ends: it runs to its end, it returns a
value from the function, or its behaviour is undefined (a vector is read out of bounds, or
the map is handed a key outside the ordering of its comparator). -/
inductive LoopExit (α : Type) where
  | done (a : α)
  | returned (b : Bool)
  | undefined
  deriving DecidableEq, Repr

/-- The inner loop of the first pass over facet `i`; an edge that is already registered
makes the function return false. -/
def register_edges {V : Type} (cmp : MapCompare V) (i : Nat) :
    List (V × V) → Edge_to_facet_map V → LoopExit (Edge_to_facet_map V)
  | [], m => .done m
  | edge :: rest, m =>
    match map_count cmp m edge with
    | none => .undefined
    | some true => .returned false
    | some false =>
      match map_set cmp m edge i with
      | none => .undefined
      | some m1 => register_edges cmp i rest m1

/-- The first loop: edge to facet relations and plane equations. -/
def build_edge_map {V : Type} (T : PlaneTests V) (cmp : MapCompare V) :
    List (List V) → Nat → Edge_to_facet_map V → List T.Plane →
      LoopExit (Edge_to_facet_map V × List T.Plane)
  | [], _, m, facet_planes => .done (m, facet_planes)
  | polygon :: rest, i, m, facet_planes =>
    if polygon.length ≥ 3 then
      match register_edges cmp i (polygon_edges polygon) m with
      | .returned b => .returned b
      | .undefined => .undefined
      | .done m1 => build_edge_map T cmp rest (i + 1) m1 (facet_planes ++ [T.plane_of polygon])
    else build_edge_map T cmp rest (i + 1) m (facet_planes ++ [T.default_plane])

/-- The inner loop of the second pass over facet `i`. -/
def check_angles_polygon {V : Type} (T : PlaneTests V) (cmp : MapCompare V)
    (m : Edge_to_facet_map V) (facet_planes : List T.Plane) (i : Nat) :
    List ((V × V) × V) → LoopExit Unit
  | [] => .done ()
  | (other_edge, p) :: rest =>
    match map_find cmp m other_edge with
    | none => .undefined
    | some none => .returned false
    | some (some other_facet) =>
      match facet_planes[other_facet]?, facet_planes[i]? with
      | some plane_other, some plane_i =>
        if T.has_on_positive_side plane_other p
            && T.cos_angle_below_threshold plane_other plane_i then .returned false
        else check_angles_polygon T cmp m facet_planes i rest
      | _, _ => .undefined

/-- The second loop: every edge has a reversed partner and passes the angle test. -/
def check_angles {V : Type} (T : PlaneTests V) (cmp : MapCompare V)
    (m : Edge_to_facet_map V) (facet_planes : List T.Plane) :
    List (List V) → Nat → LoopExit Unit
  | [], _ => .done ()
  | polygon :: rest, i =>
    if polygon.length < 3 then check_angles T cmp m facet_planes rest (i + 1)
    else
      match check_angles_polygon T cmp m facet_planes i (polygon_other_edges polygon) with
      | .done _ => check_angles T cmp m facet_planes rest (i + 1)
      | .returned b => .returned b
      | .undefined => .undefined

/-- The `for` loop of the traversal over the edges of facet `f`, on the explored set and
the queue; an edge that is not in the map makes the function return false. -/
def visit_edges {V : Type} (cmp : MapCompare V) (m : Edge_to_facet_map V) :
    List (V × V) → List Nat → List Nat → LoopExit (List Nat × List Nat)
  | [], explored_facets, facets_to_visit => .done (explored_facets, facets_to_visit)
  | edge :: rest, explored_facets, facets_to_visit =>
    match map_find cmp m edge with
    | none => .undefined
    | some none => .returned false
    | some (some g) =>
      if explored_facets.contains g then visit_edges cmp m rest explored_facets facets_to_visit
      else visit_edges cmp m rest (explored_facets ++ [g]) (facets_to_visit ++ [g])

/-- The `while` loop of the traversal, with a bound on the number of facets taken from the
queue; it ends with the explored set. Reading `polygons[f]` out of bounds, or running out of
the bound, is `undefined`. -/
def traverse {V : Type} (cmp : MapCompare V) (polygons : List (List V))
    (m : Edge_to_facet_map V) : Nat → List Nat → List Nat → LoopExit (List Nat)
  | _, [], explored_facets => .done explored_facets
  | 0, _ :: _, _ => .undefined
  | fuel + 1, f :: facets_to_visit, explored_facets =>
    match polygons[f]? with
    | none => .undefined
    | some polygon =>
      match visit_edges cmp m (polygon_edges polygon) explored_facets facets_to_visit with
      | .returned b => .returned b
      | .undefined => .undefined
      | .done (explored1, queue1) => traverse cmp polygons m fuel queue1 explored1

/-- The function `is_approximately_convex`: `some b` is the returned value, `none`
undefined behaviour. Every facet enters the queue at most once, so the traversal is given
one step more than there are polygons. -/
def is_approximately_convex {R : Type} (T : PlaneTests (R × R × R)) (lt eq : R → R → Bool)
    (ps : PolySet (R × R × R)) : Option Bool :=
  match build_edge_map T (edge_order lt eq) ps.polygons 0 [] [] with
  | .returned b => some b
  | .undefined => none
  | .done (edge_to_facet_map, facet_planes) =>
    match check_angles T (edge_order lt eq) edge_to_facet_map facet_planes ps.polygons 0 with
    | .returned b => some b
    | .undefined => none
    | .done _ =>
      match traverse (edge_order lt eq) ps.polygons edge_to_facet_map
          (ps.polygons.length + 1) [0] [0] with
      | .returned b => some b
      | .undefined => none
      | .done explored_facets => some (explored_facets.length == ps.polygons.length)

/-- A regular tetrahedron: four triangles, oriented outwards, every edge shared by two of them
in opposite directions. -/
def tetrahedron : PolySet (Int × Int × Int) :=
  ⟨3, none,
    [[(1, 1, 1), (1, -1, -1), (-1, 1, -1)],
     [(1, 1, 1), (-1, 1, -1), (-1, -1, 1)],
     [(1, 1, 1), (-1, -1, 1), (1, -1, -1)],
     [(1, -1, -1), (-1, -1, 1), (-1, 1, -1)]]⟩

/-- The tetrahedron with its fourth face subdivided at a new vertex pushed inwards to the
centre. -/
def dented_tetrahedron : PolySet (Int × Int × Int) :=
  ⟨3, none,
    [[(1, 1, 1), (1, -1, -1), (-1, 1, -1)],
     [(1, 1, 1), (-1, 1, -1), (-1, -1, 1)],
     [(1, 1, 1), (-1, -1, 1), (1, -1, -1)],
     [(1, -1, -1), (-1, -1, 1), (0, 0, 0)],
     [(-1, -1, 1), (-1, 1, -1), (0, 0, 0)],
     [(-1, 1, -1), (1, -1, -1), (0, 0, 0)]]⟩

/-- Difference of two integer vectors. -/
def vec_sub (a b : Int × Int × Int) : Int × Int × Int :=
  (a.1 - b.1, a.2.1 - b.2.1, a.2.2 - b.2.2)

/-- Cross product of two integer vectors. -/
def vec_cross (a b : Int × Int × Int) : Int × Int × Int :=
  (a.2.1 * b.2.2 - a.2.2 * b.2.1, a.2.2 * b.1 - a.1 * b.2.2, a.1 * b.2.1 - a.2.1 * b.1)

/-- Dot product of two integer vectors. -/
def vec_dot (a b : Int × Int × Int) : Int :=
  a.1 * b.1 + a.2.1 * b.2.1 + a.2.2 * b.2.2

/-- Exact plane tests for triangles with integer vertices, for evaluating the model: a plane
is a point with a normal, and the cosine of the angle is compared with a rational threshold
just below one. -/
def exactTests : PlaneTests (Int × Int × Int) where
  Plane := (Int × Int × Int) × (Int × Int × Int)
  default_plane := ((0, 0, 0), (0, 0, 0))
  plane_of := fun polygon =>
    match polygon with
    | a :: b :: c :: _ => (a, vec_cross (vec_sub b a) (vec_sub c a))
    | _ => ((0, 0, 0), (0, 0, 0))
  has_on_positive_side := fun plane p => decide (0 < vec_dot plane.2 (vec_sub p plane.1))
  cos_angle_below_threshold := fun u v =>
    decide (vec_dot u.2 v.2 < 0) ||
      decide (vec_dot u.2 v.2 * vec_dot u.2 v.2 * 1000000
        < 999996 * (vec_dot u.2 u.2 * vec_dot v.2 v.2))

/-- The comparator `VecPairCompare` over integer coordinates. -/
def int_edge_lt : MapCompare (Int × Int × Int) :=
  edge_order (fun x y => decide (x < y)) (fun x y => decide (x = y))

/-- Coordinates with a NaN, for evaluating the model: `none` is the NaN, below nothing and
equal to nothing, itself included. -/
def nan_lt (x y : Option Int) : Bool :=
  match x, y with
  | some a, some b => decide (a < b)
  | _, _ => false

/-- The comparison `==` on coordinates with a NaN. -/
def nan_eq (x y : Option Int) : Bool :=
  match x, y with
  | some a, some b => decide (a = b)
  | _, _ => false

/-- A mesh of two triangles, the second with a NaN coordinate in its first vertex. -/
def nan_mesh : PolySet (Option Int × Option Int × Option Int) :=
  ⟨3, none,
    [[(some 1, some 0, some 0), (some 1, some 0, some 1), (some 1, some 0, some 1)],
     [(none, some 1, some 0), (some 1, some 0, some 0), (some 0, some 1, some 0)]]⟩

/-- The edge to facet map the first loop builds for the tetrahedron: each directed edge with
the one facet that has it in this direction. -/
def tetrahedron_edge_map : Edge_to_facet_map (Int × Int × Int) :=
  [(((1, 1, 1), (1, -1, -1)), 0), (((1, -1, -1), (-1, 1, -1)), 0),
   (((-1, 1, -1), (1, 1, 1)), 0),
   (((1, 1, 1), (-1, 1, -1)), 1), (((-1, 1, -1), (-1, -1, 1)), 1),
   (((-1, -1, 1), (1, 1, 1)), 1),
   (((1, 1, 1), (-1, -1, 1)), 2), (((-1, -1, 1), (1, -1, -1)), 2),
   (((1, -1, -1), (1, 1, 1)), 2),
   (((1, -1, -1), (-1, -1, 1)), 3), (((-1, -1, 1), (-1, 1, -1)), 3),
   (((-1, 1, -1), (1, -1, -1)), 3)]

/-- The regular tetrahedron over the coordinates with a NaN, none of its coordinates being
the NaN. -/
def finite_tetrahedron : PolySet (Option Int × Option Int × Option Int) :=
  ⟨3, none, tetrahedron.polygons.map (fun polygon =>
    polygon.map (fun v => (some v.1, some v.2.1, some v.2.2)))⟩

/-- Plane tests that never find a reflex angle, for evaluating the model over the
coordinates with a NaN. -/
def flatTests : PlaneTests (Option Int × Option Int × Option Int) where
  Plane := Unit
  default_plane := ()
  plane_of := fun _ => ()
  has_on_positive_side := fun _ _ => false
  cos_angle_below_threshold := fun _ _ => false

/-! ## The strict filter of `applyMinkowski` (cgalutils.cc, lines 539–578) -/

/-- The two kernel predicates of the strict filter, `CGAL::collinear` on three points and
`CGAL::coplanar` on four. -/
structure HullPredicates (P : Type) where
  collinear : P → P → P → Bool
  coplanar : P → P → P → P → Bool

/-- A vertex of the hull as the filter reads it: its point, and the points
`h->opposite()->vertex()->point()` of the half-edges `h` around it, in the order of
`next_on_vertex()` starting at `i->halfedge()`. -/
structure HullVertex (P : Type) where
  point : P
  ring : List P

/-- The neighbour at the half-edge reached from `i->halfedge()` by `k` steps of
`next_on_vertex()`; the steps run around the vertex, so the index is taken modulo the number
of half-edges. -/
def HullVertex.neighbour {P : Type} (v : HullVertex P) (k : Nat) : P :=
  v.ring.getD (k % v.ring.length) v.point

/-- The inner `for` loop over the other half-edges `j`, as long as neither flag is set; it
yields the flag `collinear`. -/
def strict_inner {P : Type} (G : HullPredicates P) (p q : P) : List P → Bool → Bool → Bool
  | [], collinear, _ => collinear
  | r :: rest, collinear, coplanar =>
    if !collinear && !coplanar then
      strict_inner G p q rest (if G.collinear p q r then true else collinear) coplanar
    else collinear

/-- The `do … while (h != e && !collinear)` loop: `todo` half-edges are left before `h` is
back at `e`, `k` is the position of `h`; it yields the flags `(collinear, coplanar)`. -/
def strict_outer {P : Type} (G : HullPredicates P) (v : HullVertex P) :
    Nat → Nat → Bool → Bool → Bool × Bool
  | 0, _, collinear, coplanar => (collinear, coplanar)
  | todo + 1, k, collinear, coplanar =>
    let q := v.neighbour k
    let coplanar1 :=
      if coplanar && !G.coplanar v.point q (v.neighbour (k + 1)) (v.neighbour (k + 2)) then false
      else coplanar
    let collinear1 := strict_inner G v.point q
      ((List.range (v.ring.length - 1)).map (fun t => v.neighbour (k + 1 + t)))
      collinear coplanar1
    if collinear1 then (collinear1, coplanar1)
    else strict_outer G v todo (k + 1) collinear1 coplanar1

/-- The body of the loop over the vertices for one vertex: whether its point is pushed to
`strict_points`. A vertex without a half-edge has no `h` to start from (`none`). -/
def strict_vertex {P : Type} (G : HullPredicates P) (v : HullVertex P) : Option Bool :=
  match v.ring with
  | [] => none
  | _ :: _ =>
    let flags := strict_outer G v v.ring.length 0 false true
    some (!flags.1 && !flags.2)

/-- The vector `strict_points` after the loop over the vertices of the hull. -/
def strict_points {P : Type} (G : HullPredicates P) : List (HullVertex P) → Option (List P)
  | [] => some []
  | v :: rest =>
    match strict_vertex G v with
    | none => none
    | some keep =>
      match strict_points G rest with
      | none => none
      | some points => some (if keep then v.point :: points else points)

/-- The two kernel tests of the edge loop of `is_weakly_convex`, on the plane through three
points and a fourth point: `has_on_positive_side`, and whether `CGAL::squared_distance` of
the plane and the point is above `1e-8`. -/
structure EdgeTests (P : Type) where
  has_on_positive_side : P → P → P → P → Bool
  squared_distance_exceeds : P → P → P → P → Bool

/-- The four points the edge loop reads at an edge `i`: `i->opposite()->vertex()`,
`i->vertex()`, `i->next()->vertex()` and `i->opposite()->next()->vertex()`. -/
structure EdgePoints (P : Type) where
  opposite_vertex : P
  vertex : P
  next_vertex : P
  opposite_next_vertex : P
  deriving DecidableEq, Repr

/-- A polyhedron as `is_weakly_convex` reads it: its edges in iteration order, and its facets
in iteration order, each given by the facet handles `he->opposite()->facet()` of the
half-edges `he` around it.  A facet handle is the position of the facet; a handle that is the
position of no facet stands for the null handle of a border half-edge. -/
structure HalfedgeDS (P : Type) where
  edges : List (EdgePoints P)
  facets : List (List Nat)

/-- The condition of the `if` in the edge loop: the far point of the opposite facet is on the
positive side of the plane of this facet, and farther from it than the tolerance. -/
def edge_fails {P : Type} (E : EdgeTests P) (e : EdgePoints P) : Bool :=
  E.has_on_positive_side e.opposite_vertex e.vertex e.next_vertex e.opposite_next_vertex &&
    E.squared_distance_exceeds e.opposite_vertex e.vertex e.next_vertex e.opposite_next_vertex

/-- The edge loop: `false` stands for its `return false`. -/
def edges_convex {P : Type} (E : EdgeTests P) : List (EdgePoints P) → Bool
  | [] => true
  | e :: rest => if edge_fails E e then false else edges_convex E rest

/-- The loop `CGAL_For_all(he, end)` around one facet, on the set `visited` and the queue
`to_explore`. -/
def visit_facet : List Nat → List Nat → List Nat → List Nat × List Nat
  | [], visited, to_explore => (visited, to_explore)
  | o :: rest, visited, to_explore =>
    if visited.contains o then visit_facet rest visited to_explore
    else visit_facet rest (visited ++ [o]) (to_explore ++ [o])

/-- The loop `while (!to_explore.empty())`, with a bound on the number of facets taken from
the queue; it ends with the set `visited`.  Taking a handle from the queue that is the
position of no facet is a null dereference (`none`), as is running out of the bound. -/
def explore_facets (facets : List (List Nat)) : Nat → List Nat → List Nat → Option (List Nat)
  | _, [], visited => some visited
  | 0, _ :: _, _ => none
  | fuel + 1, f :: to_explore, visited =>
    match facets[f]? with
    | none => none
    | some around =>
      explore_facets facets fuel (visit_facet around visited to_explore).2
        (visit_facet around visited to_explore).1

/-- The function `is_weakly_convex`: `some b` is the returned value, `none` a null
dereference.  The traversal starts at `p.facets_begin()`; every facet enters the queue at
most once, so the bound is the number of facets. -/
def is_weakly_convex {P : Type} (E : EdgeTests P) (p : HalfedgeDS P) : Option Bool :=
  if edges_convex E p.edges then
    match explore_facets p.facets p.facets.length [0] [0] with
    | none => none
    | some visited => some (visited.length == p.facets.length)
  else some false

/-- Two facets share an edge: the second is the facet on the other side of a half-edge around
the first. -/
def facet_adjacent (facets : List (List Nat)) (a b : Nat) : Prop :=
  ∃ around, facets[a]? = some around ∧ b ∈ around

/-- A facet is reachable from another across shared edges. -/
def facet_reachable (facets : List (List Nat)) : Nat → Nat → Prop :=
  Relation.ReflTransGen (facet_adjacent facets)

/-- A closed polyhedron: no half-edge is a border, the facet on the other side of every
half-edge is a facet of the polyhedron. -/
def closed_surface (facets : List (List Nat)) : Prop :=
  ∀ around ∈ facets, ∀ o ∈ around, o < facets.length

instance closed_surface_decidable (facets : List (List Nat)) :
    Decidable (closed_surface facets) := by
  unfold closed_surface
  infer_instance

/-- The state of the traversal at the head of the `while` loop is sound: the visited facets
are distinct facets reachable from the first one, the first one and the queued ones are
visited, and every facet on the other side of an edge of a visited facet that is no longer
queued is visited. -/
def traversal_invariant (facets : List (List Nat)) (to_explore visited : List Nat) : Prop :=
  visited.Nodup ∧ (∀ x ∈ visited, x < facets.length) ∧ (∀ x ∈ to_explore, x ∈ visited) ∧
  (∀ x ∈ visited, facet_reachable facets 0 x) ∧ 0 ∈ visited ∧
  (∀ x ∈ visited, x ∉ to_explore → ∀ o, facet_adjacent facets x o → o ∈ visited)

/-- Exact edge tests on points with integer coordinates. -/
def intEdgeTests : EdgeTests (Int × Int × Int) where
  has_on_positive_side := fun a b c d =>
    decide (0 < vec_dot (vec_cross (vec_sub b a) (vec_sub c a)) (vec_sub d a))
  squared_distance_exceeds := fun a b c d =>
    decide (vec_dot (vec_cross (vec_sub b a) (vec_sub c a))
          (vec_cross (vec_sub b a) (vec_sub c a))
        < 100000000 * (vec_dot (vec_cross (vec_sub b a) (vec_sub c a)) (vec_sub d a)
          * vec_dot (vec_cross (vec_sub b a) (vec_sub c a)) (vec_sub d a)))

/-- The surface of the regular tetrahedron `tetrahedron` as a polyhedron: its six edges and
its four facets with their neighbours. -/
def tetrahedron_surface : HalfedgeDS (Int × Int × Int) :=
  ⟨[⟨(1, 1, 1), (1, -1, -1), (-1, 1, -1), (-1, -1, 1)⟩,
    ⟨(1, -1, -1), (-1, 1, -1), (1, 1, 1), (-1, -1, 1)⟩,
    ⟨(-1, 1, -1), (1, 1, 1), (1, -1, -1), (-1, -1, 1)⟩,
    ⟨(-1, 1, -1), (-1, -1, 1), (1, 1, 1), (1, -1, -1)⟩,
    ⟨(-1, -1, 1), (1, 1, 1), (-1, 1, -1), (1, -1, -1)⟩,
    ⟨(-1, -1, 1), (1, -1, -1), (1, 1, 1), (-1, 1, -1)⟩],
   [[2, 3, 1], [0, 3, 2], [1, 3, 0], [2, 1, 0]]⟩

/-- Two copies of the tetrahedron, the second moved by `(10, 0, 0)`: a closed polyhedron with
two shells. -/
def two_shells : HalfedgeDS (Int × Int × Int) :=
  ⟨tetrahedron_surface.edges ++ tetrahedron_surface.edges.map (fun e =>
      ⟨vec_sub e.opposite_vertex (-10, 0, 0), vec_sub e.vertex (-10, 0, 0),
        vec_sub e.next_vertex (-10, 0, 0), vec_sub e.opposite_next_vertex (-10, 0, 0)⟩),
   tetrahedron_surface.facets ++ tetrahedron_surface.facets.map (fun around =>
      around.map (fun o => o + 4))⟩

/-! ## `ZRemover::visit` (cgalutils.cc, lines 1115–1166) -/

/-- The planar kernel as `ZRemover::visit` uses it: the planar complexes
`CGAL_Nef_polyhedron2` with their constructor from a contour and a boundary flag and their
operators `+=` and `*=`, the comparison `!=` of directions, and the conversion of a point of
the 3D complex to a planar point by `to_double` of its `x` and `y`. -/
structure PlanarKernel where
  N2 : Type
  Point2 : Type
  Point3 : Type
  Direction : Type
  Boundary : Type
  direction_ne : Direction → Direction → Bool
  to_point2 : Point3 → Point2
  from_contour : List Point2 → Boundary → N2
  join : N2 → N2 → N2
  intersection : N2 → N2 → N2

/-- A facet cycle of a half-facet: a cycle of edges, given by the points
`c1->source()->target()->point()` along it, or a trivial cycle (`is_shalfedge()` is false). -/
inductive FacetCycle (P : Type) where
  | shalfedge (points : List P)
  | trivial
  deriving DecidableEq, Repr

/-- A half-facet as `ZRemover::visit` reads it: the orthogonal direction of its plane and its
facet cycles in iteration order. -/
structure ZHalffacet (K : PlanarKernel) where
  orthogonal_direction : K.Direction
  cycles : List (FacetCycle K.Point3)

/-- Modelled from the spec: the members of `ZRemover` that `visit` uses (the class is declared
outside the sources at hand): the accumulator `output_nefpoly2d`, the scratch complex
`tmpnef2d` (null before the first contour), the boundary flag and the direction `up`. -/
structure ZRemover (K : PlanarKernel) where
  output_nefpoly2d : K.N2
  tmpnef2d : Option K.N2
  boundary : K.Boundary
  up : K.Direction

/-- The loop `CGAL_forall_facet_cycles_of` of `ZRemover::visit`, with the local
`contour_counter`. -/
def ZRemover.visit_cycles (K : PlanarKernel) :
    List (FacetCycle K.Point3) → Nat → ZRemover K → ZRemover K
  | [], _, z => z
  | .trivial :: rest, contour_counter, z => ZRemover.visit_cycles K rest contour_counter z
  | .shalfedge points :: rest, contour_counter, z =>
    let contour := points.map K.to_point2
    if contour.length = 0 then ZRemover.visit_cycles K rest contour_counter z
    else
      let tmp := K.from_contour contour z.boundary
      if contour_counter = 0 then
        ZRemover.visit_cycles K rest (contour_counter + 1)
          ⟨K.join z.output_nefpoly2d tmp, some tmp, z.boundary, z.up⟩
      else
        ZRemover.visit_cycles K rest (contour_counter + 1)
          ⟨K.intersection z.output_nefpoly2d tmp, some tmp, z.boundary, z.up⟩

/-- The member function `ZRemover::visit(hfacet)` on the members of the object. -/
def ZRemover.visit (K : PlanarKernel) (z : ZRemover K) (hfacet : ZHalffacet K) : ZRemover K :=
  if K.direction_ne hfacet.orthogonal_direction z.up then z
  else ZRemover.visit_cycles K hfacet.cycles 0 z

/-- The non-empty edge-cycle contours of a half-facet, in cycle order. -/
def edge_contours (K : PlanarKernel) : List (FacetCycle K.Point3) → List (List K.Point2)
  | [] => []
  | .trivial :: rest => edge_contours K rest
  | .shalfedge points :: rest =>
    if (points.map K.to_point2).length = 0 then edge_contours K rest
    else points.map K.to_point2 :: edge_contours K rest

/-- The accumulator intersected with the complexes of a list of contours, one after the
other. -/
def intersect_contours (K : PlanarKernel) (boundary : K.Boundary) (acc : K.N2)
    (holes : List (List K.Point2)) : K.N2 :=
  holes.foldl (fun a c => K.intersection a (K.from_contour c boundary)) acc

/-- The accumulator the claim describes: the first contour united, every further one
intersected. -/
def united_then_intersected (K : PlanarKernel) (boundary : K.Boundary) (acc : K.N2) :
    List (List K.Point2) → K.N2
  | [] => acc
  | c0 :: holes => intersect_contours K boundary (K.join acc (K.from_contour c0 boundary)) holes

/-- The cells of a six by six board. -/
def board : List (Int × Int) :=
  (List.range 6).flatMap (fun x => (List.range 6).map (fun y => ((x : Int), (y : Int))))

/-- Twice the signed area of a polygon (positive when counter-clockwise). -/
def signed_area (contour : List (Int × Int)) : Int :=
  ((contour.zip (contour.rotate 1)).map (fun e => e.1.1 * e.2.2 - e.2.1 * e.1.2)).sum

/-- A planar kernel for evaluating the model: a complex is the list of the board cells it
covers; a counter-clockwise contour gives the cells of its bounding box, a clockwise one the
cells outside its bounding box. -/
@[reducible] def boardKernel : PlanarKernel where
  N2 := List (Int × Int)
  Point2 := Int × Int
  Point3 := Int × Int × Int
  Direction := Int × Int × Int
  Boundary := Unit
  direction_ne := fun a b => a != b
  to_point2 := fun p => (p.1, p.2.1)
  from_contour := fun contour _ =>
    board.filter (fun c =>
      (decide (0 < signed_area contour)) ==
        (contour.any (fun p => decide (p.1 ≤ c.1)) && contour.any (fun p => decide (c.1 < p.1))
          && contour.any (fun p => decide (p.2 ≤ c.2))
          && contour.any (fun p => decide (c.2 < p.2))))
  join := fun a b => a ++ b.filter (fun c => !a.contains c)
  intersection := fun a b => a.filter (fun c => b.contains c)

/-- An upward half-facet at height 0: a square of side 4, a trivial cycle, and a square hole
of side 2 (clockwise). -/
def square_with_hole : ZHalffacet boardKernel :=
  ⟨(0, 0, 1),
    [.shalfedge [(0, 0, 0), (4, 0, 0), (4, 4, 0), (0, 4, 0)], .trivial,
     .shalfedge [(1, 1, 0), (1, 3, 0), (3, 3, 0), (3, 1, 0)]]⟩

/-- The same half-facet seen from below. -/
def square_from_below : ZHalffacet boardKernel :=
  ⟨(0, 0, -1), square_with_hole.cycles⟩

/-- A `ZRemover` with an empty accumulator. -/
def zremover0 : ZRemover boardKernel := ⟨[], none, (), (0, 0, 1)⟩

/-! ## The progress callbacks of `applyOperator` -/

/-- The running result after an operand has been combined with it: the result of the kernel
operator, the operand itself when the kernel operator fails, and the running result as it was
for an operator value the switch of `applyOperator` does not handle. -/
def operator_result (K : Kernel) (op : OpenSCADOperator) (N c : Nef K) : Nef K :=
  match kernel_operator K op, N.p3, c.p3 with
  | some f, some a, some b =>
    match f a b with
    | some r => ⟨N.dim, some r⟩
    | none => c
  | _, _, _ => N

open OpenSCADOperator in
/-- The owners of the operands whose combination reaches the operator, for an operator other
than UNION: the first operand becomes the running result; an empty operand, and an operand
met while the running result is empty, is short-circuited; every other operand is combined
with the running result, and its owner is listed. -/
def reported_owners (K : Kernel) (X : KernelHull K) (op : OpenSCADOperator) :
    List (ChildItem K) → Option (Nef K) → List (Option Nat)
  | [], _ => []
  | item :: rest, running =>
    match chN K X item.second with
    | none => []
    | some c =>
      match running with
      | none => reported_owners K X op rest (some c)
      | some N =>
        if c.isEmpty K then
          reported_owners K X op rest (some (if op = OPENSCAD_INTERSECTION then c else N))
        else if N.isEmpty K then reported_owners K X op rest (some N)
        else item.first :: reported_owners K X op rest (some (operator_result K op N c))

/-- Whether the switch of `applyOperator` runs a kernel operator for this operator value. -/
def switch_handles : OpenSCADOperator → Bool
  | .OPENSCAD_INTERSECTION => true
  | .OPENSCAD_DIFFERENCE => true
  | .OPENSCAD_MINKOWSKI => true
  | _ => false

/-! ## Properties of the normalisation of a child -/

theorem World.log_nil {K : Kernel} (w : World K) : w.log [] = w := by
  cases w
  simp [World.log]

theorem World.call_eq_log {K : Kernel} (w : World K) (c : KernelCall K) :
    w.call c = w.log [c] := rfl

theorem World.log_log {K : Kernel} (w : World K) (l1 l2 : List (KernelCall K)) :
    (w.log l1).log l2 = w.log (l1 ++ l2) := by
  simp [World.log]

theorem nef_attempt_eq (K : Kernel) (X : KernelHull K) (ps : PolySet K.Point) (w : World K)
    (hesc : attempt_escapes K X ps = false) :
    nef_attempt K X ps w
      = .ok (attempt_complex K X ps, attempt_caught K X ps) (w.call (.delegate ps)) := by
  unfold attempt_escapes at hesc
  unfold nef_attempt createPolyhedronFromPolySet attempt_complex attempt_caught
  rcases hd : K.delegate ps with ⟨P, eo⟩
  rw [hd] at hesc
  cases eo with
  | some e =>
    have he : e.is_assertion = true := by simpa using hesc
    simp [he, World.call, World.set_error_behaviour]
  | none =>
    simp only at hesc
    cases hn : X.nef_of_polyhedron P with
    | ok n => simp [hn, World.call, World.set_error_behaviour]
    | error e =>
      rw [hn] at hesc
      have he : e.is_assertion = true := by simpa using hesc
      simp [hn, he, World.call, World.set_error_behaviour]

theorem nef_attempt_escapes (K : Kernel) (X : KernelHull K) (ps : PolySet K.Point)
    (w : World K) (hesc : attempt_escapes K X ps = true) :
    ∃ w1, nef_attempt K X ps w = .raised w1 := by
  unfold attempt_escapes at hesc
  unfold nef_attempt createPolyhedronFromPolySet
  rcases hd : K.delegate ps with ⟨P, eo⟩
  rw [hd] at hesc
  cases eo with
  | some e =>
    have he : e.is_assertion = false := by simpa using hesc
    exact ⟨(w.set_error_behaviour .THROW_EXCEPTION).2.call (.delegate ps), by simp [he]⟩
  | none =>
    simp only at hesc
    cases hn : X.nef_of_polyhedron P with
    | ok n => simp [hn] at hesc
    | error e =>
      rw [hn] at hesc
      have he : e.is_assertion = false := by simpa using hesc
      exact ⟨(((w.set_error_behaviour .THROW_EXCEPTION).2.call
        (.delegate ps)).set_error_behaviour (w.set_error_behaviour .THROW_EXCEPTION).1).2,
        by simp [hn, he]⟩

/-- When the conversion of a mesh returns, what it returns does not depend on the world it
starts in, and it leaves that world with its kernel operations recorded and nothing else
changed. -/
theorem createNefPolyhedronFromPolySet_frame (K : Kernel) (X : KernelHull K)
    (ps : PolySet K.Point) (n : Nef K) (v1 : World K)
    (h : createNefPolyhedronFromPolySet K X ps ⟨.ABORT, [], []⟩ = .ok n v1) (w : World K) :
    createNefPolyhedronFromPolySet K X ps w = .ok n (w.log v1.calls) := by
  unfold createNefPolyhedronFromPolySet at h ⊢
  by_cases he : ps.polygons.isEmpty = true
  · simp only [he, if_true, Outcome.ok.injEq] at h ⊢
    obtain ⟨hn, hv⟩ := h
    rw [← hv]
    exact ⟨hn, (World.log_nil w).symm⟩
  · simp only [he, Bool.false_eq_true, if_false] at h ⊢
    by_cases hd : ps.dim ≠ 3
    · simp [hd] at h
    · simp only [hd, if_false] at h ⊢
      by_cases hcv : K.is_convex ps = true
      · simp only [hcv, if_true] at h ⊢
        by_cases hl : (set_insert_all X.point_lt ps.polygons.flatten []).length ≤ 3
        · simp only [hl, if_true, Outcome.ok.injEq] at h ⊢
          obtain ⟨hn, hv⟩ := h
          rw [← hv]
          exact ⟨hn, (World.log_nil w).symm⟩
        · simp only [hl, if_false] at h ⊢
          cases hh : K.convex_hull_3 (set_insert_all X.point_lt ps.polygons.flatten []) with
          | none => simp [hh] at h
          | some r =>
            simp only [hh] at h ⊢
            cases hn : X.nef_of_polyhedron (X.copy_to r) with
            | error e => simp [hn] at h
            | ok n1 =>
              simp only [hn, Outcome.ok.injEq] at h ⊢
              obtain ⟨hn1, hv⟩ := h
              rw [← hv]
              exact ⟨hn1, by simp [World.call, World.log]⟩
      · simp only [hcv, Bool.false_eq_true, if_false] at h ⊢
        by_cases hesc : attempt_escapes K X ps = true
        · obtain ⟨w1, hw1⟩ := nef_attempt_escapes K X ps
            ((⟨.ABORT, [], []⟩ : World K).set_error_behaviour .THROW_EXCEPTION).2 hesc
          simp [hw1] at h
        · have hesc : attempt_escapes K X ps = false := by simpa using hesc
          rw [nef_attempt_eq K X ps _ hesc] at h ⊢
          simp only at h ⊢
          by_cases hpe : plane_error (attempt_caught K X ps) = true
          · simp only [hpe, if_true] at h ⊢
            by_cases hesc2 : attempt_escapes K X (X.tessellate_faces ps) = true
            · obtain ⟨w1, hw1⟩ := nef_attempt_escapes K X (X.tessellate_faces ps)
                ((((⟨.ABORT, [], []⟩ : World K).set_error_behaviour .THROW_EXCEPTION).2).call
                  (.delegate ps)) hesc2
              simp [hw1] at h
            · have hesc2 : attempt_escapes K X (X.tessellate_faces ps) = false := by
                simpa using hesc2
              rw [nef_attempt_eq K X _ _ hesc2] at h ⊢
              simp only [Outcome.ok.injEq] at h ⊢
              obtain ⟨hn1, hv⟩ := h
              rw [← hv]
              exact ⟨hn1, by simp [World.call, World.log, World.set_error_behaviour]⟩
          · simp only [hpe, Bool.false_eq_true, if_false, Outcome.ok.injEq] at h ⊢
            obtain ⟨hn1, hv⟩ := h
            rw [← hv]
            exact ⟨hn1, by simp [World.call, World.log, World.set_error_behaviour]⟩

theorem chN_nef (K : Kernel) (X : KernelHull K) (n : Nef K) :
    chN K X (.nef n) = some n := rfl

theorem conversion_calls_nef (K : Kernel) (X : KernelHull K) (n : Nef K) :
    conversion_calls K X (.nef n) = [] := rfl

/-- The kernel operations of a conversion that returns are calls of the polyhedron builder
and of the hull only. -/
theorem createNefPolyhedronFromPolySet_calls (K : Kernel) (X : KernelHull K)
    (ps : PolySet K.Point) (n : Nef K) (v1 : World K)
    (h : createNefPolyhedronFromPolySet K X ps ⟨.ABORT, [], []⟩ = .ok n v1) :
    ∀ call ∈ v1.calls, call.is_conversion = true := by
  unfold createNefPolyhedronFromPolySet at h
  by_cases he : ps.polygons.isEmpty = true
  · simp only [he, if_true, Outcome.ok.injEq] at h
    rw [← h.2]
    simp
  · simp only [he, Bool.false_eq_true, if_false] at h
    by_cases hd : ps.dim ≠ 3
    · simp [hd] at h
    · simp only [hd, if_false] at h
      by_cases hcv : K.is_convex ps = true
      · simp only [hcv, if_true] at h
        by_cases hl : (set_insert_all X.point_lt ps.polygons.flatten []).length ≤ 3
        · simp only [hl, if_true, Outcome.ok.injEq] at h
          rw [← h.2]
          simp
        · simp only [hl, if_false] at h
          cases hh : K.convex_hull_3 (set_insert_all X.point_lt ps.polygons.flatten []) with
          | none => simp [hh] at h
          | some r =>
            simp only [hh] at h
            cases hn : X.nef_of_polyhedron (X.copy_to r) with
            | error e => simp [hn] at h
            | ok n1 =>
              simp only [hn, Outcome.ok.injEq] at h
              rw [← h.2]
              simp [World.call, KernelCall.is_conversion]
      · simp only [hcv, Bool.false_eq_true, if_false] at h
        by_cases hesc : attempt_escapes K X ps = true
        · obtain ⟨w1, hw1⟩ := nef_attempt_escapes K X ps
            ((⟨.ABORT, [], []⟩ : World K).set_error_behaviour .THROW_EXCEPTION).2 hesc
          simp [hw1] at h
        · have hesc : attempt_escapes K X ps = false := by simpa using hesc
          rw [nef_attempt_eq K X ps _ hesc] at h
          simp only at h
          by_cases hpe : plane_error (attempt_caught K X ps) = true
          · simp only [hpe, if_true] at h
            by_cases hesc2 : attempt_escapes K X (X.tessellate_faces ps) = true
            · obtain ⟨w1, hw1⟩ := nef_attempt_escapes K X (X.tessellate_faces ps)
                ((((⟨.ABORT, [], []⟩ : World K).set_error_behaviour .THROW_EXCEPTION).2).call
                  (.delegate ps)) hesc2
              simp [hw1] at h
            · have hesc2 : attempt_escapes K X (X.tessellate_faces ps) = false := by
                simpa using hesc2
              rw [nef_attempt_eq K X _ _ hesc2] at h
              simp only [Outcome.ok.injEq] at h
              rw [← h.2]
              simp [World.call, World.set_error_behaviour, KernelCall.is_conversion]
          · simp only [hpe, Bool.false_eq_true, if_false, Outcome.ok.injEq] at h
            rw [← h.2]
            simp [World.call, World.set_error_behaviour, KernelCall.is_conversion]

theorem conversion_calls_is_conversion (K : Kernel) (X : KernelHull K) (g : Geom K) :
    ∀ call ∈ conversion_calls K X g, call.is_conversion = true := by
  cases g with
  | nef m => simp [conversion_calls_nef]
  | other => simp [conversion_calls, chN_reset]
  | polyset ps =>
    unfold conversion_calls chN_reset createNefPolyhedronFromGeometry
    cases hv : createNefPolyhedronFromPolySet K X ps ⟨.ABORT, [], []⟩ with
    | undefined => simp [hv]
    | raised v1 => simp [hv]
    | ok m v1 => simpa [hv] using createNefPolyhedronFromPolySet_calls K X ps m v1 hv

theorem normalisation_calls_is_conversion (K : Kernel) (X : KernelHull K)
    (children : List (ChildItem K)) :
    ∀ call ∈ normalisation_calls K X children, call.is_conversion = true := by
  intro call hcall
  simp only [normalisation_calls, List.mem_flatMap] at hcall
  obtain ⟨c, _, hc⟩ := hcall
  exact conversion_calls_is_conversion K X c.second call hc

/-- The normalisation of a child for which `chN` has a value returns that value in every
world, and records its kernel operations. -/
theorem chN_reset_of_chN (K : Kernel) (X : KernelHull K) (g : Geom K) (n : Nef K)
    (h : chN K X g = some n) (w : World K) :
    chN_reset K X g w = .ok (some n) (w.log (conversion_calls K X g)) := by
  cases g with
  | nef m =>
    simp only [chN_nef, Option.some.injEq] at h
    simp [chN_reset, conversion_calls, h, World.log_nil]
  | other => simp [chN, chN_reset] at h
  | polyset ps =>
    unfold chN chN_reset createNefPolyhedronFromGeometry at h
    cases hv : createNefPolyhedronFromPolySet K X ps ⟨.ABORT, [], []⟩ with
    | undefined => simp [hv] at h
    | raised v1 => simp [hv] at h
    | ok m v1 =>
      simp only [hv, Option.some.injEq] at h
      simp only [chN_reset, createNefPolyhedronFromGeometry, conversion_calls, hv,
        createNefPolyhedronFromPolySet_frame K X ps m v1 hv w, h]

theorem applyOperator_item_eq (K : Kernel) (X : KernelHull K) (op : OpenSCADOperator)
    (item : ChildItem K) (st : OperatorState K) (w : World K) (c : Nef K)
    (hc : chN K X item.second = some c) :
    applyOperator_item K X op item st w
      = applyOperator_combine K op item c st (w.log (conversion_calls K X item.second)) := by
  unfold applyOperator_item
  rw [chN_reset_of_chN K X item.second c hc w]

/-- A list of complexes is normalised without any conversion. -/
theorem operands_valid_of_nef (K : Kernel) (X : KernelHull K) (children : List (ChildItem K))
    (h : ∀ c ∈ children, ∃ n, c.second = .nef n) : operands_valid K X children := by
  intro c hc
  obtain ⟨n, hn⟩ := h c hc
  rw [hn, chN_nef]
  exact Option.some_ne_none n

/-- How the conversion of a mesh ends, and the complex it returns, do not depend on the
world it starts in. -/
theorem createNefPolyhedronFromPolySet_world (K : Kernel) (X : KernelHull K)
    (ps : PolySet K.Point) (w v : World K) :
    (∀ n w1, createNefPolyhedronFromPolySet K X ps w = .ok n w1 →
      ∃ v1, createNefPolyhedronFromPolySet K X ps v = .ok n v1) ∧
    (∀ w1, createNefPolyhedronFromPolySet K X ps w = .raised w1 →
      ∃ v1, createNefPolyhedronFromPolySet K X ps v = .raised v1) ∧
    (createNefPolyhedronFromPolySet K X ps w = .undefined →
      createNefPolyhedronFromPolySet K X ps v = .undefined) := by
  unfold createNefPolyhedronFromPolySet
  by_cases he : ps.polygons.isEmpty = true
  · simp [he]
  · simp only [he, Bool.false_eq_true, if_false]
    by_cases hd : ps.dim ≠ 3
    · simp [hd]
    · simp only [hd, if_false]
      by_cases hcv : K.is_convex ps = true
      · simp only [hcv, if_true]
        by_cases hl : (set_insert_all X.point_lt ps.polygons.flatten []).length ≤ 3
        · simp [hl]
        · simp only [hl, if_false]
          cases hh : K.convex_hull_3 (set_insert_all X.point_lt ps.polygons.flatten []) with
          | none => simp
          | some r =>
            simp only
            cases hn : X.nef_of_polyhedron (X.copy_to r) with
            | error e => simp
            | ok n1 => simp
      · simp only [hcv, Bool.false_eq_true, if_false]
        by_cases hesc : attempt_escapes K X ps = true
        · obtain ⟨w1, hw1⟩ := nef_attempt_escapes K X ps
            (w.set_error_behaviour .THROW_EXCEPTION).2 hesc
          obtain ⟨v1, hv1⟩ := nef_attempt_escapes K X ps
            (v.set_error_behaviour .THROW_EXCEPTION).2 hesc
          simp [hw1, hv1]
        · have hesc : attempt_escapes K X ps = false := by simpa using hesc
          rw [nef_attempt_eq K X ps _ hesc, nef_attempt_eq K X ps _ hesc]
          simp only
          by_cases hpe : plane_error (attempt_caught K X ps) = true
          · simp only [hpe, if_true]
            by_cases hesc2 : attempt_escapes K X (X.tessellate_faces ps) = true
            · obtain ⟨w1, hw1⟩ := nef_attempt_escapes K X (X.tessellate_faces ps)
                (((w.set_error_behaviour .THROW_EXCEPTION).2).call (.delegate ps)) hesc2
              obtain ⟨v1, hv1⟩ := nef_attempt_escapes K X (X.tessellate_faces ps)
                (((v.set_error_behaviour .THROW_EXCEPTION).2).call (.delegate ps)) hesc2
              simp [hw1, hv1]
            · have hesc2 : attempt_escapes K X (X.tessellate_faces ps) = false := by
                simpa using hesc2
              rw [nef_attempt_eq K X _ _ hesc2, nef_attempt_eq K X _ _ hesc2]
              simp
          · simp [hpe]

theorem chN_reset_world (K : Kernel) (X : KernelHull K) (g : Geom K) (w v : World K) :
    (∀ c w1, chN_reset K X g w = .ok c w1 → ∃ v1, chN_reset K X g v = .ok c v1) ∧
    (∀ w1, chN_reset K X g w = .raised w1 → ∃ v1, chN_reset K X g v = .raised v1) ∧
    (chN_reset K X g w = .undefined → chN_reset K X g v = .undefined) := by
  cases g with
  | nef m => simp [chN_reset]
  | other => simp [chN_reset]
  | polyset ps =>
    obtain ⟨h1, h2, h3⟩ := createNefPolyhedronFromPolySet_world K X ps w v
    simp only [chN_reset, createNefPolyhedronFromGeometry]
    cases hw : createNefPolyhedronFromPolySet K X ps w with
    | ok n w1 =>
      obtain ⟨v1, hv1⟩ := h1 n w1 hw
      simp [hv1]
    | raised w1 =>
      obtain ⟨v1, hv1⟩ := h2 w1 hw
      simp [hv1]
    | undefined => simp [h3 hw]

/-! ## Properties of `applyBinaryOperator` -/

theorem set_restore_error_behaviour {K : Kernel} (w : World K) (b : Failure_behaviour) :
    ((w.set_error_behaviour b).2.set_error_behaviour (w.set_error_behaviour b).1).2 = w := by
  cases w; rfl

/-- C3: the empty-operand identities of `applyBinaryOperator`.  For a target of dimension
2 or 3: with an empty `src`, INTERSECTION makes the target `src` (hence empty) and UNION
and DIFFERENCE leave the target as it is; with an empty target and a non-empty `src`,
DIFFERENCE leaves the (empty) target as it is.  In each case the world is returned
untouched: no kernel operation is issued. -/
theorem applyBinaryOperator_empty_identities (K : Kernel) (target src : Nef K)
    (op : OpenSCADOperator) (w : World K) (hdim : target.dim = 2 ∨ target.dim = 3) :
    (src.isEmpty K = true → op = .OPENSCAD_INTERSECTION →
      applyBinaryOperator K target src op w = .ok src w) ∧
    (src.isEmpty K = true → (op = .OPENSCAD_UNION ∨ op = .OPENSCAD_DIFFERENCE) →
      applyBinaryOperator K target src op w = .ok target w) ∧
    (target.isEmpty K = true → src.isEmpty K = false → op = .OPENSCAD_DIFFERENCE →
      applyBinaryOperator K target src op w = .ok target w) := by
  have hd : ¬ (target.dim ≠ 2 ∧ target.dim ≠ 3) := by
    rcases hdim with h | h <;> simp [h]
  refine ⟨?_, ?_, ?_⟩
  · intro hs hop
    simp [applyBinaryOperator, hd, hs, hop]
  · intro hs hop
    rcases hop with hop | hop <;> simp [applyBinaryOperator, hd, hs, hop]
  · intro ht hs hop
    simp [applyBinaryOperator, hd, hs, ht, hop]

/-- Witness of C3 on the voxel kernel: a solid intersected with the empty complex becomes
empty, a solid united with or reduced by the empty complex stays, and the empty complex
reduced by a solid stays empty. -/
theorem applyBinaryOperator_empty_identities_witness :
    applyBinaryOperator voxelKernel (solid [1, 2]) (CGAL_Nef_polyhedron.empty voxelKernel)
        .OPENSCAD_INTERSECTION world0 = .ok (CGAL_Nef_polyhedron.empty voxelKernel) world0 ∧
    applyBinaryOperator voxelKernel (solid [1, 2]) (CGAL_Nef_polyhedron.empty voxelKernel)
        .OPENSCAD_UNION world0 = .ok (solid [1, 2]) world0 ∧
    applyBinaryOperator voxelKernel (CGAL_Nef_polyhedron.empty voxelKernel) (solid [1, 2])
        .OPENSCAD_DIFFERENCE world0 = .ok (CGAL_Nef_polyhedron.empty voxelKernel) world0 :=
  ⟨(applyBinaryOperator_empty_identities voxelKernel (solid [1, 2])
      (CGAL_Nef_polyhedron.empty voxelKernel) .OPENSCAD_INTERSECTION world0
      (Or.inr rfl)).1 rfl rfl,
   (applyBinaryOperator_empty_identities voxelKernel (solid [1, 2])
      (CGAL_Nef_polyhedron.empty voxelKernel) .OPENSCAD_UNION world0
      (Or.inr rfl)).2.1 rfl (Or.inl rfl),
   (applyBinaryOperator_empty_identities voxelKernel (CGAL_Nef_polyhedron.empty voxelKernel)
      (solid [1, 2]) .OPENSCAD_DIFFERENCE world0 (Or.inr rfl)).2.2 rfl rfl rfl⟩

/-- C7 as stated fails: a non-empty 3D target intersected with an empty 2D `src` does not
stay as it is; it becomes the 2D `src`. -/
theorem applyBinaryOperator_dimension_mismatch_counterexample :
    (solid [1, 2]).dim ≠ (⟨2, none⟩ : Nef voxelKernel).dim ∧
    applyBinaryOperator voxelKernel (solid [1, 2]) ⟨2, none⟩ .OPENSCAD_INTERSECTION world0
      = .ok ⟨2, none⟩ world0 ∧
    (⟨2, none⟩ : Nef voxelKernel) ≠ solid [1, 2] := by
  refine ⟨by decide, rfl, by decide⟩

/-- C7 amended: for a target of dimension 2 or 3 and a `src` of a different dimension,
`applyBinaryOperator` issues no kernel operation; it leaves the target as it is, except
when `src` is empty and the operator is INTERSECTION, where the target becomes `src`. -/
theorem applyBinaryOperator_dimension_mismatch (K : Kernel) (target src : Nef K)
    (op : OpenSCADOperator) (w : World K) (hdim : target.dim = 2 ∨ target.dim = 3)
    (hne : target.dim ≠ src.dim) :
    applyBinaryOperator K target src op w
      = .ok (if src.isEmpty K = true ∧ op = .OPENSCAD_INTERSECTION then src else target) w := by
  have hd : ¬ (target.dim ≠ 2 ∧ target.dim ≠ 3) := by
    rcases hdim with h | h <;> simp [h]
  unfold applyBinaryOperator
  rw [if_neg hd]
  by_cases hs : src.isEmpty K = true
  · by_cases hop : op = .OPENSCAD_INTERSECTION <;> simp [hs, hop]
  · simp only [hs, false_and, if_false]
    by_cases ht : target.isEmpty K = true ∧ op ≠ .OPENSCAD_UNION
    · simp [ht]
    · rw [if_neg ht, if_pos hne]
      simp

/-- Witness of the amended C7: a 3D solid united with a 2D solid stays as it is. -/
theorem applyBinaryOperator_dimension_mismatch_witness :
    applyBinaryOperator voxelKernel (solid [1, 2]) ⟨2, some [3]⟩ .OPENSCAD_UNION world0
      = .ok (solid [1, 2]) world0 :=
  applyBinaryOperator_dimension_mismatch voxelKernel (solid [1, 2]) ⟨2, some [3]⟩
    .OPENSCAD_UNION world0 (Or.inr rfl) (by decide)

theorem isEmpty_eq_false {K : Kernel} (c : Nef K) (b : K.N3) (h : c.p3 = some b)
    (hb : K.is_empty b = false) : c.isEmpty K = false := by
  simp [CGAL_Nef_polyhedron.isEmpty, h, hb]

theorem p3_of_isEmpty_eq_false {K : Kernel} (c : Nef K) (h : c.isEmpty K = false) :
    ∃ b, c.p3 = some b ∧ K.is_empty b = false := by
  unfold CGAL_Nef_polyhedron.isEmpty at h
  cases hp : c.p3 with
  | none => simp [hp] at h
  | some b => exact ⟨b, rfl, by simpa [hp] using h⟩

theorem applyBinaryOperator_not_raised (K : Kernel) (target src : Nef K)
    (op : OpenSCADOperator) (w : World K) :
    (applyBinaryOperator K target src op w).isRaised = false := by
  unfold applyBinaryOperator
  split_ifs <;> try rfl
  dsimp only
  split <;> rfl

theorem applyOperator_combine_not_raised (K : Kernel) (op : OpenSCADOperator)
    (item : ChildItem K) (c : Nef K) (st : OperatorState K) (w : World K) :
    (applyOperator_combine K op item c st w).isRaised = false := by
  unfold applyOperator_combine
  repeat' split
  all_goals first | rfl | (dsimp only; repeat' split) <;> rfl

theorem applyOperator_item_not_raised (K : Kernel) (X : KernelHull K) (op : OpenSCADOperator)
    (item : ChildItem K) (hitem : chN K X item.second ≠ none) (st : OperatorState K)
    (w : World K) :
    (applyOperator_item K X op item st w).isRaised = false := by
  obtain ⟨c, hc⟩ := Option.ne_none_iff_exists'.mp hitem
  rw [applyOperator_item_eq K X op item st w c hc]
  exact applyOperator_combine_not_raised K op item c st _

theorem applyOperator_loop_not_raised (K : Kernel) (X : KernelHull K) (op : OpenSCADOperator)
    (children : List (ChildItem K)) (hgeom : operands_valid K X children)
    (st : OperatorState K) (w : World K) :
    (applyOperator_loop K X op children st w).isRaised = false := by
  induction children generalizing st w with
  | nil => rfl
  | cons item rest ih =>
    have h := applyOperator_item_not_raised K X op item
      (hgeom item (List.mem_cons_self _ _)) st w
    unfold applyOperator_loop
    cases hitem : applyOperator_item K X op item st w with
    | ok st1 w1 => exact ih (fun c hc => hgeom c (List.mem_cons_of_mem _ hc)) st1 w1
    | raised w1 => rw [hitem] at h; exact h
    | undefined => rfl

theorem applyOperator_not_raised (K : Kernel) (X : KernelHull K)
    (children : List (ChildItem K)) (hgeom : operands_valid K X children) (dest : Nef K)
    (op : OpenSCADOperator) (w : World K) :
    (applyOperator K X children dest op w).isRaised = false := by
  have h := applyOperator_loop_not_raised K X op children hgeom ⟨K.nary_new, 0, none⟩ w
  unfold applyOperator
  cases hloop : applyOperator_loop K X op children ⟨K.nary_new, 0, none⟩ w with
  | ok st1 w1 =>
    simp only [applyOperator_finish]
    split_ifs <;> rfl
  | raised w1 => rw [hloop] at h; exact h
  | undefined => rfl

/-- An exception that leaves the loop of `applyOperator` has left the conversion of a mesh
child, which throws it in whatever world it is run. -/
theorem applyOperator_loop_raised (K : Kernel) (X : KernelHull K) (op : OpenSCADOperator)
    (children : List (ChildItem K)) (st : OperatorState K) (w : World K)
    (h : (applyOperator_loop K X op children st w).isRaised = true) :
    ∃ c ∈ children, ∃ ps, c.second = .polyset ps ∧
      ∀ v, (createNefPolyhedronFromPolySet K X ps v).isRaised = true := by
  induction children generalizing st w with
  | nil => simp [applyOperator_loop, Outcome.isRaised] at h
  | cons item rest ih =>
    simp only [applyOperator_loop] at h
    cases hitem : applyOperator_item K X op item st w with
    | ok st1 w1 =>
      rw [hitem] at h
      obtain ⟨c, hc, hrest⟩ := ih st1 w1 h
      exact ⟨c, List.mem_cons_of_mem _ hc, hrest⟩
    | undefined =>
      rw [hitem] at h
      simp [Outcome.isRaised] at h
    | raised w1 =>
      refine ⟨item, List.mem_cons_self _ _, ?_⟩
      unfold applyOperator_item at hitem
      cases hr : chN_reset K X item.second w with
      | undefined => simp [hr] at hitem
      | ok c v =>
        cases c with
        | none => simp [hr] at hitem
        | some c =>
          simp only [hr] at hitem
          have hnr := applyOperator_combine_not_raised K op item c st v
          rw [hitem] at hnr
          simp [Outcome.isRaised] at hnr
      | raised v =>
        cases hg : item.second with
        | nef n => simp [hg, chN_reset] at hr
        | other => simp [hg, chN_reset] at hr
        | polyset ps =>
          refine ⟨ps, rfl, fun v0 => ?_⟩
          rw [hg] at hr
          simp only [chN_reset, createNefPolyhedronFromGeometry] at hr
          cases hconv : createNefPolyhedronFromPolySet K X ps w with
          | ok n v1 => simp [hconv] at hr
          | undefined => simp [hconv] at hr
          | raised v1 =>
            obtain ⟨v2, hv2⟩ := (createNefPolyhedronFromPolySet_world K X ps w v0).2.1 v1 hconv
            rw [hv2]
            rfl

theorem applyOperator_raised (K : Kernel) (X : KernelHull K) (children : List (ChildItem K))
    (dest : Nef K) (op : OpenSCADOperator) (w : World K)
    (h : (applyOperator K X children dest op w).isRaised = true) :
    ∃ c ∈ children, ∃ ps, c.second = .polyset ps ∧
      ∀ v, (createNefPolyhedronFromPolySet K X ps v).isRaised = true := by
  apply applyOperator_loop_raised K X op children ⟨K.nary_new, 0, none⟩ w
  unfold applyOperator at h
  cases hloop : applyOperator_loop K X op children ⟨K.nary_new, 0, none⟩ w with
  | ok st1 w1 =>
    rw [hloop] at h
    simp only [applyOperator_finish] at h
    split_ifs at h <;> simp [Outcome.isRaised] at h
  | raised w1 => rfl
  | undefined =>
    rw [hloop] at h
    simp [Outcome.isRaised] at h

/-- C5: a failing kernel operator replaces the running result by the offending operand.
For `applyBinaryOperator` on non-empty operands of equal dimension: when the kernel
operator selected by `op` fails on them, the call ends normally with the target equal to
`src` (one kernel operation issued, the error mode back at its entry value).  For
`applyOperator` with an operator other than UNION: when the kernel operator fails on the
non-empty running result `N` and the non-empty operand `c`, the loop goes on over the
remaining children with running result `c`, after the owner's progress report.  No
failure of the kernel operator leaves either function: `applyBinaryOperator` never ends by
an exception, and the loop body of `applyOperator` after the normalisation of the child
never does.  An exception that leaves `applyOperator` has left the conversion of a mesh
child, which stands outside the `try` blocks; there is none when the normalisation of
every child returns. -/
theorem kernel_failure_replaces_running_result (K : Kernel) (X : KernelHull K) :
    (∀ (target src : Nef K) (op : OpenSCADOperator) (w : World K)
        (f : K.N3 → K.N3 → Option K.N3) (a b : K.N3),
      (target.dim = 2 ∨ target.dim = 3) → target.dim = src.dim →
      target.p3 = some a → src.p3 = some b → K.is_empty a = false → K.is_empty b = false →
      kernel_operator K op = some f → f a b = none →
      applyBinaryOperator K target src op w
        = .ok src (w.call (kernel_operator_call K op a b))) ∧
    (∀ (op : OpenSCADOperator) (item : ChildItem K) (rest : List (ChildItem K))
        (st : OperatorState K) (w : World K) (N c : Nef K) (node : Nat)
        (f : K.N3 → K.N3 → Option K.N3) (a b : K.N3),
      op ≠ .OPENSCAD_UNION → kernel_operator K op = some f →
      st.N = some N → chN K X item.second = some c → item.first = some node →
      N.p3 = some a → c.p3 = some b → K.is_empty a = false → K.is_empty b = false →
      f a b = none →
      applyOperator_loop K X op (item :: rest) st w
        = applyOperator_loop K X op rest
            ⟨st.nary_union, st.nary_union_num_inserted, some c⟩
            (((w.log (conversion_calls K X item.second)).call
              (kernel_operator_call K op a b)).progress_report node)) ∧
    (∀ (target src : Nef K) (op : OpenSCADOperator) (w : World K),
      (applyBinaryOperator K target src op w).isRaised = false) ∧
    (∀ (op : OpenSCADOperator) (item : ChildItem K) (c : Nef K) (st : OperatorState K)
        (w : World K), (applyOperator_combine K op item c st w).isRaised = false) ∧
    (∀ (children : List (ChildItem K)) (dest : Nef K) (op : OpenSCADOperator) (w : World K),
      (applyOperator K X children dest op w).isRaised = true →
      ∃ c ∈ children, ∃ ps, c.second = .polyset ps ∧
        ∀ v, (createNefPolyhedronFromPolySet K X ps v).isRaised = true) ∧
    (∀ (children : List (ChildItem K)) (dest : Nef K) (op : OpenSCADOperator) (w : World K),
      operands_valid K X children →
      (applyOperator K X children dest op w).isRaised = false) := by
  refine ⟨?_, ?_, applyBinaryOperator_not_raised K, applyOperator_combine_not_raised K,
    applyOperator_raised K X,
    fun children dest op w hgeom => applyOperator_not_raised K X children hgeom dest op w⟩
  · intro target src op w f a b hdim hsame ha hb hea heb hop hfail
    have hd : ¬ (target.dim ≠ 2 ∧ target.dim ≠ 3) := by
      rcases hdim with h | h <;> simp [h]
    have hs : src.isEmpty K = false := isEmpty_eq_false src b hb heb
    have ht : target.isEmpty K = false := isEmpty_eq_false target a ha hea
    unfold applyBinaryOperator
    rw [if_neg hd]
    simp only [hs, ht, hsame, Bool.false_eq_true, if_false, false_and, ne_eq, not_true_eq_false]
    cases op <;>
      simp_all [kernel_operator, kernel_operator_call, applyBinaryOperator_switch,
        CGAL_Nef_polyhedron.inplace, World.call, World.set_error_behaviour]
  · intro op item rest st w N c node f a b hop hf hN hc hnode ha hb hea heb hfail
    have hce : c.isEmpty K = false := isEmpty_eq_false c b hb heb
    have hNe : N.isEmpty K = false := isEmpty_eq_false N a ha hea
    rw [applyOperator_loop]
    have hitem : applyOperator_item K X op item st w
        = .ok ⟨st.nary_union, st.nary_union_num_inserted, some c⟩
            (((w.log (conversion_calls K X item.second)).call
              (kernel_operator_call K op a b)).progress_report node) := by
      rw [applyOperator_item_eq K X op item st w c hc]
      unfold applyOperator_combine
      simp only [hop, if_false, hN, hce, hNe, Bool.false_eq_true]
      cases op <;>
        simp_all [kernel_operator, kernel_operator_call, applyOperator_switch,
          CGAL_Nef_polyhedron.inplace, World.call, World.set_error_behaviour,
          World.progress_report, World.log]
    rw [hitem]

/-- Witness of C5 on the voxel kernel: the operand holding voxel 13 makes the difference
throw and takes the place of the running result; a list of complexes is normalised without
a conversion, and `applyOperator` on it does not end by an exception. -/
theorem kernel_failure_replaces_running_result_witness :
    applyBinaryOperator voxelKernel (solid [1, 2]) (solid [13]) .OPENSCAD_DIFFERENCE world0
      = .ok (solid [13]) (world0.call (.difference [1, 2] [13])) ∧
    applyOperator_loop voxelKernel voxelHull .OPENSCAD_DIFFERENCE [child 5 [13], child 6 [3]]
        ⟨[], 0, some (solid [1, 2])⟩ world0
      = applyOperator_loop voxelKernel voxelHull .OPENSCAD_DIFFERENCE [child 6 [3]]
          ⟨[], 0, some (solid [13])⟩
          ((world0.call (.difference [1, 2] [13])).progress_report 5) ∧
    (applyOperator voxelKernel voxelHull [child 5 [13], child 6 [3]] (solid [9])
      .OPENSCAD_DIFFERENCE world0).isRaised = false :=
  ⟨(kernel_failure_replaces_running_result voxelKernel voxelHull).1 (solid [1, 2]) (solid [13])
      .OPENSCAD_DIFFERENCE world0 voxelKernel.difference [1, 2] [13]
      (Or.inr rfl) rfl rfl rfl rfl rfl rfl rfl,
   (kernel_failure_replaces_running_result voxelKernel voxelHull).2.1 .OPENSCAD_DIFFERENCE
      (child 5 [13]) [child 6 [3]] ⟨[], 0, some (solid [1, 2])⟩ world0 (solid [1, 2])
      (solid [13]) 5 voxelKernel.difference [1, 2] [13]
      (by decide) rfl rfl rfl rfl rfl rfl rfl rfl rfl,
   (kernel_failure_replaces_running_result voxelKernel voxelHull).2.2.2.2.2
      [child 5 [13], child 6 [3]] (solid [9]) .OPENSCAD_DIFFERENCE world0
      (operands_valid_of_nef voxelKernel voxelHull _
        (by intro c hc; simp at hc; rcases hc with h | h <;> subst h <;> exact ⟨_, rfl⟩))⟩

/-! ## Properties of `applyOperator` -/

theorem operands_valid_cons {K : Kernel} {X : KernelHull K} {item : ChildItem K}
    {rest : List (ChildItem K)} (h : operands_valid K X (item :: rest)) :
    chN K X item.second ≠ none ∧ operands_valid K X rest :=
  ⟨h item (List.mem_cons_self _ _), fun c hc => h c (List.mem_cons_of_mem _ hc)⟩

theorem owners_valid_cons {K : Kernel} {item : ChildItem K} {rest : List (ChildItem K)}
    (h : owners_valid K (item :: rest)) :
    item.first ≠ none ∧ owners_valid K rest :=
  ⟨h item (List.mem_cons_self _ _), fun c hc => h c (List.mem_cons_of_mem _ hc)⟩

theorem applyOperator_loop_union (K : Kernel) (X : KernelHull K)
    (children : List (ChildItem K)) (hgeom : operands_valid K X children)
    (st : OperatorState K) (w : World K) :
    applyOperator_loop K X .OPENSCAD_UNION children st w
      = .ok ⟨nary_state K st.nary_union (union_operands K X children),
             st.nary_union_num_inserted
               + (nary_inserted K st.nary_union (union_operands K X children)).length,
             st.N⟩
          (w.log (union_calls K X children)) := by
  induction children generalizing st w with
  | nil => simp [applyOperator_loop, union_operands, union_calls, nary_state, nary_inserted,
      World.log_nil]
  | cons item rest ih =>
    obtain ⟨hitem, hrest⟩ := operands_valid_cons hgeom
    cases hc : chN K X item.second with
    | none => exact absurd hc hitem
    | some c =>
      rw [applyOperator_loop, applyOperator_item_eq K X _ item st w c hc]
      unfold applyOperator_combine
      cases hp : c.p3 with
      | none =>
        simp [hc, CGAL_Nef_polyhedron.isEmpty, hp, union_operands, union_calls,
          ih hrest, World.log]
      | some x =>
        cases hx : K.is_empty x with
        | true =>
          simp [hc, CGAL_Nef_polyhedron.isEmpty, hp, hx, union_operands, union_calls,
            ih hrest, World.log]
        | false =>
          cases hr : (K.add_polyhedron st.nary_union x).2 with
          | true =>
            simp [hc, CGAL_Nef_polyhedron.isEmpty, hp, hx, hr,
              union_operands, union_calls, nary_state, nary_inserted, ih hrest, World.call,
              World.set_error_behaviour, World.log]
            omega
          | false =>
            simp [hc, CGAL_Nef_polyhedron.isEmpty, hp, hx, hr,
              union_operands, union_calls, nary_state, nary_inserted, ih hrest, World.call,
              World.set_error_behaviour, World.log]

theorem union_operands_nonempty (K : Kernel) (X : KernelHull K)
    (children : List (ChildItem K)) :
    ∀ x ∈ union_operands K X children, K.is_empty x = false := by
  induction children with
  | nil => simp [union_operands]
  | cons item rest ih =>
    unfold union_operands
    split
    · exact ih
    · split
      · exact ih
      · split
        · exact ih
        · intro x hx
          rcases List.mem_cons.mp hx with h | h
          · subst h; simpa using ‹¬ K.is_empty _ = true›
          · exact ih x h

theorem nary_inserted_sublist (K : Kernel) (acc : K.Nary) (xs : List K.N3) :
    (nary_inserted K acc xs).Sublist xs := by
  induction xs generalizing acc with
  | nil => simp [nary_inserted]
  | cons x xs ih =>
    unfold nary_inserted
    split
    · exact (ih _).cons₂ x
    · exact (ih _).cons x

theorem nary_inserted_strong (K : Kernel)
    (hstrong : ∀ acc x, (K.add_polyhedron acc x).2 = false → (K.add_polyhedron acc x).1 = acc)
    (acc : K.Nary) (xs : List K.N3) :
    nary_state K acc (nary_inserted K acc xs) = nary_state K acc xs ∧
    nary_all_succeed K acc (nary_inserted K acc xs) = true := by
  induction xs generalizing acc with
  | nil => simp [nary_inserted, nary_state, nary_all_succeed]
  | cons x xs ih =>
    cases hr : (K.add_polyhedron acc x).2 with
    | true =>
      simp [nary_inserted, nary_state, nary_all_succeed, hr, ih]
    | false =>
      have hacc := hstrong acc x hr
      simp only [nary_inserted, nary_state, hr, Bool.false_eq_true, if_false, hacc]
      exact ih acc

/-- C1 as stated fails for a kernel whose accumulator queues an operand before it unites:
of the children `[1,2]`, `[13]` (insertion throws) and `[3]` the insertions of `[1,2]` and
`[3]` succeed, yet `dest` receives `[1,2,13,3]`, which holds the operand whose insertion
failed, and not the union `[1,2,3]` of the operands whose insertion succeeded. -/
theorem applyOperator_union_inserted_counterexample :
    nary_inserted queueKernel queueKernel.nary_new
      (union_operands queueKernel queueHull
        [⟨some 1, .nef ⟨3, some [1, 2]⟩⟩, ⟨some 2, .nef ⟨3, some [13]⟩⟩,
          ⟨some 3, .nef ⟨3, some [3]⟩⟩]) = [[1, 2], [3]] ∧
    applyOperator queueKernel queueHull
        [⟨some 1, .nef ⟨3, some [1, 2]⟩⟩, ⟨some 2, .nef ⟨3, some [13]⟩⟩,
          ⟨some 3, .nef ⟨3, some [3]⟩⟩]
        (CGAL_Nef_polyhedron.empty queueKernel) .OPENSCAD_UNION ⟨.ABORT, [], []⟩
      = .ok ⟨3, some [1, 2, 13, 3]⟩
          ⟨.ABORT, [], [.add_polyhedron [1, 2], .add_polyhedron [13], .add_polyhedron [3],
            .get_union]⟩ ∧
    queueKernel.get_union
      (nary_state queueKernel queueKernel.nary_new [[1, 2], [3]]) = some [1, 2, 3] := by
  refine ⟨rfl, rfl, rfl⟩

/-- C1 amended: `applyOperator` with UNION on a child list of meshes and complexes whose
normalisation returns.  The kernel operations issued are, for each child in child-list
order, those of its normalisation and then, if the operand is not empty, one attempted
insertion into the accumulator (an empty operand is never handed to the kernel, and a
failed insertion does not stop the later ones), followed by one extraction when at least
one insertion succeeded.  The value stored in `dest` is then the extraction from the
accumulator as the kernel left it after all these attempted insertions, the failed ones
included; `dest` keeps its entry value when no insertion succeeded or the extraction
fails.  For a kernel whose failed insertion leaves the accumulator as it was, that
accumulator is the one that received exactly the operands whose insertion succeeded, in
child-list order, each of these insertions succeeding. -/
theorem applyOperator_union_inserted (K : Kernel) (X : KernelHull K)
    (children : List (ChildItem K)) (hgeom : operands_valid K X children) (dest : Nef K)
    (w : World K) :
    (∀ x ∈ union_operands K X children, K.is_empty x = false) ∧
    (nary_inserted K K.nary_new (union_operands K X children)).Sublist
      (union_operands K X children) ∧
    applyOperator K X children dest .OPENSCAD_UNION w
      = .ok
          (if (nary_inserted K K.nary_new (union_operands K X children)).isEmpty then dest
           else
             match K.get_union (nary_state K K.nary_new (union_operands K X children)) with
             | some u => CGAL_Nef_polyhedron.ofN3 K u
             | none => dest)
          (w.log (union_calls K X children
            ++ (if (nary_inserted K K.nary_new (union_operands K X children)).isEmpty
                then [] else [.get_union]))) ∧
    ((∀ acc x, (K.add_polyhedron acc x).2 = false → (K.add_polyhedron acc x).1 = acc) →
      nary_all_succeed K K.nary_new
          (nary_inserted K K.nary_new (union_operands K X children)) = true ∧
      nary_state K K.nary_new (nary_inserted K K.nary_new (union_operands K X children))
        = nary_state K K.nary_new (union_operands K X children)) := by
  refine ⟨union_operands_nonempty K X children, nary_inserted_sublist K _ _, ?_,
    fun hstrong => ⟨(nary_inserted_strong K hstrong _ _).2,
      (nary_inserted_strong K hstrong _ _).1⟩⟩
  unfold applyOperator
  rw [applyOperator_loop_union K X children hgeom]
  simp only [applyOperator_finish]
  cases hins : nary_inserted K K.nary_new (union_operands K X children) with
  | nil => simp [World.log]
  | cons y ys =>
    cases K.get_union (nary_state K K.nary_new (union_operands K X children)) <;>
      simp [World.call, World.set_error_behaviour, World.log]

/-- Witness of the amended C1 on the voxel kernel: of the children `[1,2]`, empty, `[13]`
(insertion throws) and `[2,3]`, the kernel is handed `[1,2]`, `[13]`, `[2,3]` and then
asked for the union, and `dest` receives the union of `[1,2]` and `[2,3]`. -/
theorem applyOperator_union_inserted_witness :
    applyOperator voxelKernel voxelHull
        [child 1 [1, 2], ⟨none, .nef (CGAL_Nef_polyhedron.empty voxelKernel)⟩,
          ⟨none, .nef (solid [13])⟩, child 4 [2, 3]]
        (CGAL_Nef_polyhedron.empty voxelKernel) .OPENSCAD_UNION world0
      = .ok (solid [1, 2, 3])
          (world0.log [.add_polyhedron [1, 2], .add_polyhedron [13],
            .add_polyhedron [2, 3], .get_union]) :=
  (applyOperator_union_inserted voxelKernel voxelHull
    [child 1 [1, 2], ⟨none, .nef (CGAL_Nef_polyhedron.empty voxelKernel)⟩,
      ⟨none, .nef (solid [13])⟩, child 4 [2, 3]]
    (operands_valid_of_nef voxelKernel voxelHull _ (by
      intro c hc; simp at hc; rcases hc with h | h | h | h <;> subst h <;> exact ⟨_, rfl⟩))
    (CGAL_Nef_polyhedron.empty voxelKernel) world0).2.2.1

/-- C6 as stated fails: with a non-empty `dest` on entry and an extraction that throws
(the accumulator holds voxel 7), `dest` is not empty after the call; it still holds its
entry value. -/
theorem applyOperator_union_extraction_counterexample :
    voxelKernel.get_union (nary_state voxelKernel voxelKernel.nary_new
      (union_operands voxelKernel voxelHull [child 1 [7]])) = none ∧
    applyOperator voxelKernel voxelHull [child 1 [7]] (solid [1]) .OPENSCAD_UNION world0
      = .ok (solid [1]) ⟨.ABORT, [], [.add_polyhedron [7], .get_union]⟩ ∧
    (solid [1]).isEmpty voxelKernel = false := by
  refine ⟨rfl, rfl, rfl⟩

/-- C6 amended: `applyOperator` with UNION on a child list of meshes and complexes: if
the extraction from the accumulator fails, the call ends normally (no failure leaves it),
the error mode is back at its entry value, and `dest` keeps its entry value; so `dest`
is empty after the call whenever it was empty on entry. -/
theorem applyOperator_union_extraction_fails (K : Kernel) (X : KernelHull K)
    (children : List (ChildItem K)) (hgeom : operands_valid K X children) (dest : Nef K)
    (w : World K)
    (hfail : K.get_union (nary_state K K.nary_new (union_operands K X children)) = none) :
    ∃ w1, applyOperator K X children dest .OPENSCAD_UNION w = .ok dest w1 ∧
      w1.error_behaviour = w.error_behaviour ∧
      (dest.isEmpty K = true →
        ((applyOperator K X children dest .OPENSCAD_UNION w).value.map
          (fun d => d.isEmpty K)) = some true) := by
  have hval : ∃ w1, applyOperator K X children dest .OPENSCAD_UNION w = .ok dest w1 ∧
      w1.error_behaviour = w.error_behaviour := by
    unfold applyOperator
    rw [applyOperator_loop_union K X children hgeom]
    simp only [applyOperator_finish]
    split_ifs
    · simp [hfail, World.call, World.set_error_behaviour, World.log]
    · simp [World.log]
  obtain ⟨w1, h1, h2⟩ := hval
  exact ⟨w1, h1, h2, fun he => by simp [h1, Outcome.value, he]⟩

/-- Witness of the amended C6: an extraction that throws leaves an empty `dest` empty. -/
theorem applyOperator_union_extraction_fails_witness :
    ∃ w1, applyOperator voxelKernel voxelHull [child 1 [7], child 2 [3]]
        (CGAL_Nef_polyhedron.empty voxelKernel) .OPENSCAD_UNION world0
        = .ok (CGAL_Nef_polyhedron.empty voxelKernel) w1 ∧
      w1.error_behaviour = world0.error_behaviour ∧
      ((CGAL_Nef_polyhedron.empty voxelKernel).isEmpty voxelKernel = true →
        ((applyOperator voxelKernel voxelHull [child 1 [7], child 2 [3]]
          (CGAL_Nef_polyhedron.empty voxelKernel) .OPENSCAD_UNION world0).value.map
          (fun d => d.isEmpty voxelKernel)) = some true) :=
  applyOperator_union_extraction_fails voxelKernel voxelHull [child 1 [7], child 2 [3]]
    (operands_valid_of_nef voxelKernel voxelHull _ (by
      intro c hc; simp at hc; rcases hc with h | h <;> subst h <;> exact ⟨_, rfl⟩))
    (CGAL_Nef_polyhedron.empty voxelKernel) world0 rfl

theorem applyOperator_item_success (K : Kernel) (X : KernelHull K) (op : OpenSCADOperator)
    (f : K.N3 → K.N3 → Option K.N3) (hop : op ≠ .OPENSCAD_UNION)
    (hf : kernel_operator K op = some f) (item : ChildItem K) (st : OperatorState K)
    (w : World K) (N c : Nef K) (node : Nat) (a b m : K.N3)
    (hN : st.N = some N) (hc : chN K X item.second = some c) (hnode : item.first = some node)
    (ha : N.p3 = some a) (hb : c.p3 = some b) (hea : K.is_empty a = false)
    (heb : K.is_empty b = false) (hm : f a b = some m) :
    applyOperator_item K X op item st w
      = .ok ⟨st.nary_union, st.nary_union_num_inserted, some ⟨N.dim, some m⟩⟩
          (((w.log (conversion_calls K X item.second)).call
            (kernel_operator_call K op a b)).progress_report node) := by
  have hce : c.isEmpty K = false := isEmpty_eq_false c b hb heb
  have hNe : N.isEmpty K = false := isEmpty_eq_false N a ha hea
  rw [applyOperator_item_eq K X op item st w c hc]
  unfold applyOperator_combine
  simp only [hop, if_false, hN, hce, hNe, Bool.false_eq_true]
  cases op <;>
    simp_all [kernel_operator, kernel_operator_call, applyOperator_switch,
      CGAL_Nef_polyhedron.inplace, World.call, World.set_error_behaviour,
      World.progress_report, World.log]

theorem applyOperator_item_first (K : Kernel) (X : KernelHull K) (op : OpenSCADOperator)
    (hop : op ≠ .OPENSCAD_UNION) (item : ChildItem K) (acc : K.Nary) (cnt : Nat)
    (w : World K) (c : Nef K) (hc : chN K X item.second = some c) :
    applyOperator_item K X op item ⟨acc, cnt, none⟩ w
      = .ok ⟨acc, cnt, some c⟩ (w.log (conversion_calls K X item.second)) := by
  rw [applyOperator_item_eq K X op item _ w c hc]
  simp [applyOperator_combine, hop]

theorem applyOperator_loop_left_fold (K : Kernel) (X : KernelHull K) (op : OpenSCADOperator)
    (f : K.N3 → K.N3 → Option K.N3) (hop : op ≠ .OPENSCAD_UNION)
    (hf : kernel_operator K op = some f) (dim : Nat) (rest : List (ChildItem K))
    (xs : List K.N3)
    (hrest : List.Forall₂ (fun c x => c.first ≠ none ∧
      ∃ d, chN K X c.second = some ⟨d, some x⟩ ∧ K.is_empty x = false) rest xs)
    (a r : K.N3) (hfold : xs.foldlM f a = some r)
    (hmid : ∀ k, k < xs.length →
      ∃ m, (xs.take k).foldlM f a = some m ∧ K.is_empty m = false)
    (acc : K.Nary) (cnt : Nat) (w : World K) :
    ∃ w1, applyOperator_loop K X op rest ⟨acc, cnt, some ⟨dim, some a⟩⟩ w
      = .ok ⟨acc, cnt, some ⟨dim, some r⟩⟩ w1 := by
  induction hrest generalizing a w with
  | nil =>
    simp at hfold
    subst hfold
    exact ⟨w, rfl⟩
  | @cons c x rest xs hcx _ ih =>
    obtain ⟨hown, d, hc, hx⟩ := hcx
    obtain ⟨node, hnode⟩ := Option.ne_none_iff_exists'.mp hown
    obtain ⟨m0, hm0, ha⟩ := hmid 0 (by simp)
    simp at hm0
    subst hm0
    simp only [List.foldlM_cons, Option.bind_eq_bind, Option.bind_eq_some] at hfold
    obtain ⟨m, hm, hfold1⟩ := hfold
    have hstep := applyOperator_item_success K X op f hop hf c
      ⟨acc, cnt, some ⟨dim, some a⟩⟩ w
      ⟨dim, some a⟩ ⟨d, some x⟩ node a x m rfl hc hnode rfl rfl ha hx hm
    have hmid1 : ∀ k, k < xs.length →
        ∃ m1, (xs.take k).foldlM f m = some m1 ∧ K.is_empty m1 = false := by
      intro k hk
      obtain ⟨m1, h1, h2⟩ := hmid (k + 1) (by simpa using hk)
      simp only [List.take_succ_cons, List.foldlM_cons, Option.bind_eq_bind, hm,
        Option.some_bind] at h1
      exact ⟨m1, h1, h2⟩
    obtain ⟨w1, hw1⟩ := ih m hfold1 hmid1
      (((w.log (conversion_calls K X c.second)).call
        (kernel_operator_call K op a x)).progress_report node)
    refine ⟨w1, ?_⟩
    rw [applyOperator_loop, hstep]
    exact hw1

/-- C2: `applyOperator` with DIFFERENCE or INTERSECTION on a child list `c1, ..., cn` whose
operands after the first are non-empty and have non-null owners: when the strict left
fold of the kernel's binary operator over the operands succeeds at every step and every
running result met before a kernel call is non-empty, the call ends normally and `dest`
is that left fold, in the dimension of `c1`.  For a one-element list `dest` is `c1`. -/
theorem applyOperator_left_fold (K : Kernel) (X : KernelHull K) (op : OpenSCADOperator)
    (f : K.N3 → K.N3 → Option K.N3)
    (hop : op = .OPENSCAD_INTERSECTION ∨ op = .OPENSCAD_DIFFERENCE)
    (hf : kernel_operator K op = some f)
    (c1 : ChildItem K) (rest : List (ChildItem K)) (dim : Nat) (x1 : K.N3) (xs : List K.N3)
    (h1 : chN K X c1.second = some ⟨dim, some x1⟩)
    (hrest : List.Forall₂ (fun c x => c.first ≠ none ∧
      ∃ d, chN K X c.second = some ⟨d, some x⟩ ∧ K.is_empty x = false) rest xs)
    (r : K.N3) (hfold : xs.foldlM f x1 = some r)
    (hmid : ∀ k, k < xs.length →
      ∃ m, (xs.take k).foldlM f x1 = some m ∧ K.is_empty m = false)
    (dest : Nef K) (w : World K) :
    ∃ w1, applyOperator K X (c1 :: rest) dest op w = .ok ⟨dim, some r⟩ w1 := by
  have hne : op ≠ .OPENSCAD_UNION := by rcases hop with h | h <;> simp [h]
  have hfirst := applyOperator_item_first K X op hne c1 K.nary_new 0 w _ h1
  obtain ⟨w1, hw1⟩ := applyOperator_loop_left_fold K X op f hne hf dim rest xs hrest x1 r
    hfold hmid K.nary_new 0 (w.log (conversion_calls K X c1.second))
  refine ⟨w1, ?_⟩
  unfold applyOperator
  rw [applyOperator_loop, hfirst]
  simp only [hw1, applyOperator_finish, hne, false_and, if_false]

/-- Witness of C2 on the voxel kernel: `([1,2,3,4] - [2]) - [4] = [1,3]`. -/
theorem applyOperator_left_fold_witness :
    ∃ w1, applyOperator voxelKernel voxelHull
        [child 1 [1, 2, 3, 4], child 2 [2], child 3 [4]]
        (CGAL_Nef_polyhedron.empty voxelKernel) .OPENSCAD_DIFFERENCE world0
      = .ok (solid [1, 3]) w1 :=
  applyOperator_left_fold voxelKernel voxelHull .OPENSCAD_DIFFERENCE voxelKernel.difference
    (Or.inr rfl) rfl (child 1 [1, 2, 3, 4]) [child 2 [2], child 3 [4]] 3 [1, 2, 3, 4]
    [[2], [4]] rfl
    (List.Forall₂.cons ⟨by simp [child], 3, rfl, rfl⟩
      (List.Forall₂.cons ⟨by simp [child], 3, rfl, rfl⟩ List.Forall₂.nil))
    [1, 3] rfl
    (by
      intro k hk
      have hk2 : k = 0 ∨ k = 1 := by simp at hk; omega
      rcases hk2 with h | h
      · subst h; exact ⟨[1, 2, 3, 4], rfl, rfl⟩
      · subst h; exact ⟨[1, 3, 4], rfl, rfl⟩)
    (CGAL_Nef_polyhedron.empty voxelKernel) world0

theorem applyOperator_item_intersection (K : Kernel) (X : KernelHull K) (item : ChildItem K)
    (st : OperatorState K) (w : World K) (c : Nef K) (node : Nat)
    (hc : chN K X item.second = some c) (hnode : item.first = some node) :
    ∃ st1 w1, applyOperator_item K X .OPENSCAD_INTERSECTION item st w = .ok st1 w1 ∧
      (c.isEmpty K = true → st1.N = some c) ∧
      (∀ n, st.N = some n → n.isEmpty K = true →
        ∃ n1, st1.N = some n1 ∧ n1.isEmpty K = true) := by
  obtain ⟨acc, cnt, N⟩ := st
  rw [applyOperator_item_eq K X _ item _ w c hc]
  generalize w.log (conversion_calls K X item.second) = w0
  cases N with
  | none =>
    exact ⟨⟨acc, cnt, some c⟩, w0, by simp [applyOperator_combine], fun _ => rfl,
      fun n hn => by simp at hn⟩
  | some N =>
    cases hce : c.isEmpty K with
    | true =>
      exact ⟨⟨acc, cnt, some c⟩, w0, by simp [applyOperator_combine, hce], fun _ => rfl,
        fun n _ _ => ⟨c, rfl, hce⟩⟩
    | false =>
      cases hNe : N.isEmpty K with
      | true =>
        exact ⟨⟨acc, cnt, some N⟩, w0, by simp [applyOperator_combine, hce, hNe],
          fun h => by simp at h, fun n _ _ => ⟨N, rfl, hNe⟩⟩
      | false =>
        obtain ⟨b, hb, heb⟩ := p3_of_isEmpty_eq_false c hce
        obtain ⟨a, ha, hea⟩ := p3_of_isEmpty_eq_false N hNe
        have hkeep : ∀ n, (⟨acc, cnt, some N⟩ : OperatorState K).N = some n →
            n.isEmpty K = true → False := by
          intro n hn hne
          simp only [Option.some.injEq] at hn
          subst hn
          rw [hNe] at hne
          exact absurd hne (by simp)
        cases hm : K.intersection a b with
        | some m =>
          refine ⟨⟨acc, cnt, some ⟨N.dim, some m⟩⟩,
            (w0.call (.intersection a b)).progress_report node, ?_, fun h => by simp at h,
            fun n hn hne => (hkeep n hn hne).elim⟩
          simp [applyOperator_combine, hce, hNe, applyOperator_switch,
            CGAL_Nef_polyhedron.inplace, ha, hb, hm, hnode, World.call,
            World.set_error_behaviour, World.progress_report]
        | none =>
          refine ⟨⟨acc, cnt, some c⟩, (w0.call (.intersection a b)).progress_report node, ?_,
            fun _ => rfl, fun n hn hne => (hkeep n hn hne).elim⟩
          simp [applyOperator_combine, hce, hNe, applyOperator_switch,
            CGAL_Nef_polyhedron.inplace, ha, hb, hm, hnode, World.call,
            World.set_error_behaviour, World.progress_report]

theorem applyOperator_loop_intersection_empty (K : Kernel) (X : KernelHull K)
    (children : List (ChildItem K))
    (hgeom : operands_valid K X children) (hown : owners_valid K children)
    (st : OperatorState K) (w : World K)
    (hex : (∃ n, st.N = some n ∧ n.isEmpty K = true) ∨
      (∃ c ∈ children, ∃ n, chN K X c.second = some n ∧ n.isEmpty K = true)) :
    ∃ st1 w1 n1, applyOperator_loop K X .OPENSCAD_INTERSECTION children st w = .ok st1 w1 ∧
      st1.N = some n1 ∧ n1.isEmpty K = true := by
  induction children generalizing st w with
  | nil =>
    rcases hex with ⟨n, hn, hne⟩ | ⟨c, hc, _⟩
    · exact ⟨st, w, n, rfl, hn, hne⟩
    · simp at hc
  | cons item rest ih =>
    obtain ⟨hitem, hrest⟩ := operands_valid_cons hgeom
    obtain ⟨hfirst, hownrest⟩ := owners_valid_cons hown
    obtain ⟨c, hc⟩ := Option.ne_none_iff_exists'.mp hitem
    obtain ⟨node, hnode⟩ := Option.ne_none_iff_exists'.mp hfirst
    obtain ⟨st1, w1, hstep, hcempty, hkeep⟩ :=
      applyOperator_item_intersection K X item st w c node hc hnode
    have hex1 : (∃ n, st1.N = some n ∧ n.isEmpty K = true) ∨
        (∃ c ∈ rest, ∃ n, chN K X c.second = some n ∧ n.isEmpty K = true) := by
      rcases hex with ⟨n, hn, hne⟩ | ⟨c0, hc0, n, hn, hne⟩
      · exact Or.inl (hkeep n hn hne)
      · rcases List.mem_cons.mp hc0 with h | h
        · subst h
          rw [hc] at hn
          simp only [Option.some.injEq] at hn
          subst hn
          exact Or.inl ⟨c, hcempty hne, hne⟩
        · exact Or.inr ⟨c0, h, n, hn, hne⟩
    obtain ⟨st2, w2, n2, hloop, hN2, hn2⟩ := ih hrest hownrest st1 w1 hex1
    refine ⟨st2, w2, n2, ?_, hN2, hn2⟩
    rw [applyOperator_loop, hstep]
    exact hloop

/-- What `applyOperator` with INTERSECTION does when the normalisation of every child
returns (the owners after the first non-null): if at least one operand, taken as a
complex, is empty, at whatever position, the call ends normally and the complex stored in
`dest` is empty, whether or not kernel operators on the other operands fail. -/
theorem applyOperator_intersection_empty (K : Kernel) (X : KernelHull K)
    (children : List (ChildItem K)) (dest : Nef K) (w : World K)
    (hgeom : operands_valid K X children) (hown : owners_valid K children.tail)
    (hempty : ∃ c ∈ children, ∃ n, chN K X c.second = some n ∧ n.isEmpty K = true) :
    ∃ d w1, applyOperator K X children dest .OPENSCAD_INTERSECTION w = .ok d w1 ∧
      d.isEmpty K = true := by
  cases children with
  | nil =>
    obtain ⟨c, hc, _⟩ := hempty
    simp at hc
  | cons first rest =>
    obtain ⟨hfirst, hrest⟩ := operands_valid_cons hgeom
    obtain ⟨c1, hc1⟩ := Option.ne_none_iff_exists'.mp hfirst
    have hstep := applyOperator_item_first K X .OPENSCAD_INTERSECTION (by decide) first
      K.nary_new 0 w c1 hc1
    have hex : (∃ n, (⟨K.nary_new, 0, some c1⟩ : OperatorState K).N = some n ∧
          n.isEmpty K = true) ∨
        (∃ c ∈ rest, ∃ n, chN K X c.second = some n ∧ n.isEmpty K = true) := by
      obtain ⟨c0, hc0, n, hn, hne⟩ := hempty
      rcases List.mem_cons.mp hc0 with h | h
      · subst h
        rw [hc1] at hn
        simp only [Option.some.injEq] at hn
        subst hn
        exact Or.inl ⟨c1, rfl, hne⟩
      · exact Or.inr ⟨c0, h, n, hn, hne⟩
    obtain ⟨st1, w1, n1, hloop, hN1, hn1⟩ :=
      applyOperator_loop_intersection_empty K X rest hrest hown ⟨K.nary_new, 0, some c1⟩
        (w.log (conversion_calls K X first.second)) hex
    refine ⟨n1, w1, ?_, hn1⟩
    unfold applyOperator
    rw [applyOperator_loop, hstep]
    simp [hloop, applyOperator_finish, hN1]

/-- An instance on the voxel kernel: a failing intersection with `[13]`, then an empty
operand, then a further solid: `dest` ends up empty. -/
theorem applyOperator_intersection_empty_complexes :
    ∃ d w1, applyOperator voxelKernel voxelHull
        [⟨none, .nef (solid [1, 2])⟩, child 2 [13],
          ⟨some 3, .nef (CGAL_Nef_polyhedron.empty voxelKernel)⟩, child 4 [2]]
        (solid [9]) .OPENSCAD_INTERSECTION world0 = .ok d w1 ∧
      d.isEmpty voxelKernel = true :=
  applyOperator_intersection_empty voxelKernel voxelHull
    [⟨none, .nef (solid [1, 2])⟩, child 2 [13],
      ⟨some 3, .nef (CGAL_Nef_polyhedron.empty voxelKernel)⟩, child 4 [2]]
    (solid [9]) world0
    (operands_valid_of_nef voxelKernel voxelHull _ (by
      intro c hc; simp at hc; rcases hc with h | h | h | h <;> subst h <;> exact ⟨_, rfl⟩))
    (by intro c hc; simp at hc; rcases hc with h | h | h <;> subst h <;> simp [child])
    ⟨⟨some 3, .nef (CGAL_Nef_polyhedron.empty voxelKernel)⟩, by simp,
      CGAL_Nef_polyhedron.empty voxelKernel, rfl, rfl⟩

/-- C4, the code at the failing input: `applyOperator` with INTERSECTION on a mesh on
which the construction of the complex throws a precondition failure, followed by an empty
complex.  The conversion of the mesh stands outside every `try` block of `applyOperator`
and its own `catch` clauses name `CGAL::Assertion_exception` only, so the failure leaves
`applyOperator` before the empty operand is reached: nothing is stored in `dest`, and the
error mode is left at THROW_EXCEPTION.  With the operands in the other order the same
happens, although the running result is already empty. -/
theorem applyOperator_intersection_conversion_escapes :
    applyOperator voxelKernel voxelHull
        [⟨some 1, .polyset precondition_mesh⟩,
          ⟨some 2, .nef (CGAL_Nef_polyhedron.empty voxelKernel)⟩]
        (solid [9]) .OPENSCAD_INTERSECTION world0
      = .raised ⟨.THROW_EXCEPTION, [], [.delegate precondition_mesh]⟩ ∧
    applyOperator voxelKernel voxelHull
        [⟨some 1, .nef (CGAL_Nef_polyhedron.empty voxelKernel)⟩,
          ⟨some 2, .polyset precondition_mesh⟩]
        (solid [9]) .OPENSCAD_INTERSECTION world0
      = .raised ⟨.THROW_EXCEPTION, [], [.delegate precondition_mesh]⟩ ∧
    (CGAL_Nef_polyhedron.empty voxelKernel).isEmpty voxelKernel = true := by
  refine ⟨rfl, rfl, rfl⟩

theorem applyOperator_item_unsupported (K : Kernel) (X : KernelHull K)
    (op : OpenSCADOperator) (hop : kernel_operator K op = none) (item : ChildItem K)
    (acc : K.Nary) (cnt : Nat) (N : Nef K) (w : World K) (c : Nef K) (node : Nat)
    (hc : chN K X item.second = some c) (hnode : item.first = some node) :
    ∃ w1, applyOperator_item K X op item ⟨acc, cnt, some N⟩ w = .ok ⟨acc, cnt, some N⟩ w1 ∧
      w1.calls = w.calls ++ conversion_calls K X item.second ∧
      w1.error_behaviour = w.error_behaviour := by
  rw [applyOperator_item_eq K X op item _ w c hc]
  cases hce : c.isEmpty K <;> cases hNe : N.isEmpty K <;> cases op <;>
    simp_all [kernel_operator, applyOperator_combine, applyOperator_switch, World.call,
      World.set_error_behaviour, World.progress_report, World.log]

theorem applyOperator_loop_unsupported (K : Kernel) (X : KernelHull K)
    (op : OpenSCADOperator) (hop : kernel_operator K op = none) (rest : List (ChildItem K))
    (hgeom : operands_valid K X rest) (hown : owners_valid K rest) (acc : K.Nary)
    (cnt : Nat) (N : Nef K) (w : World K) :
    ∃ w1, applyOperator_loop K X op rest ⟨acc, cnt, some N⟩ w
        = .ok ⟨acc, cnt, some N⟩ w1 ∧
      w1.calls = w.calls ++ normalisation_calls K X rest ∧
      w1.error_behaviour = w.error_behaviour := by
  induction rest generalizing w with
  | nil => exact ⟨w, rfl, by simp [normalisation_calls], rfl⟩
  | cons item rest ih =>
    obtain ⟨hitem, hrest⟩ := operands_valid_cons hgeom
    obtain ⟨hfirst, hownrest⟩ := owners_valid_cons hown
    obtain ⟨c, hc⟩ := Option.ne_none_iff_exists'.mp hitem
    obtain ⟨node, hnode⟩ := Option.ne_none_iff_exists'.mp hfirst
    obtain ⟨w1, hstep, hcalls1, hmode1⟩ :=
      applyOperator_item_unsupported K X op hop item acc cnt N w c node hc hnode
    obtain ⟨w2, hloop, hcalls2, hmode2⟩ := ih hrest hownrest w1
    refine ⟨w2, ?_, ?_, hmode2.trans hmode1⟩
    · rw [applyOperator_loop, hstep]
      exact hloop
    · rw [hcalls2, hcalls1]
      simp [normalisation_calls, List.flatMap_cons]

/-- C8 as stated fails for `applyOperator`: with the unsupported operator HULL and one
child, `dest` does not keep its (empty) entry value; it receives the child's complex. -/
theorem unsupported_operator_counterexample :
    kernel_operator voxelKernel .OPENSCAD_HULL = none ∧
    applyOperator voxelKernel voxelHull [child 1 [1, 2]]
      (CGAL_Nef_polyhedron.empty voxelKernel) .OPENSCAD_HULL world0
        = .ok (solid [1, 2]) world0 ∧
    solid [1, 2] ≠ CGAL_Nef_polyhedron.empty voxelKernel := by
  refine ⟨rfl, rfl, by decide⟩

/-- C8 amended: for an operator value the switches do not handle (HULL, RESIZE), no
kernel operator is called.  `applyBinaryOperator` leaves a target of dimension 2 or 3
as it is and issues no kernel operation.  `applyOperator` leaves `dest` as it is for an
empty child list; for a non-empty list of meshes and complexes (owners after the first
non-null) it stores the first child's complex in `dest`, and the only kernel operations
issued are those of the normalisation of the children: calls of the polyhedron builder
and of the hull for the meshes, none when the children are complexes. -/
theorem unsupported_operator (K : Kernel) (X : KernelHull K) (op : OpenSCADOperator)
    (hop : kernel_operator K op = none) :
    (∀ (target src : Nef K) (w : World K), (target.dim = 2 ∨ target.dim = 3) →
      applyBinaryOperator K target src op w = .ok target w) ∧
    (∀ (dest : Nef K) (w : World K), applyOperator K X [] dest op w = .ok dest w) ∧
    (∀ (first : ChildItem K) (rest : List (ChildItem K)) (c dest : Nef K) (w : World K),
      chN K X first.second = some c → operands_valid K X rest → owners_valid K rest →
      ∃ w1, applyOperator K X (first :: rest) dest op w = .ok c w1 ∧
        w1.calls = w.calls ++ normalisation_calls K X (first :: rest) ∧
        w1.error_behaviour = w.error_behaviour) ∧
    (∀ children : List (ChildItem K),
      (∀ call ∈ normalisation_calls K X children, call.is_conversion = true) ∧
      ((∀ c ∈ children, ∃ n, c.second = .nef n) →
        normalisation_calls K X children = [])) := by
  have hne : op ≠ .OPENSCAD_UNION := by
    intro h; subst h; simp [kernel_operator] at hop
  refine ⟨?_, ?_, ?_, ?_⟩
  · intro target src w hdim
    have hd : ¬ (target.dim ≠ 2 ∧ target.dim ≠ 3) := by
      rcases hdim with h | h <;> simp [h]
    unfold applyBinaryOperator
    rw [if_neg hd]
    have hsw : ∀ w0, applyBinaryOperator_switch K target src op w0 = .ok target w0 := by
      intro w0
      cases op <;> simp_all [kernel_operator, applyBinaryOperator_switch]
    have hint : op ≠ .OPENSCAD_INTERSECTION := by
      intro h; subst h; simp [kernel_operator] at hop
    simp only [hint, if_false, hsw, set_restore_error_behaviour]
    split_ifs <;> rfl
  · intro dest w
    simp [applyOperator, applyOperator_loop, applyOperator_finish]
  · intro first rest c dest w hc hgeom hown
    have hfirst := applyOperator_item_first K X op hne first K.nary_new 0 w c hc
    obtain ⟨w1, hloop, hcalls, hmode⟩ :=
      applyOperator_loop_unsupported K X op hop rest hgeom hown K.nary_new 0 c
        (w.log (conversion_calls K X first.second))
    refine ⟨w1, ?_, ?_, hmode⟩
    · unfold applyOperator
      rw [applyOperator_loop, hfirst]
      simp only [hloop, applyOperator_finish, hne, false_and, if_false]
    · rw [hcalls]
      simp [normalisation_calls, List.flatMap_cons, World.log]
  · intro children
    refine ⟨normalisation_calls_is_conversion K X children, ?_⟩
    intro hnef
    induction children with
    | nil => rfl
    | cons item rest ih =>
      obtain ⟨n, hn⟩ := hnef item (List.mem_cons_self _ _)
      have hrest := ih (fun c hc => hnef c (List.mem_cons_of_mem _ hc))
      simp only [normalisation_calls, List.flatMap_cons] at hrest ⊢
      rw [hrest, hn, conversion_calls_nef]
      rfl

/-- Witness of the amended C8 on the voxel kernel, with the operator HULL. -/
theorem unsupported_operator_witness :
    applyBinaryOperator voxelKernel (solid [1, 2]) (solid [2, 3]) .OPENSCAD_HULL world0
      = .ok (solid [1, 2]) world0 ∧
    ∃ w1, applyOperator voxelKernel voxelHull [child 1 [1, 2], child 2 [2, 3]] (solid [9])
        .OPENSCAD_HULL world0 = .ok (solid [1, 2]) w1 ∧
      w1.calls = world0.calls ∧ w1.error_behaviour = world0.error_behaviour :=
  ⟨(unsupported_operator voxelKernel voxelHull .OPENSCAD_HULL rfl).1 (solid [1, 2])
      (solid [2, 3]) world0 (Or.inr rfl),
   (unsupported_operator voxelKernel voxelHull .OPENSCAD_HULL rfl).2.2.1 (child 1 [1, 2])
      [child 2 [2, 3]] (solid [1, 2]) (solid [9]) world0 rfl
      (operands_valid_of_nef voxelKernel voxelHull _ (by
        intro c hc; simp at hc; subst hc; exact ⟨_, rfl⟩))
      (by intro c hc; simp at hc; subst hc; simp [child])⟩

theorem inplace_value_world (K : Kernel) (call : K.N3 → K.N3 → KernelCall K)
    (f : K.N3 → K.N3 → Option K.N3) (target src : Nef K) (w v : World K) :
    (∀ N1 w1, CGAL_Nef_polyhedron.inplace K call f target src w = .ok N1 w1 →
      ∃ v1, CGAL_Nef_polyhedron.inplace K call f target src v = .ok N1 v1) ∧
    (∀ w1, CGAL_Nef_polyhedron.inplace K call f target src w = .raised w1 →
      ∃ v1, CGAL_Nef_polyhedron.inplace K call f target src v = .raised v1) ∧
    (CGAL_Nef_polyhedron.inplace K call f target src w = .undefined →
      CGAL_Nef_polyhedron.inplace K call f target src v = .undefined) := by
  unfold CGAL_Nef_polyhedron.inplace
  cases target.p3 <;> cases src.p3 <;> simp
  rename_i a b
  cases f a b <;> simp

theorem applyOperator_switch_world (K : Kernel) (N c : Nef K) (op : OpenSCADOperator)
    (w v : World K) :
    (∀ N1 w1, applyOperator_switch K N c op w = .ok N1 w1 →
      ∃ v1, applyOperator_switch K N c op v = .ok N1 v1) ∧
    (∀ w1, applyOperator_switch K N c op w = .raised w1 →
      ∃ v1, applyOperator_switch K N c op v = .raised v1) ∧
    (applyOperator_switch K N c op w = .undefined →
      applyOperator_switch K N c op v = .undefined) := by
  cases op <;> simp only [applyOperator_switch]
  · simp
  · exact inplace_value_world K _ _ N c w v
  · exact inplace_value_world K _ _ N c w v
  · exact inplace_value_world K _ _ N c w v
  · simp
  · simp

theorem applyOperator_combine_world (K : Kernel) (op : OpenSCADOperator)
    (item : ChildItem K) (c : Nef K) (st : OperatorState K) (w v : World K) :
    (∀ st1 w1, applyOperator_combine K op item c st w = .ok st1 w1 →
      ∃ v1, applyOperator_combine K op item c st v = .ok st1 v1) ∧
    (applyOperator_combine K op item c st w = .undefined →
      applyOperator_combine K op item c st v = .undefined) := by
  unfold applyOperator_combine
  by_cases hop : op = .OPENSCAD_UNION
  · simp only [hop, if_true]
    cases c.isEmpty K <;> cases c.p3 <;> simp
  · simp only [hop, if_false]
    cases st.N with
    | none => simp
    | some N =>
      simp only
      cases c.isEmpty K
      · cases N.isEmpty K
        · simp only [Bool.false_eq_true, if_false]
          obtain ⟨h1, h2, h3⟩ := applyOperator_switch_world K N c op
            (w.set_error_behaviour .THROW_EXCEPTION).2
            (v.set_error_behaviour .THROW_EXCEPTION).2
          cases hsw : applyOperator_switch K N c op
              (w.set_error_behaviour .THROW_EXCEPTION).2 with
          | ok N1 w1 =>
            obtain ⟨v1, hv1⟩ := h1 N1 w1 hsw
            rw [hv1]
            cases item.first <;> simp
          | raised w1 =>
            obtain ⟨v1, hv1⟩ := h2 w1 hsw
            rw [hv1]
            cases item.first <;> simp
          | undefined =>
            rw [h3 hsw]
            simp
        · simp
      · by_cases hint : op = .OPENSCAD_INTERSECTION <;> simp [hint]

theorem applyOperator_item_world (K : Kernel) (X : KernelHull K) (op : OpenSCADOperator)
    (item : ChildItem K) (st : OperatorState K) (w v : World K) :
    (∀ st1 w1, applyOperator_item K X op item st w = .ok st1 w1 →
      ∃ v1, applyOperator_item K X op item st v = .ok st1 v1) ∧
    (∀ w1, applyOperator_item K X op item st w = .raised w1 →
      ∃ v1, applyOperator_item K X op item st v = .raised v1) ∧
    (applyOperator_item K X op item st w = .undefined →
      applyOperator_item K X op item st v = .undefined) := by
  obtain ⟨h1, h2, h3⟩ := chN_reset_world K X item.second w v
  unfold applyOperator_item
  cases hw : chN_reset K X item.second w with
  | undefined => simp [h3 hw]
  | raised w1 =>
    obtain ⟨v1, hv1⟩ := h2 w1 hw
    simp [hv1]
  | ok c w1 =>
    obtain ⟨v1, hv1⟩ := h1 c w1 hw
    rw [hv1]
    cases c with
    | none => simp
    | some c =>
      simp only
      obtain ⟨g1, g2⟩ := applyOperator_combine_world K op item c st w1 v1
      have hnr := applyOperator_combine_not_raised K op item c st w1
      cases hcw : applyOperator_combine K op item c st w1 with
      | ok st1 w2 =>
        obtain ⟨v2, hv2⟩ := g1 st1 w2 hcw
        simp [hv2]
      | raised w2 => rw [hcw] at hnr; simp [Outcome.isRaised] at hnr
      | undefined => simp [g2 hcw]

theorem applyOperator_loop_world (K : Kernel) (X : KernelHull K) (op : OpenSCADOperator)
    (children : List (ChildItem K)) (st : OperatorState K) (w v : World K) :
    (∀ st1 w1, applyOperator_loop K X op children st w = .ok st1 w1 →
      ∃ v1, applyOperator_loop K X op children st v = .ok st1 v1) ∧
    (∀ w1, applyOperator_loop K X op children st w = .raised w1 →
      ∃ v1, applyOperator_loop K X op children st v = .raised v1) ∧
    (applyOperator_loop K X op children st w = .undefined →
      applyOperator_loop K X op children st v = .undefined) := by
  induction children generalizing st w v with
  | nil => simp [applyOperator_loop]
  | cons item rest ih =>
    obtain ⟨h1, h2, h3⟩ := applyOperator_item_world K X op item st w v
    simp only [applyOperator_loop]
    cases hitem : applyOperator_item K X op item st w with
    | ok st1 w1 =>
      obtain ⟨v1, hv1⟩ := h1 st1 w1 hitem
      rw [hv1]
      exact ih st1 w1 v1
    | raised w1 =>
      obtain ⟨v1, hv1⟩ := h2 w1 hitem
      rw [hv1]
      simp
    | undefined =>
      rw [h3 hitem]
      simp

theorem applyOperator_value_world (K : Kernel) (X : KernelHull K)
    (children : List (ChildItem K)) (dest : Nef K) (op : OpenSCADOperator) (w v : World K) :
    (applyOperator K X children dest op w).value
      = (applyOperator K X children dest op v).value := by
  obtain ⟨h1, h2, h3⟩ := applyOperator_loop_world K X op children ⟨K.nary_new, 0, none⟩ w v
  unfold applyOperator
  cases hloop : applyOperator_loop K X op children ⟨K.nary_new, 0, none⟩ w with
  | ok st1 w1 =>
    obtain ⟨v1, hv1⟩ := h1 st1 w1 hloop
    rw [hv1]
    simp only [applyOperator_finish]
    split_ifs <;> rfl
  | raised w1 =>
    obtain ⟨v1, hv1⟩ := h2 w1 hloop
    rw [hv1]
    rfl
  | undefined =>
    rw [h3 hloop]

theorem applyOperator_raised_world (K : Kernel) (X : KernelHull K)
    (children : List (ChildItem K)) (dest : Nef K) (op : OpenSCADOperator) (w v : World K) :
    (applyOperator K X children dest op w).isRaised
      = (applyOperator K X children dest op v).isRaised := by
  obtain ⟨h1, h2, h3⟩ := applyOperator_loop_world K X op children ⟨K.nary_new, 0, none⟩ w v
  unfold applyOperator
  cases hloop : applyOperator_loop K X op children ⟨K.nary_new, 0, none⟩ w with
  | ok st1 w1 =>
    obtain ⟨v1, hv1⟩ := h1 st1 w1 hloop
    rw [hv1]
    simp only [applyOperator_finish]
    split_ifs <;> rfl
  | raised w1 =>
    obtain ⟨v1, hv1⟩ := h2 w1 hloop
    rw [hv1]
    rfl
  | undefined =>
    rw [h3 hloop]

/-- A normalisation that returns a complex returns the value of `chN` and records its
kernel operations in the world. -/
theorem chN_reset_ok (K : Kernel) (X : KernelHull K) (g : Geom K) (w : World K) (c : Nef K)
    (w1 : World K) (h : chN_reset K X g w = .ok (some c) w1) :
    chN K X g = some c ∧ w1 = w.log (conversion_calls K X g) := by
  obtain ⟨v1, hv1⟩ := (chN_reset_world K X g w ⟨.ABORT, [], []⟩).1 (some c) w1 h
  have hc : chN K X g = some c := by
    unfold chN
    rw [hv1]
  refine ⟨hc, ?_⟩
  have h2 := chN_reset_of_chN K X g c hc w
  rw [h] at h2
  simp only [Outcome.ok.injEq] at h2
  exact h2.2

/-! ## Properties of `applyMinkowski` -/

theorem applyMinkowski_fallback_raised (K : Kernel) (X : KernelHull K)
    (children : List (ChildItem K)) (w : World K) :
    (applyMinkowski_fallback K X children w).isRaised
      = (applyOperator K X children (CGAL_Nef_polyhedron.empty K)
          .OPENSCAD_MINKOWSKI w).isRaised := by
  unfold applyMinkowski_fallback
  cases applyOperator K X children (CGAL_Nef_polyhedron.empty K) .OPENSCAD_MINKOWSKI w <;>
    rfl

theorem applyMinkowski_fallback_not_raised (K : Kernel) (X : KernelHull K)
    (children : List (ChildItem K)) (hgeom : operands_valid K X children) (w : World K) :
    (applyMinkowski_fallback K X children w).isRaised = false := by
  rw [applyMinkowski_fallback_raised]
  exact applyOperator_not_raised K X children hgeom (CGAL_Nef_polyhedron.empty K)
    .OPENSCAD_MINKOWSKI w

theorem applyMinkowski_fallback_value (K : Kernel) (X : KernelHull K)
    (children : List (ChildItem K)) (w : World K) :
    (applyMinkowski_fallback K X children w).value
      = (applyOperator K X children (CGAL_Nef_polyhedron.empty K)
          .OPENSCAD_MINKOWSKI w).value.map (fun N => some (Geometry.nef N)) := by
  unfold applyMinkowski_fallback
  cases applyOperator K X children (CGAL_Nef_polyhedron.empty K) .OPENSCAD_MINKOWSKI w <;>
    rfl

theorem minkowski_operand_rejects (K : Kernel) (X : KernelHull K) (operand : Geom K)
    (w : World K) (h : neither_mesh_nor_simple_complex K operand = true) :
    minkowski_operand K X operand w = .raised w := by
  cases operand with
  | polyset ps => simp [neither_mesh_nor_simple_complex] at h
  | other => rfl
  | nef n =>
    unfold neither_mesh_nor_simple_complex at h
    cases hp : n.p3 with
    | none => simp [hp] at h
    | some x =>
      simp [hp] at h
      simp [minkowski_operand, hp, h]

/-- C9: the fallback of `applyMinkowski` on a list of at least two children.  Whenever
the pairwise computation ends by an exception, `applyMinkowski` is the `catch` block run
in the world the exception left: `applyOperator(children, MINKOWSKI)` on the original
children into a fresh complex.  What it returns is what that call computes from the
children alone, whatever the pairwise computation did before.  An operand of the first
pair that is neither a mesh nor a simple complex makes the pairwise computation end by
an exception.  No exception leaves `applyMinkowski` from the pairwise computation: an
exception that leaves `applyMinkowski` has left the call of `applyOperator` in the `catch`
block, thrown there by the conversion of a mesh child, and there is none when the
normalisation of every child returns. -/
theorem applyMinkowski_fallback_on_raise (K : Kernel) (X : KernelHull K)
    (first second : ChildItem K) (rest : List (ChildItem K)) (w : World K) :
    (∀ w1, applyMinkowski_loop K X first.second (second :: rest) w = .raised w1 →
      applyMinkowski K X (first :: second :: rest) w
        = applyMinkowski_fallback K X (first :: second :: rest) w1 ∧
      ∀ w0, (applyMinkowski K X (first :: second :: rest) w).value
        = (applyOperator K X (first :: second :: rest) (CGAL_Nef_polyhedron.empty K)
            .OPENSCAD_MINKOWSKI w0).value.map (fun N => some (Geometry.nef N))) ∧
    (neither_mesh_nor_simple_complex K first.second = true →
      applyMinkowski_loop K X first.second (second :: rest) w = .raised w) ∧
    (∀ P0 w1, minkowski_operand K X first.second w = .ok P0 w1 →
      neither_mesh_nor_simple_complex K second.second = true →
      applyMinkowski_loop K X first.second (second :: rest) w = .raised w1) ∧
    ((applyMinkowski K X (first :: second :: rest) w).isRaised = true →
      (∃ w1, applyMinkowski_loop K X first.second (second :: rest) w = .raised w1 ∧
        (applyOperator K X (first :: second :: rest) (CGAL_Nef_polyhedron.empty K)
          .OPENSCAD_MINKOWSKI w1).isRaised = true) ∧
      ∃ c ∈ first :: second :: rest, ∃ ps, c.second = .polyset ps ∧
        ∀ v, (createNefPolyhedronFromPolySet K X ps v).isRaised = true) ∧
    (operands_valid K X (first :: second :: rest) →
      (applyMinkowski K X (first :: second :: rest) w).isRaised = false) := by
  refine ⟨?_, ?_, ?_, ?_, ?_⟩
  · intro w1 hraise
    have hdef : applyMinkowski K X (first :: second :: rest) w
        = applyMinkowski_fallback K X (first :: second :: rest) w1 := by
      simp only [applyMinkowski, hraise]
    refine ⟨hdef, fun w0 => ?_⟩
    rw [hdef, applyMinkowski_fallback_value,
      applyOperator_value_world K X (first :: second :: rest) _ _ w1 w0]
  · intro hbad
    simp [applyMinkowski_loop, minkowski_step, minkowski_operand_rejects K X _ w hbad]
  · intro P0 w1 h0 hbad
    simp [applyMinkowski_loop, minkowski_step, h0, minkowski_operand_rejects K X _ w1 hbad]
  · simp only [applyMinkowski]
    cases hloop : applyMinkowski_loop K X first.second (second :: rest) w with
    | ok g w1 => simp [Outcome.isRaised]
    | raised w1 =>
      intro h
      rw [applyMinkowski_fallback_raised] at h
      exact ⟨⟨w1, rfl, h⟩, applyOperator_raised K X _ _ _ w1 h⟩
    | undefined => simp [Outcome.isRaised]
  · intro hgeom
    simp only [applyMinkowski]
    cases hloop : applyMinkowski_loop K X first.second (second :: rest) w with
    | ok g w1 => rfl
    | raised w1 => exact applyMinkowski_fallback_not_raised K X _ hgeom w1
    | undefined => rfl

/-- Witness of C9 on the voxel kernel: the first operand is a complex that is not simple
(it holds voxel 5), the pairwise computation throws, and the result is the kernel's own
Minkowski operator applied to the original complexes. -/
theorem applyMinkowski_fallback_on_raise_witness :
    applyMinkowski voxelKernel voxelHull [child 1 [5], child 2 [1, 2]] world0
      = .ok (some (.nef (solid [5, 1, 2])))
          ((world0.call (.minkowski [5] [1, 2])).progress_report 2) ∧
    (applyMinkowski voxelKernel voxelHull [child 1 [5], child 2 [1, 2]] world0).isRaised
      = false :=
  ⟨((applyMinkowski_fallback_on_raise voxelKernel voxelHull (child 1 [5]) (child 2 [1, 2])
      [] world0).1 world0
      ((applyMinkowski_fallback_on_raise voxelKernel voxelHull (child 1 [5])
        (child 2 [1, 2]) [] world0).2.1 rfl)).1,
   (applyMinkowski_fallback_on_raise voxelKernel voxelHull (child 1 [5]) (child 2 [1, 2])
      [] world0).2.2.2.2
      (operands_valid_of_nef voxelKernel voxelHull _ (by
        intro c hc; simp at hc; rcases hc with h | h <;> subst h <;> exact ⟨_, rfl⟩))⟩

theorem minkowski_points_row_length (K : Kernel) (a : K.Point) (points1 : List K.Point) :
    (minkowski_points_row K a points1).length = points1.length := by
  induction points1 with
  | nil => rfl
  | cons b rest ih => simp [minkowski_points_row, ih]

theorem minkowski_points_length (K : Kernel) (points0 points1 : List K.Point) :
    (minkowski_points K points0 points1).length = points0.length * points1.length := by
  induction points0 with
  | nil => simp [minkowski_points]
  | cons a rest ih =>
    simp [minkowski_points, minkowski_points_row_length, ih, Nat.succ_mul, Nat.add_comm]

theorem minkowski_pair_skipped (K : Kernel) (a b : K.Polyhedron) (parts : List K.Hull)
    (w : World K) (h : (K.vertices a).length * (K.vertices b).length ≤ 3) :
    minkowski_pair K a b parts w = .ok parts w := by
  unfold minkowski_pair
  rw [if_pos (by rw [minkowski_points_length]; exact h)]

theorem minkowski_pair_hull (K : Kernel) (a b : K.Polyhedron) (parts : List K.Hull)
    (w : World K) (h : 3 < (K.vertices a).length * (K.vertices b).length) :
    ∃ w1, (minkowski_pair K a b parts w).world = some w1 ∧
      (w.calls ++ [.convex_hull_3 (minkowski_points K (K.vertices a) (K.vertices b))])
        <+: w1.calls := by
  unfold minkowski_pair
  rw [if_neg (by rw [minkowski_points_length]; omega)]
  dsimp only
  cases K.convex_hull_3 (minkowski_points K (K.vertices a) (K.vertices b)) with
  | none => exact ⟨_, rfl, by simp [World.call]⟩
  | some result =>
    dsimp only
    cases K.convex_hull_3 (K.strict_points result) with
    | none => exact ⟨_, rfl, by simp [World.call]⟩
    | some result2 => exact ⟨_, rfl, by simp [World.call]⟩

theorem minkowski_pairs_row_skipped (K : Kernel) (a : K.Polyhedron) (P1 : List K.Polyhedron)
    (parts : List K.Hull) (w : World K)
    (h : ∀ b ∈ P1, (K.vertices a).length * (K.vertices b).length ≤ 3) :
    minkowski_pairs_row K a P1 parts w = .ok parts w := by
  induction P1 with
  | nil => rfl
  | cons b rest ih =>
    rw [minkowski_pairs_row, minkowski_pair_skipped K a b parts w (h b (List.mem_cons_self _ _))]
    exact ih (fun b1 hb1 => h b1 (List.mem_cons_of_mem _ hb1))

theorem minkowski_pairs_skipped (K : Kernel) (P0 P1 : List K.Polyhedron)
    (parts : List K.Hull) (w : World K)
    (h : ∀ a ∈ P0, ∀ b ∈ P1, (K.vertices a).length * (K.vertices b).length ≤ 3) :
    minkowski_pairs K P0 P1 parts w = .ok parts w := by
  induction P0 with
  | nil => rfl
  | cons a rest ih =>
    rw [minkowski_pairs, minkowski_pairs_row_skipped K a P1 parts w (h a (List.mem_cons_self _ _))]
    exact ih (fun a1 ha1 => h a1 (List.mem_cons_of_mem _ ha1))

/-- C10 as stated fails: for the unit cube and a single point (a second operand with one
point, fewer than 4) the point cloud of the pair has 8 points, the convex hull is
computed (twice), and the call returns a new mesh built from the hull. -/
theorem minkowski_degenerate_pair_counterexample :
    (voxelKernel.vertices (voxelKernel.delegate single_point).1).length = 1 ∧
    applyMinkowski voxelKernel voxelHull
        [⟨some 1, .polyset unit_cube⟩, ⟨some 2, .polyset single_point⟩] world0
      = .ok (some (.polyset ⟨3, some true, [cube_corners_moved]⟩))
          ⟨.ABORT, [], [.delegate unit_cube, .delegate single_point,
            .convex_hull_3 cube_corners_moved, .convex_hull_3 cube_corners_moved]⟩ := by
  refine ⟨rfl, rfl⟩

/-- C10 amended: in `applyMinkowski` the hull of a pair of convex pieces is skipped
exactly when the pair's point cloud has 3 or fewer points, that is when the product of
the two vertex counts is at most 3: then the pair issues no kernel operation and adds no
part; otherwise `convex_hull_3` is called on the cloud.  When every pair of pieces of the
first two operands is skipped, the call returns `NULL` without an exception and without
a hull computation. -/
theorem minkowski_degenerate_pair (K : Kernel) (X : KernelHull K) :
    (∀ (a b : K.Polyhedron) (parts : List K.Hull) (w : World K),
      (K.vertices a).length * (K.vertices b).length ≤ 3 →
      minkowski_pair K a b parts w = .ok parts w) ∧
    (∀ (a b : K.Polyhedron) (parts : List K.Hull) (w : World K),
      3 < (K.vertices a).length * (K.vertices b).length →
      ∃ w1, (minkowski_pair K a b parts w).world = some w1 ∧
        (w.calls ++ [.convex_hull_3 (minkowski_points K (K.vertices a) (K.vertices b))])
          <+: w1.calls) ∧
    (∀ (first second : ChildItem K) (rest : List (ChildItem K)) (w w1 w2 : World K)
        (P0 P1 : List K.Polyhedron),
      minkowski_operand K X first.second w = .ok P0 w1 →
      minkowski_operand K X second.second w1 = .ok P1 w2 →
      (∀ a ∈ P0, ∀ b ∈ P1, (K.vertices a).length * (K.vertices b).length ≤ 3) →
      applyMinkowski K X (first :: second :: rest) w = .ok none w2) := by
  refine ⟨minkowski_pair_skipped K, minkowski_pair_hull K, ?_⟩
  intro first second rest w w1 w2 P0 P1 h0 h1 hsmall
  simp [applyMinkowski, applyMinkowski_loop, minkowski_step, h0, h1,
    minkowski_pairs_skipped K P0 P1 [] w2 hsmall]

/-- Witness of the amended C10 on the voxel kernel: a single point and a triangle give a
cloud of 3 points, no hull is computed and the call returns `NULL`; the cube and the
single point give a cloud of 8 points, and the hull is called on it. -/
theorem minkowski_degenerate_pair_witness :
    applyMinkowski voxelKernel voxelHull
        [⟨some 1, .polyset single_point⟩, ⟨some 2, .polyset single_triangle⟩] world0
      = .ok none ⟨.ABORT, [], [.delegate single_point, .delegate single_triangle]⟩ ∧
    ∃ w1, (minkowski_pair voxelKernel cube_corners [(2, 0, 0)] [] world0).world = some w1 ∧
      (world0.calls ++ [.convex_hull_3 (minkowski_points voxelKernel
          (voxelKernel.vertices cube_corners) (voxelKernel.vertices [(2, 0, 0)]))])
        <+: w1.calls :=
  ⟨(minkowski_degenerate_pair voxelKernel voxelHull).2.2 ⟨some 1, .polyset single_point⟩
      ⟨some 2, .polyset single_triangle⟩ [] world0 (world0.call (.delegate single_point))
      ((world0.call (.delegate single_point)).call (.delegate single_triangle))
      [[(2, 0, 0)]] [[(0, 0, 0), (1, 0, 0), (0, 1, 0)]] rfl rfl
      (by intro a ha b hb
          simp at ha hb
          subst ha; subst hb
          decide),
   (minkowski_degenerate_pair voxelKernel voxelHull).2.1 cube_corners [(2, 0, 0)] [] world0
      (by decide)⟩

/-! ## The point cloud of a pair (`applyMinkowski`) -/


theorem minkowski_points_row_eq_map (K : Kernel) (a : K.Point) (points1 : List K.Point) :
    minkowski_points_row K a points1 = points1.map (fun b => K.point_add a b) := by
  induction points1 with
  | nil => rfl
  | cons b rest ih => simp [minkowski_points_row, ih]

theorem minkowski_points_getElem (K : Kernel) (points0 points1 : List K.Point) (i j : Nat)
    (x y : K.Point) (hx : points0[i]? = some x) (hy : points1[j]? = some y) :
    (minkowski_points K points0 points1)[i * points1.length + j]? = some (K.point_add x y) := by
  induction points0 generalizing i with
  | nil => simp at hx
  | cons a rest ih =>
    have hj : j < points1.length := by
      rcases List.getElem?_eq_some_iff.mp hy with ⟨h, _⟩
      exact h
    cases i with
    | zero =>
      simp only [List.getElem?_cons_zero, Option.some.injEq] at hx
      subst hx
      simp only [minkowski_points, Nat.zero_mul, Nat.zero_add]
      rw [List.getElem?_append_left (by rw [minkowski_points_row_length]; exact hj),
        minkowski_points_row_eq_map, List.getElem?_map, hy]
      rfl
    | succ n =>
      simp only [List.getElem?_cons_succ] at hx
      simp only [minkowski_points]
      rw [List.getElem?_append_right (by
        rw [minkowski_points_row_length, Nat.succ_mul]; omega)]
      rw [minkowski_points_row_length]
      have : (n + 1) * points1.length + j - points1.length = n * points1.length + j := by
        rw [Nat.succ_mul]; omega
      rw [this]
      exact ih n hx

/-- C19: the candidate point cloud of a pair of convex pieces `A`, `B` in `applyMinkowski`.
The cloud has `|A| * |B|` points; the point at position `i * |B| + j` is the sum of the
`i`-th vertex of `A` and the `j`-th vertex of `B` (the vertex of `A` is the outer index,
the vertex of `B` the inner one), so the cloud consists of exactly these sums.  The hull
of the pair is skipped exactly when the cloud has 3 or fewer points: then the pair
issues no kernel operation and adds no part; otherwise `convex_hull_3` is called on this
cloud. -/
theorem minkowski_point_cloud (K : Kernel) (a b : K.Polyhedron) (parts : List K.Hull)
    (w : World K) :
    (minkowski_points K (K.vertices a) (K.vertices b)).length
      = (K.vertices a).length * (K.vertices b).length ∧
    (∀ (i j : Nat) (x y : K.Point), (K.vertices a)[i]? = some x → (K.vertices b)[j]? = some y →
      (minkowski_points K (K.vertices a) (K.vertices b))[i * (K.vertices b).length + j]?
        = some (K.point_add x y)) ∧
    ((minkowski_points K (K.vertices a) (K.vertices b)).length ≤ 3 →
      minkowski_pair K a b parts w = .ok parts w) ∧
    (3 < (minkowski_points K (K.vertices a) (K.vertices b)).length →
      ∃ w1, (minkowski_pair K a b parts w).world = some w1 ∧
        (w.calls ++ [.convex_hull_3 (minkowski_points K (K.vertices a) (K.vertices b))])
          <+: w1.calls) := by
  refine ⟨minkowski_points_length K _ _, ?_, ?_, ?_⟩
  · intro i j x y hx hy
    exact minkowski_points_getElem K _ _ i j x y hx hy
  · intro h
    exact minkowski_pair_skipped K a b parts w (by rw [← minkowski_points_length]; exact h)
  · intro h
    exact minkowski_pair_hull K a b parts w (by rw [← minkowski_points_length]; exact h)

/-- Witness of C19 on the voxel kernel: the cube corners and the two points `(2,0,0)`,
`(0,0,5)` give a cloud of 16 points whose entry `3 * 2 + 1` is the sum of corner 3 and
point 1, and the hull is called on the cloud; a point and a triangle give 3 points and
no hull. -/
theorem minkowski_point_cloud_witness :
    (minkowski_points voxelKernel cube_corners [(2, 0, 0), (0, 0, 5)])[3 * 2 + 1]?
      = some (1, 0, 5) ∧
    minkowski_pair voxelKernel [(2, 0, 0)] [(0, 0, 0), (1, 0, 0), (0, 1, 0)] [] world0
      = .ok [] world0 ∧
    ∃ w1, (minkowski_pair voxelKernel cube_corners [(2, 0, 0), (0, 0, 5)] [] world0).world
        = some w1 ∧
      (world0.calls ++ [.convex_hull_3
          (minkowski_points voxelKernel cube_corners [(2, 0, 0), (0, 0, 5)])])
        <+: w1.calls :=
  ⟨(minkowski_point_cloud voxelKernel cube_corners [(2, 0, 0), (0, 0, 5)] [] world0).2.1
      3 1 (1, 0, 0) (0, 0, 5) rfl rfl,
   (minkowski_point_cloud voxelKernel [(2, 0, 0)] [(0, 0, 0), (1, 0, 0), (0, 1, 0)] []
      world0).2.2.1 (by decide),
   (minkowski_point_cloud voxelKernel cube_corners [(2, 0, 0), (0, 0, 5)] []
      world0).2.2.2 (by decide)⟩

/-! ## Properties of `createPolySetFromNefPolyhedron3` -/

theorem append_triangles_polygons {P V : Type} (to_double : P → V)
    (triangles : List (List P)) (ps : PolySet V) :
    (append_triangles to_double triangles ps).polygons
      = ps.polygons ++ (append_triangles to_double triangles ⟨3, none, []⟩).polygons := by
  induction triangles generalizing ps with
  | nil => simp [append_triangles]
  | cons t rest ih =>
    match t with
    | [] => simpa [append_triangles] using ih ps
    | [_] => simpa [append_triangles] using ih ps
    | [_, _] => simpa [append_triangles] using ih ps
    | [p0, p1, p2] =>
      simp only [append_triangles]
      rw [ih, ih ⟨3, none, [] ++ _⟩]
      simp
    | _ :: _ :: _ :: _ :: _ => simpa [append_triangles] using ih ps

theorem createPolySetFromNefPolyhedron3_loop_spec {P Pl V : Type}
    (tess : List (List P) → Pl → Bool × List (List P)) (to_double : P → V)
    (N : List (Halffacet P Pl)) (ps : PolySet V) (err : Bool) :
    (createPolySetFromNefPolyhedron3_loop tess to_double N ps err).1.polygons
      = ps.polygons ++ (N.map (emitted_polygons tess to_double)).flatten ∧
    (createPolySetFromNefPolyhedron3_loop tess to_double N ps err).2 = err := by
  induction N generalizing ps with
  | nil => simp [createPolySetFromNefPolyhedron3_loop]
  | cons hf rest ih =>
    unfold createPolySetFromNefPolyhedron3_loop
    by_cases hm : hf.incident_volume_mark = true
    · simp [hm, emitted_polygons, ih]
    · by_cases he : (tess hf.cycles hf.plane).1 = true
      · simp [hm, he, emitted_polygons, ih]
      · simp only [hm, he, Bool.false_eq_true, if_false, Bool.not_false, if_true]
        refine ⟨?_, (ih _).2⟩
        rw [(ih _).1, append_triangles_polygons]
        simp [emitted_polygons, hm, he]

/-- What the loop of `createPolySetFromNefPolyhedron3` emits: the guard
`if (mark) continue` makes a half-facet with a marked incident volume contribute nothing,
and every half-facet with an unmarked incident volume is tessellated; when that
tessellation reports no error, each of its 3-point triangles is appended to the mesh,
reversed, in iteration order. -/
theorem createPolySetFromNefPolyhedron3_emits {P Pl V : Type}
    (tess : List (List P) → Pl → Bool × List (List P)) (to_double : P → V)
    (N : List (Halffacet P Pl)) (ps : PolySet V) :
    (createPolySetFromNefPolyhedron3 tess to_double N ps).1.polygons
      = ps.polygons ++ (N.map (emitted_polygons tess to_double)).flatten ∧
    (∀ hf ∈ N, hf.incident_volume_mark = true → emitted_polygons tess to_double hf = []) ∧
    (∀ hf ∈ N, hf.incident_volume_mark = false → (tess hf.cycles hf.plane).1 = false →
      emitted_polygons tess to_double hf
        = (append_triangles to_double (tess hf.cycles hf.plane).2
            ⟨3, none, []⟩).polygons) := by
  refine ⟨(createPolySetFromNefPolyhedron3_loop_spec tess to_double N ps false).1, ?_, ?_⟩
  · intro hf _ hm
    simp [emitted_polygons, hm]
  · intro hf _ hm he
    simp [emitted_polygons, hm, he]

/-- C14, the code at the failing input: of a half-facet whose incident volume is marked
and one whose incident volume is not marked, the mesh receives nothing for the marked one
and the triangle of the unmarked one (reversed), the opposite of what the comment above
the guard announces; on every input a half-facet with a marked incident volume
contributes no polygon. -/
theorem createPolySetFromNefPolyhedron3_marked_skipped :
    facet_marked.incident_volume_mark = true ∧
    facet_unmarked.incident_volume_mark = false ∧
    (createPolySetFromNefPolyhedron3 fan_tessellation id [facet_marked, facet_unmarked]
        ⟨3, none, []⟩).1.polygons
      = [[(0, 1, 1), (1, 0, 1), (0, 0, 1)]] ∧
    (createPolySetFromNefPolyhedron3 fan_tessellation id [facet_marked]
        ⟨3, none, []⟩).1.polygons = [] ∧
    ∀ (tess : List (List (Int × Int × Int)) → Unit → Bool × List (List (Int × Int × Int)))
      (N : List (Halffacet (Int × Int × Int) Unit)) (ps : PolySet (Int × Int × Int)),
      (createPolySetFromNefPolyhedron3 tess id N ps).1.polygons
        = ps.polygons ++ ((N.filter (fun hf => !hf.incident_volume_mark)).map
            (emitted_polygons tess id)).flatten := by
  refine ⟨rfl, rfl, rfl, rfl, ?_⟩
  intro tess N ps
  unfold createPolySetFromNefPolyhedron3
  rw [(createPolySetFromNefPolyhedron3_loop_spec tess id N ps false).1]
  congr 1
  induction N with
  | nil => rfl
  | cons hf rest ih =>
    cases hm : hf.incident_volume_mark with
    | true => simp [List.filter_cons, hm, emitted_polygons, ih]
    | false => simp [List.filter_cons, hm, ih]

/-- C15, the code at the failing input: the tessellation of the only face fails, and the
function still returns `false`; its return value is `false` on every input, because the
flag the tessellation sets is a second variable declared inside the loop. -/
theorem createPolySetFromNefPolyhedron3_returns_false :
    (fan_tessellation facet_degenerate.cycles facet_degenerate.plane).1 = true ∧
    createPolySetFromNefPolyhedron3 fan_tessellation id [facet_degenerate] ⟨3, none, []⟩
      = (⟨3, none, []⟩, false) ∧
    ∀ (tess : List (List (Int × Int × Int)) → Unit → Bool × List (List (Int × Int × Int)))
      (N : List (Halffacet (Int × Int × Int) Unit)) (ps : PolySet (Int × Int × Int)),
      (createPolySetFromNefPolyhedron3 tess id N ps).2 = false := by
  refine ⟨rfl, rfl, ?_⟩
  intro tess N ps
  exact (createPolySetFromNefPolyhedron3_loop_spec tess id N ps false).2

/-! ## Properties of `CGAL_Build_PolySet` -/

theorem duplicate_inner_eq (index_i : Nat) (before : List Nat) (err : Bool) :
    duplicate_inner index_i before err = (err || decide (index_i ∈ before)) := by
  induction before with
  | nil => simp [duplicate_inner]
  | cons index_k rest ih =>
    unfold duplicate_inner
    cases err with
    | true => simp
    | false =>
      by_cases h : index_k = index_i
      · simp [h]
      · have h2 : ¬ index_i = index_k := fun e => h e.symm
        simp [h, h2, ih]

theorem duplicate_outer_eq (before rest : List Nat) (err : Bool) (hb : before.Nodup) :
    duplicate_outer before rest err = true ↔ err = true ∨ ¬ (before ++ rest).Nodup := by
  induction rest generalizing before err with
  | nil => simp [duplicate_outer, hb]
  | cons index_i rest ih =>
    unfold duplicate_outer
    by_cases hmem : index_i ∈ before
    · have hnot : ¬ (before ++ index_i :: rest).Nodup := by
        intro hn
        exact (List.nodup_append.mp hn).2.2 hmem (List.mem_cons_self _ _)
      have hinner : duplicate_inner index_i before err = true := by
        rw [duplicate_inner_eq]; simp [hmem]
      have hstay : ∀ (b r : List Nat), duplicate_outer b r true = true := by
        intro b r
        induction r generalizing b with
        | nil => rfl
        | cons x r ihr =>
          unfold duplicate_outer
          rw [duplicate_inner_eq]
          simpa using ihr _
      rw [hinner, hstay]
      simp [hnot]
    · have hb2 : (before ++ [index_i]).Nodup := by
        rw [List.nodup_append]
        refine ⟨hb, List.nodup_singleton _, ?_⟩
        intro a ha hb'
        simp at hb'
        subst hb'
        exact hmem ha
      rw [ih (before ++ [index_i]) _ hb2, duplicate_inner_eq]
      simp [hmem]

theorem duplicate_indices_iff (indices : List Nat) :
    duplicate_indices indices = true ↔
      ∃ (i j x : Nat), i < j ∧ indices[i]? = some x ∧ indices[j]? = some x := by
  unfold duplicate_indices
  rw [duplicate_outer_eq [] indices false List.nodup_nil]
  simp only [Bool.false_eq_true, false_or, List.nil_append]
  rw [List.nodup_iff_getElem?_ne_getElem?]
  constructor
  · intro h
    by_contra hno
    apply h
    intro i j hij hj heq
    apply hno
    have hj2 : indices[j]? = some indices[j] := List.getElem?_eq_getElem hj
    exact ⟨i, j, indices[j], hij, by rw [heq, hj2], hj2⟩
  · rintro ⟨i, j, x, hij, hi, hj⟩ h
    have hjl : j < indices.length := (List.getElem?_eq_some_iff.mp hj).1
    exact h i j hij hjl (by rw [hi, hj])

theorem add_facets_no_duplicate {V : Type} (grid : Grid3d V)
    (test_facet : List (BuilderCall V) → List Nat → Bool) (polygons : List (List V))
    (g : grid.G) (calls : List (BuilderCall V))
    (hcalls : ∀ indices, (BuilderCall.test_facet indices ∈ calls ∨
      BuilderCall.add_facet indices ∈ calls) → duplicate_indices indices = false) :
    ∀ indices, (BuilderCall.test_facet indices ∈ (add_facets grid test_facet polygons g calls).2 ∨
      BuilderCall.add_facet indices ∈ (add_facets grid test_facet polygons g calls).2) →
      duplicate_indices indices = false := by
  induction polygons generalizing g calls with
  | nil => simpa [add_facets] using hcalls
  | cons p rest ih =>
    unfold add_facets
    dsimp only
    cases hdup : duplicate_indices (resolve_indices grid p g []).2 with
    | true =>
      simp only [if_true]
      exact ih _ calls hcalls
    | false =>
      simp only [Bool.false_eq_true, if_false]
      split
      · apply ih
        intro indices h
        simp only [List.mem_append, List.mem_cons, List.mem_singleton, BuilderCall.test_facet.injEq,
          BuilderCall.add_facet.injEq, List.not_mem_nil, or_false, reduceCtorEq, false_or] at h
        rcases h with (h | h) | (h | h)
        · exact hcalls indices (Or.inl h)
        · subst h; exact hdup
        · exact hcalls indices (Or.inr h)
        · subst h; exact hdup
      · apply ih
        intro indices h
        simp only [List.mem_append, List.mem_cons, List.mem_singleton, BuilderCall.test_facet.injEq,
          List.not_mem_nil, or_false, reduceCtorEq] at h
        rcases h with (h | h) | h
        · exact hcalls indices (Or.inl h)
        · subst h; exact hdup
        · exact hcalls indices (Or.inr h)

/-- C18: the duplicate-index check of `CGAL_Build_PolySet`.  The check flags the index
sequence of a polygon exactly when two different positions hold the same index.  A
flagged polygon makes no call on the builder (neither `test_facet` nor `add_facet`) and
the loop goes on with the polygons after it; a polygon that is not flagged is offered to
`test_facet`, and added when the builder accepts it.  In the whole run no facet with a
duplicate index is ever offered to the builder. -/
theorem duplicate_index_check {V : Type} (grid : Grid3d V)
    (test_facet : List (BuilderCall V) → List Nat → Bool) :
    (∀ indices : List Nat, duplicate_indices indices = true ↔
      ∃ (i j x : Nat), i < j ∧ indices[i]? = some x ∧ indices[j]? = some x) ∧
    (∀ (p : List V) (rest : List (List V)) (g : grid.G) (calls : List (BuilderCall V)),
      duplicate_indices (resolve_indices grid p g []).2 = true →
      add_facets grid test_facet (p :: rest) g calls
        = add_facets grid test_facet rest (resolve_indices grid p g []).1 calls) ∧
    (∀ (p : List V) (rest : List (List V)) (g : grid.G) (calls : List (BuilderCall V)),
      duplicate_indices (resolve_indices grid p g []).2 = false →
      add_facets grid test_facet (p :: rest) g calls
        = add_facets grid test_facet rest (resolve_indices grid p g []).1
            (calls ++ .test_facet (resolve_indices grid p g []).2 ::
              (if test_facet calls (resolve_indices grid p g []).2
               then [.add_facet (resolve_indices grid p g []).2] else []))) ∧
    (∀ (ps : PolySet V) (indices : List Nat),
      (BuilderCall.test_facet indices ∈ CGAL_Build_PolySet grid test_facet ps ∨
        BuilderCall.add_facet indices ∈ CGAL_Build_PolySet grid test_facet ps) →
      duplicate_indices indices = false) := by
  refine ⟨duplicate_indices_iff, ?_, ?_, ?_⟩
  · intro p rest g calls h
    rw [add_facets]
    simp [h]
  · intro p rest g calls h
    rw [add_facets]
    by_cases ht : test_facet calls (resolve_indices grid p g []).2 = true <;> simp [h, ht]
  · intro ps indices h
    unfold CGAL_Build_PolySet at h
    simp only [List.mem_append, List.mem_singleton, reduceCtorEq, or_false] at h
    refine add_facets_no_duplicate grid test_facet ps.polygons _ _ ?_ indices h
    intro idx hidx
    simp at hidx

/-- Witness of C18 on the toy grid: the second polygon of the mesh resolves to the index
sequence `[2, 0, 2]`, is flagged and makes no call; the third polygon is still offered
and added. -/
theorem duplicate_index_check_witness :
    duplicate_indices [2, 0, 2] = true ∧
    CGAL_Build_PolySet toyGrid toy_test_facet mesh_with_duplicate
      = [.begin_surface 4 3, .add_vertex (2048, 2048, 0), .add_vertex (2048, 0, 0),
          .add_vertex (0, 0, 0), .add_vertex (0, 2048, 0),
          .test_facet [2, 1, 0], .add_facet [2, 1, 0],
          .test_facet [2, 0, 3], .add_facet [2, 0, 3], .end_surface] :=
  ⟨((duplicate_index_check toyGrid toy_test_facet).1 [2, 0, 2]).mpr
      ⟨0, 2, 2, by decide, rfl, rfl⟩,
   rfl⟩

/-! ## Properties of `applyHull` -/

theorem set_insert_mem {α : Type} (lt : α → α → Bool) (hlt : strict_total lt) (x y : α)
    (s : List α) : y ∈ set_insert lt x s ↔ y = x ∨ y ∈ s := by
  induction s with
  | nil => simp [set_insert]
  | cons z zs ih =>
    unfold set_insert
    by_cases h1 : lt x z = true
    · simp [h1]
    · by_cases h2 : lt z x = true
      · simp only [h1, h2, if_true, Bool.false_eq_true, if_false, List.mem_cons, ih]
        tauto
      · have hxz : x = z := hlt.2.2 x z (by simpa using h1) (by simpa using h2)
        subst hxz
        simp [h1]

theorem set_insert_sorted {α : Type} (lt : α → α → Bool) (hlt : strict_total lt) (x : α)
    (s : List α) (hs : s.Pairwise (fun a b => lt a b = true)) :
    (set_insert lt x s).Pairwise (fun a b => lt a b = true) := by
  induction s with
  | nil => simp [set_insert]
  | cons z zs ih =>
    have hz := List.pairwise_cons.mp hs
    unfold set_insert
    by_cases h1 : lt x z = true
    · simp only [h1, if_true]
      refine List.pairwise_cons.mpr ⟨?_, hs⟩
      intro a ha
      rcases List.mem_cons.mp ha with h | h
      · subst h; exact h1
      · exact hlt.2.1 x z a h1 (hz.1 a h)
    · by_cases h2 : lt z x = true
      · simp only [h1, h2, if_true, Bool.false_eq_true, if_false]
        refine List.pairwise_cons.mpr ⟨?_, ih hz.2⟩
        intro a ha
        rcases (set_insert_mem lt hlt x a zs).mp ha with h | h
        · subst h; exact h2
        · exact hz.1 a h
      · simpa [h1, h2] using hs

theorem set_insert_all_spec {α : Type} (lt : α → α → Bool) (hlt : strict_total lt)
    (l s : List α) (hs : s.Pairwise (fun a b => lt a b = true)) :
    (set_insert_all lt l s).Pairwise (fun a b => lt a b = true) ∧
    ∀ y, y ∈ set_insert_all lt l s ↔ y ∈ l ∨ y ∈ s := by
  induction l generalizing s with
  | nil => simp [set_insert_all, hs]
  | cons x xs ih =>
    obtain ⟨h1, h2⟩ := ih (set_insert lt x s) (set_insert_sorted lt hlt x s hs)
    refine ⟨h1, fun y => ?_⟩
    simp only [set_insert_all, h2, set_insert_mem lt hlt, List.mem_cons]
    tauto

theorem set_insert_all_append {α : Type} (lt : α → α → Bool) (l1 l2 s : List α) :
    set_insert_all lt (l1 ++ l2) s = set_insert_all lt l2 (set_insert_all lt l1 s) := by
  induction l1 generalizing s with
  | nil => rfl
  | cons x xs ih => simp [set_insert_all, ih]

theorem sorted_nodup {α : Type} (lt : α → α → Bool) (hlt : strict_total lt) (s : List α)
    (hs : s.Pairwise (fun a b => lt a b = true)) : s.Nodup := by
  refine List.Pairwise.imp ?_ hs
  intro a b hab heq
  subst heq
  rw [hlt.1 a] at hab
  exact Bool.noConfusion hab

theorem set_insert_all_length {α : Type} [DecidableEq α] (lt : α → α → Bool)
    (hlt : strict_total lt) (l : List α) :
    (set_insert_all lt l []).length = l.dedup.length := by
  obtain ⟨h1, h2⟩ := set_insert_all_spec lt hlt l [] List.Pairwise.nil
  have hperm : (set_insert_all lt l []).Perm l.dedup :=
    (List.perm_ext_iff_of_nodup (sorted_nodup lt hlt _ h1) (List.nodup_dedup l)).mpr
      (fun a => by simp [h2])
  exact hperm.length_eq

theorem applyHull_points_eq (K : Kernel) (X : KernelHull K) (children : List (ChildItem K))
    (hnull : ∀ c ∈ children, ∀ N, c.second = .nef N → N.p3 ≠ none) (points : List K.Point) :
    applyHull_points K X children points
      = some (set_insert_all X.point_lt (collected_points K X children) points) := by
  induction children generalizing points with
  | nil => rfl
  | cons item rest ih =>
    have hrest : ∀ c ∈ rest, ∀ N, c.second = .nef N → N.p3 ≠ none :=
      fun c hc => hnull c (List.mem_cons_of_mem _ hc)
    have hitem := hnull item (List.mem_cons_self _ _)
    unfold applyHull_points collected_points
    rw [set_insert_all_append]
    cases hg : item.second with
    | polyset ps => simp [applyHull_item, ih hrest]
    | other => simp [applyHull_item, ih hrest, set_insert_all]
    | nef N =>
      cases hp : N.p3 with
      | none => exact absurd hp (hitem N hg)
      | some x => simp [applyHull_item, hp, ih hrest]

/-- What `applyHull` does on children whose complexes have non-null handles, the points
being kept in a `std::set` under a strict total order.  The set holds each collected vertex
once (vertices of complexes and polygon vertices of meshes, equal coordinates counted
once; an operand that is neither contributes nothing).  With 3 or fewer distinct points
the function returns `false`, issues no kernel operation and leaves `result` as it is.
With 4 or more it calls the hull on the set, and when the hull returns, the function
returns `true` with the facets of the hull appended to `result`. -/
theorem applyHull_success (K : Kernel) (X : KernelHull K) [DecidableEq K.Point]
    (hlt : strict_total X.point_lt) (children : List (ChildItem K))
    (hnull : ∀ c ∈ children, ∀ N, c.second = .nef N → N.p3 ≠ none)
    (result : PolySet K.Point) (w : World K) :
    ((collected_points K X children).dedup.length ≤ 3 →
      applyHull K X children result w = .ok (false, result) w) ∧
    (4 ≤ (collected_points K X children).dedup.length →
      ∃ points : List K.Point,
        points.length = (collected_points K X children).dedup.length ∧
        (∀ p, p ∈ points ↔ p ∈ collected_points K X children) ∧
        ∀ r, K.convex_hull_3 points = some r →
          applyHull K X children result w
            = .ok (true, ⟨result.dim, result.convex, result.polygons ++ K.facets r⟩)
                (w.call (.convex_hull_3 points))) ∧
    (∀ (item : ChildItem K) (rest : List (ChildItem K)), item.second = .other →
      collected_points K X (item :: rest) = collected_points K X rest) := by
  have hlen := set_insert_all_length X.point_lt hlt (collected_points K X children)
  have hpts := applyHull_points_eq K X children hnull []
  refine ⟨?_, ?_, ?_⟩
  · intro h
    unfold applyHull
    rw [hpts]
    simp only
    rw [if_pos (by rw [hlen]; exact h)]
  · intro h
    refine ⟨set_insert_all X.point_lt (collected_points K X children) [], hlen, ?_, ?_⟩
    · intro p
      simpa using (set_insert_all_spec X.point_lt hlt (collected_points K X children) []
        List.Pairwise.nil).2 p
    · intro r hr
      unfold applyHull
      rw [hpts]
      simp only
      rw [if_neg (by rw [hlen]; omega), if_pos (by rw [hlen]; omega), hr]
      simp [createPolySetFromPolyhedron]
  · intro item rest hother
    simp [collected_points, hother]

theorem lex_lt_strict_total : strict_total lex_lt := by
  refine ⟨?_, ?_, ?_⟩
  · intro a
    simp [lex_lt]
  · intro a b c hab hbc
    simp only [lex_lt, Bool.or_eq_true, Bool.and_eq_true, decide_eq_true_eq, beq_iff_eq] at *
    omega
  · intro a b hab hba
    obtain ⟨a1, a2, a3⟩ := a
    obtain ⟨b1, b2, b3⟩ := b
    simp only [lex_lt, Bool.or_eq_false_iff, Bool.and_eq_false_iff, decide_eq_false_iff_not,
      beq_eq_false_iff_ne, ne_eq] at *
    have h1 : a1 = b1 := by omega
    have h2 : a2 = b2 := by omega
    have h3 : a3 = b3 := by omega
    subst h1; subst h2; subst h3
    rfl

/-- An instance on the voxel kernel: a triangle and a complex with one vertex that
repeats a corner of the triangle give 3 distinct points and a failure; the unit cube
alone gives 8 points and a success. -/
theorem applyHull_success_voxel :
    applyHull voxelKernel voxelHull
        [⟨some 1, .polyset single_triangle⟩, child 2 [1], ⟨some 3, .other⟩]
        ⟨3, none, []⟩ world0
      = .ok (false, ⟨3, none, []⟩) world0 ∧
    ∃ points : List (Int × Int × Int), points.length = 8 ∧
      ∀ r, voxelKernel.convex_hull_3 points = some r →
        applyHull voxelKernel voxelHull [⟨some 1, .polyset unit_cube⟩] ⟨3, none, []⟩ world0
          = .ok (true, ⟨3, none, [] ++ voxelKernel.facets r⟩)
              (world0.call (.convex_hull_3 points)) :=
  ⟨(applyHull_success voxelKernel voxelHull lex_lt_strict_total
      [⟨some 1, .polyset single_triangle⟩, child 2 [1], ⟨some 3, .other⟩]
      (by
        intro c hc N hN
        simp at hc
        rcases hc with h | h | h
        · subst h; simp at hN
        · subst h
          simp only [child, solid, Geometry.nef.injEq] at hN
          subst hN
          simp
        · subst h; simp at hN)
      ⟨3, none, []⟩ world0).1 (by decide),
   (applyHull_success voxelKernel voxelHull lex_lt_strict_total
      [⟨some 1, .polyset unit_cube⟩]
      (by
        intro c hc N hN
        simp at hc
        subst hc
        simp at hN)
      ⟨3, none, []⟩ world0).2.1 (by decide) |>.imp (fun points h => ⟨h.1, h.2.2⟩)⟩

/-- C11, the code at the failing input: `applyHull` on an empty complex (a null handle)
followed by the unit cube.  The vertices collected from the operands are the 8 corners of
the cube, so success is expected; the loop dereferences `N->p3` of the empty complex
without the test `isEmpty()` that `applyOperator` makes, and the call is undefined.  With
the cube alone the points are the same and the function reports success. -/
theorem applyHull_empty_complex_dereferenced :
    (CGAL_Nef_polyhedron.empty voxelKernel).isEmpty voxelKernel = true ∧
    (collected_points voxelKernel voxelHull
      [⟨some 1, .nef (CGAL_Nef_polyhedron.empty voxelKernel)⟩,
        ⟨some 2, .polyset unit_cube⟩]).dedup.length = 8 ∧
    applyHull voxelKernel voxelHull
        [⟨some 1, .nef (CGAL_Nef_polyhedron.empty voxelKernel)⟩,
          ⟨some 2, .polyset unit_cube⟩] ⟨3, none, []⟩ world0
      = .undefined ∧
    (applyHull voxelKernel voxelHull [⟨some 2, .polyset unit_cube⟩] ⟨3, none, []⟩
      world0).value.map (fun r => r.1) = some true := by
  refine ⟨rfl, by decide, rfl, by decide⟩

/-! ## Properties of `createNefPolyhedronFromPolySet` -/

/-- What `createNefPolyhedronFromPolySet` does on a non-empty 3D mesh that is not known
convex, as long as no failure other than a `CGAL::Assertion_exception` is thrown.
Construction is retried at most once, and exactly when the construction of the complex
from the first polyhedron threw an assertion failure whose message contains both
`Plane_constructor` and `has_on`.  Without retry the builder is called once, on the mesh;
with retry it is called a second time, on the mesh with every face re-tessellated.  The
function returns the complex of the last attempt, with the error mode back at its entry
value; if no attempt yields a polyhedron this is the construction-failure marker (a null
handle), which reports itself empty. -/
theorem createNefPolyhedronFromPolySet_retry (K : Kernel) (X : KernelHull K)
    (ps : PolySet K.Point) (w : World K) (hne : ps.polygons.isEmpty = false)
    (hdim : ps.dim = 3) (hconvex : K.is_convex ps = false)
    (hesc : attempt_escapes K X ps = false) :
    (plane_error (attempt_caught K X ps) = false →
      createNefPolyhedronFromPolySet K X ps w
        = .ok ⟨3, attempt_complex K X ps⟩ (w.call (.delegate ps))) ∧
    (plane_error (attempt_caught K X ps) = true →
      attempt_escapes K X (X.tessellate_faces ps) = false →
      createNefPolyhedronFromPolySet K X ps w
        = .ok ⟨3, attempt_complex K X (X.tessellate_faces ps)⟩
            ((w.call (.delegate ps)).call (.delegate (X.tessellate_faces ps)))) ∧
    (plane_error (attempt_caught K X ps) = true ↔
      ∃ e, X.nef_of_polyhedron (K.delegate ps).1 = .error e ∧ (K.delegate ps).2 = none ∧
        e.is_assertion = true ∧ string_find e.what "Plane_constructor" = true ∧
        string_find e.what "has_on" = true) ∧
    (⟨3, none⟩ : Nef K).isEmpty K = true := by
  refine ⟨?_, ?_, ?_, rfl⟩
  · intro hpe
    unfold createNefPolyhedronFromPolySet
    simp only [hne, Bool.false_eq_true, if_false, hdim, ne_eq, not_true_eq_false, hconvex]
    rw [nef_attempt_eq K X ps _ hesc]
    simp [hpe, World.call, World.set_error_behaviour]
  · intro hpe hesc2
    have hfirst : attempt_complex K X ps = none := by
      unfold attempt_complex
      unfold attempt_caught at hpe
      rcases hd : (K.delegate ps).2 with _ | e
      · rw [hd] at hpe
        cases hn : X.nef_of_polyhedron (K.delegate ps).1 with
        | ok n => rw [hn] at hpe; simp [plane_error] at hpe
        | error e => rfl
      · rfl
    unfold createNefPolyhedronFromPolySet
    simp only [hne, Bool.false_eq_true, if_false, hdim, ne_eq, not_true_eq_false, hconvex]
    rw [nef_attempt_eq K X ps _ hesc]
    simp only [hpe, if_true]
    rw [nef_attempt_eq K X _ _ hesc2, hfirst]
    cases attempt_complex K X (X.tessellate_faces ps) <;>
      simp [World.call, World.set_error_behaviour]
  · unfold attempt_caught
    constructor
    · intro hpe
      rcases hd : (K.delegate ps).2 with _ | e0
      · rw [hd] at hpe
        cases hn : X.nef_of_polyhedron (K.delegate ps).1 with
        | ok n => rw [hn] at hpe; simp [plane_error] at hpe
        | error e =>
          rw [hn] at hpe
          by_cases ha : e.is_assertion = true
          · simp only [ha, if_true, plane_error] at hpe
            refine ⟨e, rfl, rfl, ha, ?_, ?_⟩
            · by_contra h; simp [h] at hpe
            · by_contra h; simp [h] at hpe
          · simp [ha, plane_error] at hpe
      · rw [hd] at hpe
        simp [plane_error] at hpe
    · rintro ⟨e, hn, hd, ha, h1, h2⟩
      simp [hd, hn, ha, plane_error, h1, h2]

/-- An instance on the voxel kernel: the construction from the mesh throws the
non-planar-face assertion, the re-tessellated mesh gives a complex, and the builder was
called twice. -/
theorem createNefPolyhedronFromPolySet_retry_voxel :
    createNefPolyhedronFromPolySet voxelKernel voxelHull nonplanar_mesh world0
      = .ok ⟨3, some [0, 1]⟩
          ((world0.call (.delegate nonplanar_mesh)).call
            (.delegate (voxelHull.tessellate_faces nonplanar_mesh))) :=
  (createNefPolyhedronFromPolySet_retry voxelKernel voxelHull nonplanar_mesh world0
    rfl rfl rfl rfl).2.1 rfl rfl

/-- C13, the code at the failing input: a non-empty 3D mesh that is not known convex and
on which the construction of the complex from the polyhedron throws a precondition
failure, a `CGAL::Failure_exception` that is not a `CGAL::Assertion_exception`.  The
`catch` clause of the first attempt names `CGAL::Assertion_exception` only, so the
function does not return the construction-failure marker: the exception leaves it, after
one call of the builder and with no retry. -/
theorem createNefPolyhedronFromPolySet_failure_escapes :
    precondition_mesh.polygons.isEmpty = false ∧
    voxelKernel.is_convex precondition_mesh = false ∧
    voxelHull.nef_of_polyhedron (voxelKernel.delegate precondition_mesh).1
      = .error ⟨false, "precondition violation"⟩ ∧
    createNefPolyhedronFromPolySet voxelKernel voxelHull precondition_mesh world0
      = .raised ⟨.THROW_EXCEPTION, [], [.delegate precondition_mesh]⟩ ∧
    (createNefPolyhedronFromPolySet voxelKernel voxelHull precondition_mesh world0).value
      = none := by
  refine ⟨rfl, rfl, rfl, rfl, rfl⟩

/-- C16, the code at the failing input: with the error mode `ABORT` on entry, a mesh on
which the polyhedron builder throws a precondition failure makes
`createPolyhedronFromPolySet` end by that exception with the error mode still
`THROW_EXCEPTION`; the same happens in `createNefPolyhedronFromPolySet` when the
construction of the complex throws a precondition failure. -/
theorem error_behaviour_not_restored :
    world0.error_behaviour = .ABORT ∧
    (voxelKernel.delegate flat_mesh).2 = some ⟨false, "precondition"⟩ ∧
    createPolyhedronFromPolySet voxelKernel flat_mesh world0
      = .raised ⟨.THROW_EXCEPTION, [], [.delegate flat_mesh]⟩ ∧
    createNefPolyhedronFromPolySet voxelKernel voxelHull precondition_mesh world0
      = .raised ⟨.THROW_EXCEPTION, [], [.delegate precondition_mesh]⟩ := by
  refine ⟨rfl, rfl, rfl, rfl⟩

theorem inplace_error_behaviour (K : Kernel) (call : K.N3 → K.N3 → KernelCall K)
    (f : K.N3 → K.N3 → Option K.N3) (target src : Nef K) (w : World K) :
    (∀ N1 w1, CGAL_Nef_polyhedron.inplace K call f target src w = .ok N1 w1 →
      w1.error_behaviour = w.error_behaviour ∧ w1.progress = w.progress) ∧
    (∀ w1, CGAL_Nef_polyhedron.inplace K call f target src w = .raised w1 →
      w1.error_behaviour = w.error_behaviour ∧ w1.progress = w.progress) := by
  unfold CGAL_Nef_polyhedron.inplace
  cases target.p3 <;> cases src.p3 <;> simp
  rename_i a b
  cases f a b <;> simp [World.call]

theorem applyBinaryOperator_error_behaviour (K : Kernel) (target src : Nef K)
    (op : OpenSCADOperator) (w : World K) (t : Nef K) (w1 : World K)
    (h : applyBinaryOperator K target src op w = .ok t w1) :
    w1.error_behaviour = w.error_behaviour := by
  unfold applyBinaryOperator at h
  split_ifs at h
  all_goals try (simp only [Outcome.ok.injEq] at h; rw [← h.2])
  dsimp only at h
  have hsw : ∀ v, (∀ N1 v1, applyBinaryOperator_switch K target src op v = .ok N1 v1 →
        v1.error_behaviour = v.error_behaviour) ∧
      (∀ v1, applyBinaryOperator_switch K target src op v = .raised v1 →
        v1.error_behaviour = v.error_behaviour) := by
    intro v
    cases op <;> simp only [applyBinaryOperator_switch]
    · split_ifs
      · simp
      · exact ⟨fun N1 v1 h1 => ((inplace_error_behaviour K _ _ target src v).1 N1 v1 h1).1,
          fun v1 h1 => ((inplace_error_behaviour K _ _ target src v).2 v1 h1).1⟩
    · exact ⟨fun N1 v1 h1 => ((inplace_error_behaviour K _ _ target src v).1 N1 v1 h1).1,
        fun v1 h1 => ((inplace_error_behaviour K _ _ target src v).2 v1 h1).1⟩
    · exact ⟨fun N1 v1 h1 => ((inplace_error_behaviour K _ _ target src v).1 N1 v1 h1).1,
        fun v1 h1 => ((inplace_error_behaviour K _ _ target src v).2 v1 h1).1⟩
    · exact ⟨fun N1 v1 h1 => ((inplace_error_behaviour K _ _ target src v).1 N1 v1 h1).1,
        fun v1 h1 => ((inplace_error_behaviour K _ _ target src v).2 v1 h1).1⟩
    · simp
    · simp
  cases hs : applyBinaryOperator_switch K target src op
      (w.set_error_behaviour .THROW_EXCEPTION).2 with
  | ok N1 v1 =>
    rw [hs] at h
    simp only [Outcome.ok.injEq] at h
    rw [← h.2]
    rfl
  | raised v1 =>
    rw [hs] at h
    simp only [Outcome.ok.injEq] at h
    rw [← h.2]
    rfl
  | undefined =>
    rw [hs] at h
    exact Outcome.noConfusion h

theorem createPolyhedronFromPolySet_error_behaviour (K : Kernel) (ps : PolySet K.Point)
    (w : World K) (Perr : K.Polyhedron × Bool) (w1 : World K)
    (h : createPolyhedronFromPolySet K ps w = .ok Perr w1) :
    w1.error_behaviour = w.error_behaviour := by
  unfold createPolyhedronFromPolySet at h
  rcases hd : K.delegate ps with ⟨P, eo⟩
  rw [hd] at h
  cases eo with
  | none =>
    simp only [Outcome.ok.injEq] at h
    rw [← h.2]
    rfl
  | some e =>
    by_cases he : e.is_assertion = true
    · simp only [he, if_true, Outcome.ok.injEq] at h
      rw [← h.2]
      rfl
    · simp [he] at h

theorem applyOperator_combine_error_behaviour (K : Kernel) (op : OpenSCADOperator)
    (item : ChildItem K) (c : Nef K) (st : OperatorState K) (w : World K)
    (st1 : OperatorState K) (w1 : World K)
    (h : applyOperator_combine K op item c st w = .ok st1 w1) :
    w1.error_behaviour = w.error_behaviour := by
  unfold applyOperator_combine at h
  by_cases hop : op = .OPENSCAD_UNION
  · simp only [hop, if_true] at h
    cases hce : c.isEmpty K <;> cases hp : c.p3 <;>
      simp [hce, hp, World.call, World.set_error_behaviour] at h <;> rw [← h.2]
  · simp only [hop, if_false] at h
    cases hN : st.N with
    | none =>
      simp only [hN, Outcome.ok.injEq] at h
      rw [← h.2]
    | some N =>
      simp only [hN] at h
      cases hce : c.isEmpty K with
      | true =>
        simp only [hce, if_true] at h
        split_ifs at h <;> (simp only [Outcome.ok.injEq] at h; rw [← h.2])
      | false =>
        cases hNe : N.isEmpty K with
        | true =>
          simp only [hce, hNe, Bool.false_eq_true, if_false, if_true, Outcome.ok.injEq] at h
          rw [← h.2]
        | false =>
          simp only [hce, hNe, Bool.false_eq_true, if_false] at h
          have hsw : ∀ v, (∀ N1 v1, applyOperator_switch K N c op v = .ok N1 v1 →
                v1.error_behaviour = v.error_behaviour) ∧
              (∀ v1, applyOperator_switch K N c op v = .raised v1 →
                v1.error_behaviour = v.error_behaviour) := by
            intro v
            cases op <;> simp only [applyOperator_switch]
            · simp
            · exact ⟨fun N1 v1 h1 => ((inplace_error_behaviour K _ _ N c v).1 N1 v1 h1).1,
                fun v1 h1 => ((inplace_error_behaviour K _ _ N c v).2 v1 h1).1⟩
            · exact ⟨fun N1 v1 h1 => ((inplace_error_behaviour K _ _ N c v).1 N1 v1 h1).1,
                fun v1 h1 => ((inplace_error_behaviour K _ _ N c v).2 v1 h1).1⟩
            · exact ⟨fun N1 v1 h1 => ((inplace_error_behaviour K _ _ N c v).1 N1 v1 h1).1,
                fun v1 h1 => ((inplace_error_behaviour K _ _ N c v).2 v1 h1).1⟩
            · simp
            · simp
          cases hs : applyOperator_switch K N c op
              (w.set_error_behaviour .THROW_EXCEPTION).2 with
          | undefined => simp [hs] at h
          | ok N1 v1 =>
            simp only [hs] at h
            cases hf : item.first with
            | none => simp [hf] at h
            | some node =>
              simp only [hf, Outcome.ok.injEq] at h
              rw [← h.2]
              rfl
          | raised v1 =>
            simp only [hs] at h
            cases hf : item.first with
            | none => simp [hf] at h
            | some node =>
              simp only [hf, Outcome.ok.injEq] at h
              rw [← h.2]
              rfl

theorem applyOperator_item_error_behaviour (K : Kernel) (X : KernelHull K)
    (op : OpenSCADOperator) (item : ChildItem K) (st : OperatorState K) (w : World K)
    (st1 : OperatorState K) (w1 : World K)
    (h : applyOperator_item K X op item st w = .ok st1 w1) :
    w1.error_behaviour = w.error_behaviour := by
  unfold applyOperator_item at h
  cases hr : chN_reset K X item.second w with
  | undefined => simp [hr] at h
  | raised v => simp [hr] at h
  | ok c v =>
    cases c with
    | none => simp [hr] at h
    | some c =>
      simp only [hr] at h
      rw [applyOperator_combine_error_behaviour K op item c st v st1 w1 h,
        (chN_reset_ok K X item.second w c v hr).2]
      rfl

theorem applyOperator_loop_error_behaviour (K : Kernel) (X : KernelHull K)
    (op : OpenSCADOperator) (children : List (ChildItem K)) (st : OperatorState K)
    (w : World K) (st1 : OperatorState K) (w1 : World K)
    (h : applyOperator_loop K X op children st w = .ok st1 w1) :
    w1.error_behaviour = w.error_behaviour := by
  induction children generalizing st w with
  | nil =>
    simp only [applyOperator_loop, Outcome.ok.injEq] at h
    rw [← h.2]
  | cons item rest ih =>
    simp only [applyOperator_loop] at h
    cases hitem : applyOperator_item K X op item st w with
    | ok st2 w2 =>
      rw [hitem] at h
      exact (ih st2 w2 h).trans
        (applyOperator_item_error_behaviour K X op item st w st2 w2 hitem)
    | raised w2 => rw [hitem] at h; exact Outcome.noConfusion h
    | undefined => rw [hitem] at h; exact Outcome.noConfusion h

theorem applyOperator_error_behaviour (K : Kernel) (X : KernelHull K)
    (children : List (ChildItem K)) (dest : Nef K) (op : OpenSCADOperator) (w : World K)
    (d : Nef K) (w1 : World K) (h : applyOperator K X children dest op w = .ok d w1) :
    w1.error_behaviour = w.error_behaviour := by
  unfold applyOperator at h
  cases hloop : applyOperator_loop K X op children ⟨K.nary_new, 0, none⟩ w with
  | ok st2 w2 =>
    rw [hloop] at h
    have h2 := applyOperator_loop_error_behaviour K X op children _ w st2 w2 hloop
    simp only [applyOperator_finish] at h
    split_ifs at h
    · simp only [Outcome.ok.injEq] at h
      rw [← h.2, ← h2]
      rfl
    · simp only [Outcome.ok.injEq] at h
      rw [← h.2, ← h2]
  | raised w2 => rw [hloop] at h; exact Outcome.noConfusion h
  | undefined => rw [hloop] at h; exact Outcome.noConfusion h

/-! ## The reachability traversal of `is_approximately_convex` -/

theorem check_angles_polygon_returned {V : Type} (T : PlaneTests V)
    (cmp : MapCompare V) (m : Edge_to_facet_map V) (facet_planes : List T.Plane)
    (i : Nat) (l : List ((V × V) × V)) (b : Bool)
    (h : check_angles_polygon T cmp m facet_planes i l = .returned b) : b = false := by
  induction l with
  | nil => simp [check_angles_polygon] at h
  | cons x rest ih =>
    obtain ⟨other_edge, p⟩ := x
    simp only [check_angles_polygon] at h
    split at h
    · exact LoopExit.noConfusion h
    · simp only [LoopExit.returned.injEq] at h
      exact h.symm
    · split at h
      · split_ifs at h
        · simp only [LoopExit.returned.injEq] at h
          exact h.symm
        · exact ih h
      · exact LoopExit.noConfusion h

theorem check_angles_returned {V : Type} (T : PlaneTests V) (cmp : MapCompare V)
    (m : Edge_to_facet_map V) (facet_planes : List T.Plane) (polygons : List (List V))
    (i : Nat) (b : Bool) (h : check_angles T cmp m facet_planes polygons i = .returned b) :
    b = false := by
  induction polygons generalizing i with
  | nil => simp [check_angles] at h
  | cons polygon rest ih =>
    simp only [check_angles] at h
    split_ifs at h
    · exact ih _ h
    · split at h
      · exact ih _ h
      · rename_i b1 hb1
        simp only [LoopExit.returned.injEq] at h
        subst h
        exact check_angles_polygon_returned T cmp m facet_planes i _ _ hb1
      · exact LoopExit.noConfusion h

theorem map_find_mem {V : Type} (cmp : MapCompare V) (m : Edge_to_facet_map V)
    (e : V × V) (g : Nat) (h : map_find cmp m e = some (some g)) : ∃ kv ∈ m, kv.2 = g := by
  unfold map_find at h
  split_ifs at h
  simp only [Option.some.injEq] at h
  cases hf : m.find? (fun kv => !cmp.less kv.1 e && !cmp.less e kv.1) with
  | none => simp [hf] at h
  | some kv =>
    simp only [hf, Option.map_some', Option.some.injEq] at h
    exact ⟨kv, List.mem_of_find?_eq_some hf, h⟩

theorem map_find_ordered {V : Type} (cmp : MapCompare V) (m : Edge_to_facet_map V)
    (e : V × V) (he : cmp.ordered e = true) :
    map_find cmp m e
      = some ((m.find? (fun kv => !cmp.less kv.1 e && !cmp.less e kv.1)).map Prod.snd) := by
  simp [map_find, he]

theorem check_angles_polygon_defined {V : Type} (T : PlaneTests V)
    (cmp : MapCompare V) (m : Edge_to_facet_map V) (facet_planes : List T.Plane)
    (i : Nat) (l : List ((V × V) × V)) (hm : ∀ kv ∈ m, kv.2 < facet_planes.length)
    (hi : i < facet_planes.length) (hl : ∀ x ∈ l, cmp.ordered x.1 = true) :
    check_angles_polygon T cmp m facet_planes i l ≠ .undefined := by
  induction l with
  | nil => simp [check_angles_polygon]
  | cons x rest ih =>
    obtain ⟨other_edge, p⟩ := x
    have ho : cmp.ordered other_edge = true := hl (other_edge, p) (List.mem_cons_self _ _)
    have hrest := ih (fun y hy => hl y (List.mem_cons_of_mem _ hy))
    simp only [check_angles_polygon]
    cases hf : map_find cmp m other_edge with
    | none => simp [map_find, ho] at hf
    | some r =>
      cases r with
      | none => simp
      | some g =>
        obtain ⟨kv, hkv, hg⟩ := map_find_mem cmp m other_edge g hf
        have hlt : g < facet_planes.length := hg ▸ hm kv hkv
        simp only [List.getElem?_eq_getElem hlt, List.getElem?_eq_getElem hi]
        split_ifs
        · simp
        · exact hrest

theorem polygon_other_edges_mem {V : Type} (polygon : List V) (x : (V × V) × V)
    (hx : x ∈ polygon_other_edges polygon) : x.1.1 ∈ polygon ∧ x.1.2 ∈ polygon := by
  unfold polygon_other_edges at hx
  have h1 := (List.of_mem_zip hx).1
  have h2 := List.of_mem_zip h1
  exact ⟨List.mem_rotate.mp h2.1, h2.2⟩

theorem polygon_edges_mem {V : Type} (polygon : List V) (e : V × V)
    (he : e ∈ polygon_edges polygon) : e.1 ∈ polygon ∧ e.2 ∈ polygon := by
  unfold polygon_edges at he
  have h := List.of_mem_zip he
  exact ⟨h.1, List.mem_rotate.mp h.2⟩

theorem check_angles_defined {V : Type} (T : PlaneTests V) (cmp : MapCompare V)
    (m : Edge_to_facet_map V) (facet_planes : List T.Plane) (polygons : List (List V))
    (i : Nat) (hm : ∀ kv ∈ m, kv.2 < facet_planes.length)
    (hi : i + polygons.length ≤ facet_planes.length)
    (hord : ∀ polygon ∈ polygons, ∀ a ∈ polygon, ∀ b ∈ polygon, cmp.ordered (a, b) = true) :
    check_angles T cmp m facet_planes polygons i ≠ .undefined := by
  induction polygons generalizing i with
  | nil => simp [check_angles]
  | cons polygon rest ih =>
    simp only [List.length_cons] at hi
    have hrest := ih (i + 1) (by omega)
      (fun q hq => hord q (List.mem_cons_of_mem _ hq))
    simp only [check_angles]
    split_ifs
    · exact hrest
    · have hp := check_angles_polygon_defined T cmp m facet_planes i
        (polygon_other_edges polygon) hm (by omega) (by
          intro x hx
          obtain ⟨h1, h2⟩ := polygon_other_edges_mem polygon x hx
          exact hord polygon (List.mem_cons_self _ _) x.1.1 h1 x.1.2 h2)
      split
      · exact hrest
      · simp
      · rename_i hob
        exact absurd hob hp

/-- Whatever the plane tests are, the second loop returns false or runs to its end when the
map and the planes come from the same mesh and the edges are within the ordering of the
comparator. -/
theorem check_angles_cases {V : Type} (T : PlaneTests V) (cmp : MapCompare V)
    (m : Edge_to_facet_map V) (facet_planes : List T.Plane) (polygons : List (List V))
    (hm : ∀ kv ∈ m, kv.2 < facet_planes.length)
    (hi : polygons.length ≤ facet_planes.length)
    (hord : ∀ polygon ∈ polygons, ∀ a ∈ polygon, ∀ b ∈ polygon, cmp.ordered (a, b) = true) :
    check_angles T cmp m facet_planes polygons 0 = .returned false ∨
      check_angles T cmp m facet_planes polygons 0 = .done () := by
  cases h : check_angles T cmp m facet_planes polygons 0 with
  | done u => exact Or.inr rfl
  | returned b =>
    rw [check_angles_returned T cmp m facet_planes polygons 0 b h]
    exact Or.inl rfl
  | undefined =>
    exact absurd h (check_angles_defined T cmp m facet_planes polygons 0 hm (by omega) hord)

/-- Claim C12, evaluated on the code: for the regular tetrahedron the edge map is built, every
edge passes the exact angle test, and the traversal ends having explored facet 0 alone,
because it looks every edge of facet 0 up in the direction in which facet 0 registered it;
so whatever the plane tests are, `is_approximately_convex` returns false where true is
expected. The dented tetrahedron returns false as well. -/
theorem is_approximately_convex_tetrahedron (T : PlaneTests (Int × Int × Int)) :
    build_edge_map T int_edge_lt tetrahedron.polygons 0 [] []
      = .done (tetrahedron_edge_map, tetrahedron.polygons.map T.plane_of) ∧
    check_angles exactTests int_edge_lt tetrahedron_edge_map
      (tetrahedron.polygons.map exactTests.plane_of) tetrahedron.polygons 0 = .done () ∧
    traverse int_edge_lt tetrahedron.polygons tetrahedron_edge_map 5 [0] [0] = .done [0] ∧
    is_approximately_convex T (fun a b => decide (a < b)) (fun a b => decide (a = b))
        tetrahedron = some false ∧
    is_approximately_convex exactTests (fun a b => decide (a < b)) (fun a b => decide (a = b))
        dented_tetrahedron = some false := by
  have hb : build_edge_map T int_edge_lt tetrahedron.polygons 0 [] []
      = .done (tetrahedron_edge_map, tetrahedron.polygons.map T.plane_of) := by rfl
  have ht : traverse int_edge_lt tetrahedron.polygons tetrahedron_edge_map 5 [0] [0]
      = .done [0] := by rfl
  refine ⟨hb, by rfl, ht, ?_, by rfl⟩
  have hb2 : build_edge_map T (edge_order (fun a b => decide (a < b))
      (fun a b => decide (a = b))) tetrahedron.polygons 0 [] []
      = .done (tetrahedron_edge_map, tetrahedron.polygons.map T.plane_of) := hb
  have ht2 : traverse (edge_order (fun a b => decide (a < b))
      (fun a b => decide (a = b))) tetrahedron.polygons tetrahedron_edge_map
      (tetrahedron.polygons.length + 1) [0] [0] = .done [0] := ht
  unfold is_approximately_convex
  rw [hb2]
  simp only
  rcases check_angles_cases T (edge_order (fun a b => decide (a < b))
      (fun a b => decide (a = b))) tetrahedron_edge_map (tetrahedron.polygons.map T.plane_of)
      tetrahedron.polygons (by rw [List.length_map]; decide) (by simp)
      (by intro polygon _ a _ b _; simp [edge_order, vector3d_ordered]) with h | h
  · rw [h]
  · rw [h]
    simp only
    rw [ht2]
    rfl

/-! ## The strict filter of `applyMinkowski` -/

theorem edges_convex_iff {P : Type} (E : EdgeTests P) (edges : List (EdgePoints P)) :
    edges_convex E edges = true ↔ ∀ e ∈ edges, edge_fails E e = false := by
  induction edges with
  | nil => simp [edges_convex]
  | cons e rest ih =>
    simp only [edges_convex, List.mem_cons, forall_eq_or_imp]
    cases edge_fails E e <;> simp [ih]

/-- The loop around one facet appends to the set and to the queue the same facets: the ones
around the facet that were not visited, each once. -/
theorem visit_facet_spec (around visited to_explore : List Nat) :
    ∃ fresh, (visit_facet around visited to_explore).1 = visited ++ fresh ∧
      (visit_facet around visited to_explore).2 = to_explore ++ fresh ∧
      fresh.Nodup ∧ (∀ x ∈ fresh, x ∈ around ∧ x ∉ visited) ∧
      (∀ x ∈ around, x ∈ visited ∨ x ∈ fresh) := by
  induction around generalizing visited to_explore with
  | nil => exact ⟨[], by simp [visit_facet]⟩
  | cons o rest ih =>
    by_cases ho : o ∈ visited
    · obtain ⟨fresh, h1, h2, h3, h4, h5⟩ := ih visited to_explore
      refine ⟨fresh, ?_, ?_, h3, ?_, ?_⟩
      · simp only [visit_facet]
        rw [if_pos (by simpa using ho)]
        exact h1
      · simp only [visit_facet]
        rw [if_pos (by simpa using ho)]
        exact h2
      · intro x hx
        exact ⟨List.mem_cons_of_mem o (h4 x hx).1, (h4 x hx).2⟩
      · intro x hx
        rcases List.mem_cons.mp hx with hxo | hxr
        · exact Or.inl (hxo ▸ ho)
        · exact h5 x hxr
    · obtain ⟨fresh, h1, h2, h3, h4, h5⟩ := ih (visited ++ [o]) (to_explore ++ [o])
      have hof : o ∉ fresh := fun hmem => (h4 o hmem).2 (by simp)
      refine ⟨o :: fresh, ?_, ?_, List.nodup_cons.mpr ⟨hof, h3⟩, ?_, ?_⟩
      · simp only [visit_facet]
        rw [if_neg (by simpa using ho), h1]
        simp
      · simp only [visit_facet]
        rw [if_neg (by simpa using ho), h2]
        simp
      · intro x hx
        rcases List.mem_cons.mp hx with hxo | hxf
        · exact ⟨by rw [hxo]; exact List.mem_cons_self o rest, by rw [hxo]; exact ho⟩
        · exact ⟨List.mem_cons_of_mem o (h4 x hxf).1,
            fun hv => (h4 x hxf).2 (List.mem_append_left _ hv)⟩
      · intro x hx
        rcases List.mem_cons.mp hx with hxo | hxr
        · exact Or.inr (by rw [hxo]; exact List.mem_cons_self o fresh)
        · rcases h5 x hxr with hv | hf
          · rcases List.mem_append.mp hv with hv1 | hv2
            · exact Or.inl hv1
            · exact Or.inr (by
                rw [List.mem_singleton.mp hv2]
                exact List.mem_cons_self o fresh)
          · exact Or.inr (List.mem_cons_of_mem o hf)

theorem nodup_length_le (l : List Nat) (n : Nat) (hn : l.Nodup) (hl : ∀ x ∈ l, x < n) :
    l.length ≤ n := by
  have hsub : l ⊆ List.range n := fun x hx => List.mem_range.mpr (hl x hx)
  have := (List.subperm_of_subset hn hsub).length_le
  simpa using this

theorem nodup_length_eq_iff (l : List Nat) (n : Nat) (hn : l.Nodup) (hl : ∀ x ∈ l, x < n) :
    l.length = n ↔ ∀ x < n, x ∈ l := by
  have hsub : l ⊆ List.range n := fun x hx => List.mem_range.mpr (hl x hx)
  constructor
  · intro hlen x hx
    have hperm : l.Perm (List.range n) :=
      (List.subperm_of_subset hn hsub).perm_of_length_le (by simp [hlen])
    exact hperm.mem_iff.mpr (List.mem_range.mpr hx)
  · intro hall
    have hsub2 : List.range n ⊆ l := fun x hx => hall x (List.mem_range.mp hx)
    have h1 := (List.subperm_of_subset (List.nodup_range n) hsub2).length_le
    have h2 := nodup_length_le l n hn hl
    simp only [List.length_range] at h1
    omega

/-- On a closed polyhedron the traversal started in a sound state, with a bound that covers
the queued facets and the facets not yet visited, ends, and ends in a sound state. -/
theorem explore_facets_spec (facets : List (List Nat)) (hclosed : closed_surface facets)
    (fuel : Nat) (to_explore visited : List Nat)
    (hinv : traversal_invariant facets to_explore visited)
    (hfuel : to_explore.length + (facets.length - visited.length) ≤ fuel) :
    ∃ final, explore_facets facets fuel to_explore visited = some final ∧
      traversal_invariant facets [] final := by
  induction fuel generalizing to_explore visited with
  | zero =>
    cases to_explore with
    | nil => exact ⟨visited, rfl, hinv⟩
    | cons f rest => simp at hfuel
  | succ fuel ih =>
    cases to_explore with
    | nil => exact ⟨visited, rfl, hinv⟩
    | cons f rest =>
      obtain ⟨hnd, hvalid, hq, hreach, h0, hcl⟩ := hinv
      have hfv : f ∈ visited := hq f (List.mem_cons_self f rest)
      have hflt : f < facets.length := hvalid f hfv
      obtain ⟨fresh, h1, h2, h3, h4, h5⟩ := visit_facet_spec facets[f] visited rest
      have hfresh_valid : ∀ x ∈ fresh, x < facets.length := fun x hx =>
        hclosed facets[f] (List.getElem_mem hflt) x (h4 x hx).1
      have hnd1 : (visited ++ fresh).Nodup :=
        List.nodup_append.mpr ⟨hnd, h3, fun x hxv hxf => (h4 x hxf).2 hxv⟩
      have hvalid1 : ∀ x ∈ visited ++ fresh, x < facets.length := by
        intro x hx
        rcases List.mem_append.mp hx with hv | hf
        · exact hvalid x hv
        · exact hfresh_valid x hf
      have hinv1 : traversal_invariant facets (rest ++ fresh) (visited ++ fresh) := by
        refine ⟨hnd1, hvalid1, ?_, ?_, List.mem_append_left _ h0, ?_⟩
        · intro x hx
          rcases List.mem_append.mp hx with hr | hf
          · exact List.mem_append_left _ (hq x (List.mem_cons_of_mem f hr))
          · exact List.mem_append_right _ hf
        · intro x hx
          rcases List.mem_append.mp hx with hv | hf
          · exact hreach x hv
          · exact Relation.ReflTransGen.tail (hreach f hfv)
              ⟨facets[f], List.getElem?_eq_getElem hflt, (h4 x hf).1⟩
        · intro x hx hxq o hadj
          have hxr : x ∉ rest := fun h => hxq (List.mem_append_left _ h)
          have hxf : x ∉ fresh := fun h => hxq (List.mem_append_right _ h)
          have hxv : x ∈ visited := by
            rcases List.mem_append.mp hx with hv | hf
            · exact hv
            · exact absurd hf hxf
          by_cases hxeq : x = f
          · obtain ⟨around, ha, ho⟩ := hadj
            rw [hxeq, List.getElem?_eq_getElem hflt, Option.some.injEq] at ha
            rw [← ha] at ho
            rcases h5 o ho with hv | hf
            · exact List.mem_append_left _ hv
            · exact List.mem_append_right _ hf
          · have hxnq : x ∉ f :: rest := by
              intro h
              rcases List.mem_cons.mp h with h' | h'
              · exact hxeq h'
              · exact hxr h'
            exact List.mem_append_left _ (hcl x hxv hxnq o hadj)
      have hlen := nodup_length_le (visited ++ fresh) facets.length hnd1 hvalid1
      have hfuel1 : (rest ++ fresh).length + (facets.length - (visited ++ fresh).length)
          ≤ fuel := by
        simp only [List.length_append, List.length_cons] at hfuel hlen ⊢
        omega
      obtain ⟨final, hfinal, hinvf⟩ := ih (rest ++ fresh) (visited ++ fresh) hinv1 hfuel1
      refine ⟨final, ?_, hinvf⟩
      simp only [explore_facets, List.getElem?_eq_getElem hflt, h1, h2]
      exact hfinal

/-- Claim C21: on a non-empty closed polyhedron the traversal of `is_weakly_convex` ends, and
the set `visited` then holds, each once, exactly the facets reachable from the first facet
across shared edges; `is_weakly_convex` returns a value, which is true exactly when no edge
fails the convexity test and every facet is in that set, and false if some facet cannot be
reached from the first one. -/
theorem is_weakly_convex_reachability {P : Type} (E : EdgeTests P) (p : HalfedgeDS P)
    (hne : p.facets ≠ []) (hclosed : closed_surface p.facets) :
    ∃ visited, explore_facets p.facets p.facets.length [0] [0] = some visited ∧
      visited.Nodup ∧
      (∀ f, f ∈ visited ↔ facet_reachable p.facets 0 f) ∧
      (is_weakly_convex E p = some true ∨ is_weakly_convex E p = some false) ∧
      (is_weakly_convex E p = some true ↔
        (∀ e ∈ p.edges, edge_fails E e = false) ∧ ∀ f < p.facets.length, f ∈ visited) ∧
      ((∃ f < p.facets.length, ¬ facet_reachable p.facets 0 f) →
        is_weakly_convex E p = some false) := by
  have hpos : 0 < p.facets.length := List.length_pos.mpr hne
  have hinv0 : traversal_invariant p.facets [0] [0] := by
    refine ⟨List.nodup_singleton 0, ?_, fun x hx => hx, ?_, List.mem_singleton_self 0, ?_⟩
    · intro x hx
      rw [List.mem_singleton.mp hx]
      exact hpos
    · intro x hx
      rw [List.mem_singleton.mp hx]
      exact Relation.ReflTransGen.refl
    · intro x hx hxn
      exact absurd hx hxn
  obtain ⟨visited, hvis, hnd, hvalid, _, hreach, h0, hcl⟩ :=
    explore_facets_spec p.facets hclosed p.facets.length [0] [0] hinv0
      (by simp only [List.length_singleton]; omega)
  have hmem : ∀ f, f ∈ visited ↔ facet_reachable p.facets 0 f := by
    intro f
    constructor
    · exact hreach f
    · intro hr
      induction hr with
      | refl => exact h0
      | tail _ hadj ih => exact hcl _ ih (List.not_mem_nil _) _ hadj
  have hlen := nodup_length_eq_iff visited p.facets.length hnd hvalid
  have htrue : is_weakly_convex E p = some true ↔
      (∀ e ∈ p.edges, edge_fails E e = false) ∧ ∀ f < p.facets.length, f ∈ visited := by
    unfold is_weakly_convex
    rw [hvis, ← hlen, ← edges_convex_iff]
    cases edges_convex E p.edges <;> simp
  have hcases : is_weakly_convex E p = some true ∨ is_weakly_convex E p = some false := by
    unfold is_weakly_convex
    rw [hvis]
    cases edges_convex E p.edges
    · simp
    · cases hb : (visited.length == p.facets.length) <;> simp [hb]
  refine ⟨visited, hvis, hnd, hmem, hcases, htrue, ?_⟩
  rintro ⟨f, hf, hnr⟩
  rcases hcases with ht | hfalse
  · exact absurd ((hmem f).mp ((htrue.mp ht).2 f hf)) hnr
  · exact hfalse

/-- Witness for C21: the polyhedron of two tetrahedra is closed, no edge of it fails the
convexity test, and `is_weakly_convex` returns false on it, its second shell not being
reachable from the first facet; on the single tetrahedron it returns true. -/
theorem is_weakly_convex_reachability_witness :
    is_weakly_convex intEdgeTests tetrahedron_surface = some true ∧
    is_weakly_convex intEdgeTests two_shells = some false ∧
    edges_convex intEdgeTests two_shells.edges = true ∧
    two_shells.facets ≠ [] ∧ closed_surface two_shells.facets ∧
    ∃ visited, explore_facets two_shells.facets two_shells.facets.length [0] [0]
        = some visited ∧
      visited.Nodup ∧
      (∀ f, f ∈ visited ↔ facet_reachable two_shells.facets 0 f) ∧
      (is_weakly_convex intEdgeTests two_shells = some true ∨
        is_weakly_convex intEdgeTests two_shells = some false) ∧
      (is_weakly_convex intEdgeTests two_shells = some true ↔
        (∀ e ∈ two_shells.edges, edge_fails intEdgeTests e = false) ∧
          ∀ f < two_shells.facets.length, f ∈ visited) ∧
      ((∃ f < two_shells.facets.length, ¬ facet_reachable two_shells.facets 0 f) →
        is_weakly_convex intEdgeTests two_shells = some false) :=
  ⟨by rfl, by rfl, by rfl, by decide, by decide,
    is_weakly_convex_reachability intEdgeTests two_shells (by decide) (by decide)⟩

/-! ## The accumulator of `ZRemover::visit` -/

theorem visit_cycles_spec (K : PlanarKernel) (cycles : List (FacetCycle K.Point3))
    (contour_counter : Nat) (z : ZRemover K) :
    (ZRemover.visit_cycles K cycles contour_counter z).output_nefpoly2d
      = (if contour_counter = 0 then
          united_then_intersected K z.boundary z.output_nefpoly2d (edge_contours K cycles)
        else intersect_contours K z.boundary z.output_nefpoly2d (edge_contours K cycles)) ∧
    (ZRemover.visit_cycles K cycles contour_counter z).boundary = z.boundary ∧
    (ZRemover.visit_cycles K cycles contour_counter z).up = z.up := by
  induction cycles generalizing contour_counter z with
  | nil =>
    simp [ZRemover.visit_cycles, edge_contours, united_then_intersected, intersect_contours]
  | cons c rest ih =>
    cases c with
    | trivial =>
      simp only [ZRemover.visit_cycles, edge_contours]
      exact ih contour_counter z
    | shalfedge points =>
      simp only [ZRemover.visit_cycles, edge_contours]
      by_cases he : (points.map K.to_point2).length = 0
      · rw [if_pos he, if_pos he]
        exact ih contour_counter z
      · rw [if_neg he, if_neg he]
        by_cases hc : contour_counter = 0
        · simp only [hc, if_true]
          have := ih (0 + 1) ⟨K.join z.output_nefpoly2d
            (K.from_contour (points.map K.to_point2) z.boundary),
            some (K.from_contour (points.map K.to_point2) z.boundary), z.boundary, z.up⟩
          simpa [united_then_intersected] using this
        · simp only [hc, if_false]
          have := ih (contour_counter + 1) ⟨K.intersection z.output_nefpoly2d
            (K.from_contour (points.map K.to_point2) z.boundary),
            some (K.from_contour (points.map K.to_point2) z.boundary), z.boundary, z.up⟩
          simpa [intersect_contours] using this

/-- Claim C22: `ZRemover::visit` leaves the object, and with it the accumulator, as it is for
a half-facet whose direction differs from `up`; for a half-facet with the direction `up` and
the non-empty edge-cycle contours `c0, c1, ..., ck`, in cycle order, the accumulator after the
visit is `(((acc ∪ c0) ∩ c1) ∩ ...) ∩ ck` (the accumulator itself when there is no contour),
trivial cycles and empty contours being passed over. -/
theorem ZRemover_visit_accumulator (K : PlanarKernel) (z : ZRemover K)
    (hfacet : ZHalffacet K) :
    (K.direction_ne hfacet.orthogonal_direction z.up = true →
      ZRemover.visit K z hfacet = z) ∧
    (K.direction_ne hfacet.orthogonal_direction z.up = false →
      (ZRemover.visit K z hfacet).output_nefpoly2d
        = united_then_intersected K z.boundary z.output_nefpoly2d
            (edge_contours K hfacet.cycles)) ∧
    (∀ acc c0 c1 c2, united_then_intersected K z.boundary acc [c0, c1, c2]
      = K.intersection (K.intersection (K.join acc (K.from_contour c0 z.boundary))
          (K.from_contour c1 z.boundary)) (K.from_contour c2 z.boundary)) := by
  refine ⟨fun h => ?_, fun h => ?_, fun acc c0 c1 c2 => rfl⟩
  · simp [ZRemover.visit, h]
  · simp only [ZRemover.visit, h, Bool.false_eq_true, if_false]
    have := (visit_cycles_spec K hfacet.cycles 0 z).1
    simpa using this

/-- Witness for C22 on the board kernel: the square with a hole, visited from above with an
empty accumulator, leaves the 12 cells of the square outside the hole; visited from below it
leaves the accumulator empty. -/
theorem ZRemover_visit_accumulator_witness :
    (ZRemover.visit boardKernel zremover0 square_with_hole).output_nefpoly2d
      = [(0, 0), (0, 1), (0, 2), (0, 3), (1, 0), (1, 3), (2, 0), (2, 3),
         (3, 0), (3, 1), (3, 2), (3, 3)] ∧
    edge_contours boardKernel square_with_hole.cycles
      = [[(0, 0), (4, 0), (4, 4), (0, 4)], [(1, 1), (1, 3), (3, 3), (3, 1)]] ∧
    ZRemover.visit boardKernel zremover0 square_from_below = zremover0 ∧
    (ZRemover.visit boardKernel zremover0 square_with_hole).output_nefpoly2d
      = united_then_intersected boardKernel zremover0.boundary zremover0.output_nefpoly2d
          (edge_contours boardKernel square_with_hole.cycles) :=
  ⟨by rfl, by rfl,
    (ZRemover_visit_accumulator boardKernel zremover0 square_from_below).1 (by rfl),
    (ZRemover_visit_accumulator boardKernel zremover0 square_with_hole).2.1 (by rfl)⟩

/-! ## The edge map of `is_approximately_convex` and its traversal -/

theorem VecPairCompare_irrefl {R : Type} (lt eq : R → R → Bool) (hlt : ∀ x, lt x x = false)
    (e : (R × R × R) × (R × R × R)) : VecPairCompare lt eq e e = false := by
  have hv : ∀ a : R × R × R, vector3d_lt lt eq a a = false := by
    intro a
    simp [vector3d_lt, hlt]
  simp [VecPairCompare, hv]

theorem map_count_ordered {V : Type} (cmp : MapCompare V) (m : Edge_to_facet_map V)
    (e : V × V) (he : cmp.ordered e = true) : ∃ b, map_count cmp m e = some b := by
  simp [map_count, map_find, he]

theorem register_edges_eq {V : Type} (cmp : MapCompare V) (i : Nat)
    (edges : List (V × V)) (m m1 : Edge_to_facet_map V)
    (h : register_edges cmp i edges m = .done m1) :
    m1 = m ++ edges.map (fun e => (e, i)) := by
  induction edges generalizing m with
  | nil =>
    simp only [register_edges, LoopExit.done.injEq] at h
    simp [h]
  | cons e rest ih =>
    simp only [register_edges] at h
    cases hc : map_count cmp m e with
    | none => simp [hc] at h
    | some b =>
      cases b with
      | true => simp [hc] at h
      | false =>
        simp only [hc, map_set] at h
        rw [ih _ h]
        simp

theorem register_edges_cases {V : Type} (cmp : MapCompare V) (i : Nat)
    (edges : List (V × V)) (m : Edge_to_facet_map V)
    (hord : ∀ e ∈ edges, cmp.ordered e = true) :
    register_edges cmp i edges m = .returned false ∨
      ∃ m1, register_edges cmp i edges m = .done m1 := by
  induction edges generalizing m with
  | nil => exact Or.inr ⟨m, rfl⟩
  | cons e rest ih =>
    obtain ⟨b, hb⟩ := map_count_ordered cmp m e (hord e (List.mem_cons_self _ _))
    simp only [register_edges, hb]
    cases b with
    | true => exact Or.inl rfl
    | false =>
      simp only [map_set, hb]
      exact ih _ (fun e1 he1 => hord e1 (List.mem_cons_of_mem _ he1))

theorem build_edge_map_cases {V : Type} (T : PlaneTests V) (cmp : MapCompare V)
    (polygons : List (List V)) (i : Nat) (m : Edge_to_facet_map V) (planes : List T.Plane)
    (hord : ∀ polygon ∈ polygons, ∀ a ∈ polygon, ∀ b ∈ polygon, cmp.ordered (a, b) = true) :
    build_edge_map T cmp polygons i m planes = .returned false ∨
      ∃ r, build_edge_map T cmp polygons i m planes = .done r := by
  induction polygons generalizing i m planes with
  | nil => exact Or.inr ⟨_, rfl⟩
  | cons polygon rest ih =>
    have hrest : ∀ q ∈ rest, ∀ a ∈ q, ∀ b ∈ q, cmp.ordered (a, b) = true :=
      fun q hq => hord q (List.mem_cons_of_mem _ hq)
    simp only [build_edge_map]
    split_ifs
    · rcases register_edges_cases cmp i (polygon_edges polygon) m (by
        intro e he
        obtain ⟨h1, h2⟩ := polygon_edges_mem polygon e he
        exact hord polygon (List.mem_cons_self _ _) e.1 h1 e.2 h2) with h | ⟨m1, h⟩
      · rw [h]
        exact Or.inl rfl
      · rw [h]
        exact ih _ _ _ hrest
    · exact ih _ _ _ hrest

/-- The first loop only adds entries to the map, each with the index of a facet it has come
to, and pushes one plane per polygon. -/
theorem build_edge_map_spec {V : Type} (T : PlaneTests V) (cmp : MapCompare V)
    (polygons : List (List V)) (i : Nat) (m : Edge_to_facet_map V) (planes : List T.Plane)
    (m1 : Edge_to_facet_map V) (planes1 : List T.Plane)
    (h : build_edge_map T cmp polygons i m planes = .done (m1, planes1)) :
    ∃ tail, m1 = m ++ tail ∧ (∀ kv ∈ tail, kv.2 < i + polygons.length) ∧
      planes1.length = planes.length + polygons.length := by
  induction polygons generalizing i m planes with
  | nil =>
    simp only [build_edge_map, LoopExit.done.injEq, Prod.mk.injEq] at h
    exact ⟨[], by simp [h.1], by simp, by simp [h.2]⟩
  | cons polygon rest ih =>
    simp only [build_edge_map] at h
    by_cases h3 : polygon.length ≥ 3
    · rw [if_pos h3] at h
      cases hr : register_edges cmp i (polygon_edges polygon) m with
      | returned b => simp [hr] at h
      | undefined => simp [hr] at h
      | done m0 =>
        simp only [hr] at h
        obtain ⟨tail, ht1, ht2, ht3⟩ := ih _ _ _ h
        have hm0 := register_edges_eq cmp i _ m m0 hr
        refine ⟨(polygon_edges polygon).map (fun e => (e, i)) ++ tail, ?_, ?_, ?_⟩
        · rw [ht1, hm0, List.append_assoc]
        · intro kv hkv
          rcases List.mem_append.mp hkv with h1 | h2
          · obtain ⟨e, _, he⟩ := List.mem_map.mp h1
            rw [← he]
            simp
          · have := ht2 kv h2
            simp only [List.length_cons]
            omega
        · rw [ht3]
          simp only [List.length_append, List.length_cons, List.length_nil]
          omega
    · rw [if_neg h3] at h
      obtain ⟨tail, ht1, ht2, ht3⟩ := ih _ _ _ h
      refine ⟨tail, ht1, ?_, ?_⟩
      · intro kv hkv
        have := ht2 kv hkv
        simp only [List.length_cons]
        omega
      · rw [ht3]
        simp only [List.length_append, List.length_cons, List.length_nil]
        omega

/-- Looking up a key that stands in a leading part of the map all of whose entries carry the
same facet yields that facet. -/
theorem map_find_prefix {V : Type} (cmp : MapCompare V) (hirr : ∀ e, cmp.less e e = false)
    (front tail : Edge_to_facet_map V) (v : Nat) (e : V × V) (ho : cmp.ordered e = true)
    (hfront : ∀ kv ∈ front, kv.2 = v) (he : (e, v) ∈ front) :
    map_find cmp (front ++ tail) e = some (some v) := by
  rw [map_find_ordered cmp _ e ho, List.find?_append]
  cases hf : front.find? (fun kv => !cmp.less kv.1 e && !cmp.less e kv.1) with
  | none =>
    have := List.find?_eq_none.mp hf (e, v) he
    simp [hirr e] at this
  | some kv =>
    simp [hfront kv (List.mem_of_find?_eq_some hf)]

theorem visit_edges_self {V : Type} (cmp : MapCompare V) (m : Edge_to_facet_map V)
    (edges : List (V × V)) (explored queue : List Nat)
    (hfind : ∀ e ∈ edges, map_find cmp m e = some (some 0)) (h0 : 0 ∈ explored) :
    visit_edges cmp m edges explored queue = .done (explored, queue) := by
  induction edges with
  | nil => rfl
  | cons e rest ih =>
    simp only [visit_edges, hfind e (List.mem_cons_self e rest)]
    rw [if_pos (by simpa using h0)]
    exact ih (fun e1 he1 => hfind e1 (List.mem_cons_of_mem e he1))

/-- C23 as stated fails for a mesh with a NaN coordinate: the mesh has two polygons of 3
vertices each, but the second polygon hands the edge map a key with a NaN.  On such keys
`VecPairCompare` is not a strict weak ordering (here the key is below one registered edge,
that edge is below another one, and yet the key is equivalent to the latter), which the
map requires of its comparator, so the behaviour of the lookup is not defined and the
function is not bound to return false. -/
theorem is_approximately_convex_nan_counterexample :
    (∀ x, nan_lt x x = false) ∧ 2 ≤ nan_mesh.polygons.length ∧
    (∀ polygon ∈ nan_mesh.polygons, 3 ≤ polygon.length) ∧
    VecPairCompare nan_lt nan_eq
      ((none, some 1, some 0), (some 1, some 0, some 0))
      ((some 1, some 0, some 0), (some 1, some 0, some 1)) = true ∧
    VecPairCompare nan_lt nan_eq
      ((some 1, some 0, some 0), (some 1, some 0, some 1))
      ((some 1, some 0, some 1), (some 1, some 0, some 0)) = true ∧
    VecPairCompare nan_lt nan_eq
      ((none, some 1, some 0), (some 1, some 0, some 0))
      ((some 1, some 0, some 1), (some 1, some 0, some 0)) = false ∧
    build_edge_map flatTests (edge_order nan_lt nan_eq) nan_mesh.polygons 0 [] []
      = .undefined ∧
    is_approximately_convex flatTests nan_lt nan_eq nan_mesh = none := by
  refine ⟨?_, by decide, by decide, by decide, by decide, by decide, rfl, rfl⟩
  intro x
  cases x <;> simp [nan_lt]

/-- C23 amended: on a mesh without a NaN coordinate, of at least two polygons, each with at
least 3 vertices, `is_approximately_convex` returns false.  When the first loop has built
the edge map, every directed edge of facet 0 is found in it with facet 0, the facet that
registered it in this direction, so the traversal ends having explored facet 0 alone, and
one explored facet is not the number of polygons. -/
theorem is_approximately_convex_returns_false {R : Type} (T : PlaneTests (R × R × R))
    (lt eq : R → R → Bool) (ps : PolySet (R × R × R)) (hlt : ∀ x, lt x x = false)
    (hnan : ∀ polygon ∈ ps.polygons, ∀ v ∈ polygon, vector3d_ordered eq v = true)
    (h2 : 2 ≤ ps.polygons.length) (h3 : ∀ polygon ∈ ps.polygons, 3 ≤ polygon.length) :
    is_approximately_convex T lt eq ps = some false ∧
    ∀ m planes,
      build_edge_map T (edge_order lt eq) ps.polygons 0 [] [] = .done (m, planes) →
      (∀ polygon0, ps.polygons[0]? = some polygon0 → ∀ e ∈ polygon_edges polygon0,
        map_find (edge_order lt eq) m e = some (some 0)) ∧
      traverse (edge_order lt eq) ps.polygons m (ps.polygons.length + 1) [0] [0]
        = .done [0] := by
  have hirr : ∀ e, (edge_order lt eq).less e e = false := VecPairCompare_irrefl lt eq hlt
  have hord : ∀ polygon ∈ ps.polygons, ∀ a ∈ polygon, ∀ b ∈ polygon,
      (edge_order lt eq).ordered (a, b) = true := by
    intro polygon hp a ha b hb
    simp only [edge_order, Bool.and_eq_true]
    exact ⟨hnan polygon hp a ha, hnan polygon hp b hb⟩
  rcases hp : ps.polygons with _ | ⟨polygon0, rest⟩
  · rw [hp] at h2
    simp at h2
  rw [hp] at hord
  have h30 : polygon0.length ≥ 3 := h3 polygon0 (by rw [hp]; exact List.mem_cons_self _ _)
  have hrest : 1 ≤ rest.length := by
    rw [hp] at h2
    simpa using h2
  have key : ∀ m planes,
      build_edge_map T (edge_order lt eq) (polygon0 :: rest) 0 [] [] = .done (m, planes) →
      (∀ e ∈ polygon_edges polygon0, map_find (edge_order lt eq) m e = some (some 0)) ∧
      (∀ kv ∈ m, kv.2 < planes.length) ∧ (polygon0 :: rest).length ≤ planes.length ∧
      traverse (edge_order lt eq) (polygon0 :: rest) m ((polygon0 :: rest).length + 1)
        [0] [0] = .done [0] := by
    intro m planes hb
    simp only [build_edge_map] at hb
    rw [if_pos h30] at hb
    cases hr : register_edges (edge_order lt eq) 0 (polygon_edges polygon0) [] with
    | returned b => simp [hr] at hb
    | undefined => simp [hr] at hb
    | done m0 =>
      simp only [hr] at hb
      have hm0 := register_edges_eq _ 0 _ [] m0 hr
      simp only [List.nil_append] at hm0
      obtain ⟨tail, ht1, ht2, ht3⟩ := build_edge_map_spec T _ rest _ m0 _ m planes hb
      have hfind : ∀ e ∈ polygon_edges polygon0,
          map_find (edge_order lt eq) m e = some (some 0) := by
        intro e he
        rw [ht1]
        obtain ⟨h1, h2⟩ := polygon_edges_mem polygon0 e he
        refine map_find_prefix _ hirr m0 tail 0 e
          (hord polygon0 (List.mem_cons_self _ _) e.1 h1 e.2 h2) ?_ ?_
        · intro kv hkv
          rw [hm0] at hkv
          obtain ⟨e1, _, he1⟩ := List.mem_map.mp hkv
          rw [← he1]
        · rw [hm0]
          exact List.mem_map.mpr ⟨e, he, rfl⟩
      have hlen : planes.length = 1 + rest.length := by
        rw [ht3]
        simp
      refine ⟨hfind, ?_, ?_, ?_⟩
      · intro kv hkv
        rw [ht1] at hkv
        rcases List.mem_append.mp hkv with h1 | h1
        · rw [hm0] at h1
          obtain ⟨e1, _, he1⟩ := List.mem_map.mp h1
          rw [← he1, hlen]
          simp only
          omega
        · rw [hlen]
          exact ht2 kv h1
      · rw [hlen]
        simp only [List.length_cons]
        omega
      · simp only [traverse, List.length_cons, List.getElem?_cons_zero,
          visit_edges_self _ m _ [0] [] hfind (List.mem_singleton_self 0)]
  refine ⟨?_, ?_⟩
  · unfold is_approximately_convex
    rw [hp]
    rcases build_edge_map_cases T (edge_order lt eq) (polygon0 :: rest) 0 [] [] hord
      with hb | ⟨r, hb⟩
    · rw [hb]
    · obtain ⟨m, planes⟩ := r
      obtain ⟨_, hm, hl, htr⟩ := key m planes hb
      rw [hb]
      simp only
      rcases check_angles_cases T (edge_order lt eq) m planes (polygon0 :: rest) hm hl hord
        with h | h
      · rw [h]
      · rw [h]
        simp only
        rw [htr]
        simp only [List.length_cons, List.length_nil, Option.some.injEq, beq_eq_false_iff_ne,
          ne_eq]
        omega
  · intro m planes hb
    obtain ⟨hfind, _, _, htr⟩ := key m planes hb
    refine ⟨?_, htr⟩
    intro q hq e he
    simp only [List.getElem?_cons_zero, Option.some.injEq] at hq
    rw [← hq] at he
    exact hfind e he

/-- Witness for the amended C23 on the regular tetrahedron, over coordinates that could be
a NaN and are not. -/
theorem is_approximately_convex_returns_false_witness :
    (∀ polygon ∈ finite_tetrahedron.polygons, ∀ v ∈ polygon,
      vector3d_ordered nan_eq v = true) ∧
    2 ≤ finite_tetrahedron.polygons.length ∧
    (∀ polygon ∈ finite_tetrahedron.polygons, 3 ≤ polygon.length) ∧
    is_approximately_convex flatTests nan_lt nan_eq finite_tetrahedron = some false :=
  ⟨by decide, by decide, by decide,
    (is_approximately_convex_returns_false flatTests nan_lt nan_eq finite_tetrahedron
      (fun x => by cases x <;> simp [nan_lt]) (by decide) (by decide) (by decide)).1⟩

/-! ## The progress callbacks of `applyOperator` -/

/-- An operand that reaches the operator: the running result becomes the result of the
operator, the callback of the owner runs once, and the kernel operator was called once if the
switch handles the operator value. -/
theorem applyOperator_item_reported (K : Kernel) (X : KernelHull K) (op : OpenSCADOperator)
    (hop : op ≠ .OPENSCAD_UNION) (item : ChildItem K) (st : OperatorState K) (w : World K)
    (N c : Nef K) (node : Nat) (hc : chN K X item.second = some c) (hN : st.N = some N)
    (hce : c.isEmpty K = false) (hNe : N.isEmpty K = false) (hnode : item.first = some node) :
    ∃ w1, applyOperator_item K X op item st w
        = .ok ⟨st.nary_union, st.nary_union_num_inserted, some (operator_result K op N c)⟩ w1 ∧
      w1.progress = w.progress ++ [node] ∧
      w1.calls.length = w.calls.length + (conversion_calls K X item.second).length
        + (if switch_handles op then 1 else 0) := by
  obtain ⟨a, ha, _⟩ := p3_of_isEmpty_eq_false N hNe
  obtain ⟨b, hb, _⟩ := p3_of_isEmpty_eq_false c hce
  rw [applyOperator_item_eq K X op item st w c hc]
  unfold applyOperator_combine
  simp only [hN, hop, if_false, hce, hNe, Bool.false_eq_true, hnode]
  cases op with
  | OPENSCAD_UNION => exact absurd rfl hop
  | OPENSCAD_INTERSECTION =>
    cases hf : K.intersection a b <;>
      simp [applyOperator_switch, CGAL_Nef_polyhedron.inplace, ha, hb, hf, operator_result,
        kernel_operator, switch_handles, World.call, World.set_error_behaviour,
        World.progress_report, World.log, Nat.add_assoc]
  | OPENSCAD_DIFFERENCE =>
    cases hf : K.difference a b <;>
      simp [applyOperator_switch, CGAL_Nef_polyhedron.inplace, ha, hb, hf, operator_result,
        kernel_operator, switch_handles, World.call, World.set_error_behaviour,
        World.progress_report, World.log, Nat.add_assoc]
  | OPENSCAD_MINKOWSKI =>
    cases hf : K.minkowski a b <;>
      simp [applyOperator_switch, CGAL_Nef_polyhedron.inplace, ha, hb, hf, operator_result,
        kernel_operator, switch_handles, World.call, World.set_error_behaviour,
        World.progress_report, World.log, Nat.add_assoc]
  | OPENSCAD_HULL =>
    simp [applyOperator_switch, operator_result, kernel_operator, switch_handles,
      World.set_error_behaviour, World.progress_report, World.log]
  | OPENSCAD_RESIZE =>
    simp [applyOperator_switch, operator_result, kernel_operator, switch_handles,
      World.set_error_behaviour, World.progress_report, World.log]

theorem normalisation_calls_cons (K : Kernel) (X : KernelHull K) (item : ChildItem K)
    (rest : List (ChildItem K)) :
    normalisation_calls K X (item :: rest)
      = conversion_calls K X item.second ++ normalisation_calls K X rest := by
  simp [normalisation_calls, List.flatMap_cons]

/-- The loop of `applyOperator` for an operator other than UNION runs the callbacks of the
owners of the operands that reach the operator, in order, and nothing else. -/
theorem applyOperator_loop_reported (K : Kernel) (X : KernelHull K) (op : OpenSCADOperator)
    (hop : op ≠ .OPENSCAD_UNION) (children : List (ChildItem K))
    (hgeom : operands_valid K X children) (st : OperatorState K) (w : World K)
    (hown : ∀ o ∈ reported_owners K X op children st.N, o ≠ none) :
    ∃ st1 w1, applyOperator_loop K X op children st w = .ok st1 w1 ∧
      w1.progress.map some = w.progress.map some ++ reported_owners K X op children st.N ∧
      w1.calls.length = w.calls.length + (normalisation_calls K X children).length +
        (if switch_handles op then (reported_owners K X op children st.N).length
         else 0) := by
  induction children generalizing st w with
  | nil =>
    exact ⟨st, w, rfl, by simp [reported_owners], by simp [reported_owners,
      normalisation_calls]⟩
  | cons item rest ih =>
    obtain ⟨hitem, hrest⟩ := operands_valid_cons hgeom
    obtain ⟨c, hc⟩ := Option.ne_none_iff_exists'.mp hitem
    simp only [applyOperator_loop]
    have hlog : (w.log (conversion_calls K X item.second)).calls.length
        = w.calls.length + (conversion_calls K X item.second).length := by
      simp [World.log]
    have hlogp : (w.log (conversion_calls K X item.second)).progress = w.progress := rfl
    have hnc : (normalisation_calls K X (item :: rest)).length
        = (conversion_calls K X item.second).length
          + (normalisation_calls K X rest).length := by
      rw [normalisation_calls_cons, List.length_append]
    cases hN : st.N with
    | none =>
      have hstep : applyOperator_item K X op item st w
          = .ok ⟨st.nary_union, st.nary_union_num_inserted, some c⟩
              (w.log (conversion_calls K X item.second)) := by
        rw [applyOperator_item_eq K X op item st w c hc]
        simp [applyOperator_combine, hN, hop]
      have hrep : reported_owners K X op (item :: rest) st.N
          = reported_owners K X op rest (some c) := by
        simp [reported_owners, hc, hN]
      rw [hN] at hrep
      rw [hN, hrep] at hown
      rw [hstep, hrep]
      obtain ⟨st2, w2, hloop, hp2, hc2⟩ := ih hrest
        ⟨st.nary_union, st.nary_union_num_inserted, some c⟩
        (w.log (conversion_calls K X item.second)) hown
      exact ⟨st2, w2, hloop, by rw [hp2, hlogp], by rw [hc2, hlog, hnc]; simp only; omega⟩
    | some N =>
      by_cases hce : c.isEmpty K = true
      · have hstep : applyOperator_item K X op item st w
            = .ok ⟨st.nary_union, st.nary_union_num_inserted,
                some (if op = .OPENSCAD_INTERSECTION then c else N)⟩
                (w.log (conversion_calls K X item.second)) := by
          rw [applyOperator_item_eq K X op item st w c hc]
          by_cases hi : op = .OPENSCAD_INTERSECTION
          · simp [applyOperator_combine, hN, hce, hi]
          · simp only [applyOperator_combine, hN, hop, hce, hi, if_false, if_true]
            rw [← hN]
        have hrep : reported_owners K X op (item :: rest) (some N)
            = reported_owners K X op rest
                (some (if op = .OPENSCAD_INTERSECTION then c else N)) := by
          simp [reported_owners, hc, hce]
        rw [hN, hrep] at hown
        rw [hstep, hrep]
        obtain ⟨st2, w2, hloop, hp2, hc2⟩ := ih hrest
          ⟨st.nary_union, st.nary_union_num_inserted,
            some (if op = .OPENSCAD_INTERSECTION then c else N)⟩
          (w.log (conversion_calls K X item.second)) hown
        exact ⟨st2, w2, hloop, by rw [hp2, hlogp],
          by rw [hc2, hlog, hnc]; simp only; omega⟩
      · have hce : c.isEmpty K = false := by simpa using hce
        by_cases hNe : N.isEmpty K = true
        · have hstep : applyOperator_item K X op item st w
              = .ok st (w.log (conversion_calls K X item.second)) := by
            rw [applyOperator_item_eq K X op item st w c hc]
            simp [applyOperator_combine, hN, hop, hce, hNe]
          have hrep : reported_owners K X op (item :: rest) (some N)
              = reported_owners K X op rest (some N) := by
            simp [reported_owners, hc, hce, hNe]
          rw [hN, hrep] at hown
          rw [hstep, hrep]
          obtain ⟨st2, w2, hloop, hp2, hc2⟩ := ih hrest st
            (w.log (conversion_calls K X item.second)) (by rw [hN]; exact hown)
          rw [hN] at hp2 hc2
          exact ⟨st2, w2, hloop, by rw [hp2, hlogp], by rw [hc2, hlog, hnc]; omega⟩
        · have hNe : N.isEmpty K = false := by simpa using hNe
          have hrep : reported_owners K X op (item :: rest) (some N)
              = item.first
                :: reported_owners K X op rest (some (operator_result K op N c)) := by
            simp [reported_owners, hc, hce, hNe]
          rw [hN, hrep] at hown
          obtain ⟨node, hnode⟩ := Option.ne_none_iff_exists'.mp
            (hown item.first (List.mem_cons_self _ _))
          obtain ⟨w1, hstep, hp1, hc1⟩ :=
            applyOperator_item_reported K X op hop item st w N c node hc hN hce hNe hnode
          obtain ⟨st2, w2, hloop, hp2, hc2⟩ := ih hrest
            ⟨st.nary_union, st.nary_union_num_inserted, some (operator_result K op N c)⟩ w1
            (fun o ho => hown o (List.mem_cons_of_mem _ ho))
          rw [hstep, hrep]
          refine ⟨st2, w2, hloop, ?_, ?_⟩
          · rw [hp2, hp1, hnode]
            simp
          · rw [hc2, hc1, hnc]
            cases switch_handles op <;> simp
            · omega
            · omega

/-- The list `fake_children` of `applyMinkowski`, when its construction returns: every item
holds a complex and a null owner, and no progress callback has run. -/
theorem fake_children_spec (K : Kernel) (X : KernelHull K) (result_parts : List K.Hull)
    (w : World K) (items : List (ChildItem K)) (w1 : World K)
    (h : fake_children K X result_parts w = .ok items w1) :
    (∀ item ∈ items, item.first = none ∧ ∃ n, item.second = .nef n) ∧
    items.length = result_parts.length ∧ w1.progress = w.progress := by
  induction result_parts generalizing w items w1 with
  | nil =>
    simp only [fake_children, Outcome.ok.injEq] at h
    rw [← h.1, ← h.2]
    simp
  | cons i rest ih =>
    simp only [fake_children] at h
    cases hconv : createNefPolyhedronFromGeometry K X
        (createPolySetFromPolyhedron K i ⟨3, some true, []⟩).1 w with
    | undefined => simp [hconv] at h
    | raised v => simp [hconv] at h
    | ok N v =>
      simp only [hconv] at h
      cases hrest : fake_children K X rest v with
      | undefined => simp [hrest] at h
      | raised v2 => simp [hrest] at h
      | ok items2 v2 =>
        simp only [hrest, Outcome.ok.injEq] at h
        obtain ⟨h1, h2, h3⟩ := ih v items2 v2 hrest
        have hres : chN_reset K X
            (.polyset (createPolySetFromPolyhedron K i ⟨3, some true, []⟩).1) w
            = .ok (some N) v := by
          simp [chN_reset, hconv]
        have hv := (chN_reset_ok K X _ w N v hres).2
        rw [← h.1, ← h.2]
        refine ⟨?_, by simp [h2], ?_⟩
        · intro item hitem
          rcases List.mem_cons.mp hitem with hi | hi
          · subst hi
            exact ⟨rfl, N, rfl⟩
          · exact h1 item hi
        · rw [h3, hv]
          rfl

/-- Claim C24: in `applyOperator` with an operator other than UNION, on operands that are
meshes or complexes, the progress callback runs exactly once for each operand that reaches the
operator (a non-first, non-empty operand met while the running result is non-empty), in child
order, and for no other operand; the kernel operator is called as often, whether it succeeds
or fails, the other kernel operations being those of the normalisation of the children.  With
UNION no callback runs whatever the owner handles are, so the child list built by
`applyMinkowski`, whose owner handles are all null, is processed without dereferencing an
owner. -/
theorem progress_report_per_operator_call (K : Kernel) (X : KernelHull K)
    (children : List (ChildItem K)) (hgeom : operands_valid K X children) (dest : Nef K)
    (w : World K) :
    (∀ op, op ≠ .OPENSCAD_UNION →
      (∀ o ∈ reported_owners K X op children none, o ≠ none) →
      ∃ d w1, applyOperator K X children dest op w = .ok d w1 ∧
        w1.progress.map some
          = w.progress.map some ++ reported_owners K X op children none ∧
        (switch_handles op = true →
          w1.calls.length = w.calls.length + (normalisation_calls K X children).length
            + (reported_owners K X op children none).length)) ∧
    ((∀ call ∈ normalisation_calls K X children, call.is_conversion = true) ∧
      ((∀ c ∈ children, ∃ n, c.second = .nef n) →
        (normalisation_calls K X children).length = 0)) ∧
    (∃ d w1, applyOperator K X children dest .OPENSCAD_UNION w = .ok d w1 ∧
      w1.progress = w.progress) ∧
    (∀ (result_parts : List K.Hull) (w0 w1 : World K) (items : List (ChildItem K)),
      fake_children K X result_parts w0 = .ok items w1 →
      (∀ item ∈ items, item.first = none) ∧ w1.progress = w0.progress ∧
      ∃ d w2, applyOperator K X items dest .OPENSCAD_UNION w1 = .ok d w2 ∧
        w2.progress = w1.progress) := by
  have hunion : ∀ (l : List (ChildItem K)) (v : World K), operands_valid K X l →
      ∃ d w1, applyOperator K X l dest .OPENSCAD_UNION v = .ok d w1 ∧
        w1.progress = v.progress := by
    intro l v hl
    unfold applyOperator
    rw [applyOperator_loop_union K X l hl]
    simp only [applyOperator_finish]
    split_ifs
    · exact ⟨_, _, rfl, rfl⟩
    · exact ⟨_, _, rfl, rfl⟩
  refine ⟨?_, ⟨normalisation_calls_is_conversion K X children, ?_⟩,
    hunion children w hgeom, ?_⟩
  · intro op hop hown
    obtain ⟨st1, w1, hloop, hp, hc⟩ :=
      applyOperator_loop_reported K X op hop children hgeom ⟨K.nary_new, 0, none⟩ w hown
    unfold applyOperator
    rw [hloop]
    simp only [applyOperator_finish, hop, false_and, if_false]
    refine ⟨_, w1, rfl, hp, fun hs => ?_⟩
    rw [hc, hs]
    rfl
  · intro hnef
    induction children with
    | nil => rfl
    | cons item rest ih =>
      obtain ⟨n, hn⟩ := hnef item (List.mem_cons_self _ _)
      have hrest := ih (operands_valid_cons hgeom).2
        (fun c hc => hnef c (List.mem_cons_of_mem _ hc))
      rw [normalisation_calls_cons, List.length_append, hrest, hn, conversion_calls_nef]
      rfl
  · intro result_parts w0 w1 items hfake
    obtain ⟨h1, _, h3⟩ := fake_children_spec K X result_parts w0 items w1 hfake
    refine ⟨fun item hitem => (h1 item hitem).1, h3, ?_⟩
    exact hunion items w1
      (operands_valid_of_nef K X items (fun item hitem => (h1 item hitem).2))

/-- Witness for C24 on the voxel kernel, with DIFFERENCE: the first operand and the empty
second one run no callback; the third makes the kernel operator fail and the fourth makes it
succeed, and the callbacks of their owners 3 and 4 run, once each. -/
theorem progress_report_per_operator_call_witness :
    reported_owners voxelKernel voxelHull .OPENSCAD_DIFFERENCE
      [child 1 [1, 2], child 2 [], child 3 [13], child 4 [2]] none = [some 3, some 4] ∧
    applyOperator voxelKernel voxelHull
        [child 1 [1, 2], child 2 [], child 3 [13], child 4 [2]]
        (solid [9]) .OPENSCAD_DIFFERENCE world0
      = .ok (solid [13])
          ⟨.ABORT, [3, 4], [.difference [1, 2] [13], .difference [13] [2]]⟩ ∧
    ∃ d w1, applyOperator voxelKernel voxelHull
        [child 1 [1, 2], child 2 [], child 3 [13], child 4 [2]]
        (solid [9]) .OPENSCAD_DIFFERENCE world0 = .ok d w1 ∧
      w1.progress.map some = world0.progress.map some ++
        reported_owners voxelKernel voxelHull .OPENSCAD_DIFFERENCE
          [child 1 [1, 2], child 2 [], child 3 [13], child 4 [2]] none ∧
      (switch_handles .OPENSCAD_DIFFERENCE = true →
        w1.calls.length = world0.calls.length +
          (normalisation_calls voxelKernel voxelHull
            [child 1 [1, 2], child 2 [], child 3 [13], child 4 [2]]).length +
          (reported_owners voxelKernel voxelHull .OPENSCAD_DIFFERENCE
            [child 1 [1, 2], child 2 [], child 3 [13], child 4 [2]] none).length) :=
  ⟨by rfl, by rfl,
    (progress_report_per_operator_call voxelKernel voxelHull
      [child 1 [1, 2], child 2 [], child 3 [13], child 4 [2]]
      (operands_valid_of_nef voxelKernel voxelHull _ (by
        intro c hc; simp at hc; rcases hc with h | h | h | h <;> subst h <;> exact ⟨_, rfl⟩))
      (solid [9]) world0).1 .OPENSCAD_DIFFERENCE (by decide)
      (by
        intro o ho
        have hr : reported_owners voxelKernel voxelHull .OPENSCAD_DIFFERENCE
            [child 1 [1, 2], child 2 [], child 3 [13], child 4 [2]] none
              = [some 3, some 4] := by rfl
        rw [hr] at ho
        simp at ho
        rcases ho with h | h <;> subst h <;> simp)⟩

end CGALUtils
